import Mathlib

/-!
Verification of the maze core in `src/logic.rs` (grid & tree model, step
algorithm, text renderer).

Modelling conventions:
* `u32` values (coordinates, dimensions, indices) are modelled by `Nat`.
  The guarded subtractions in the source (`origin.0 - 1` behind an `== 0`
  test) keep their guards; every *unguarded* `u32` subtraction is modelled
  by `sub?`, whose `none` result models the debug-build underflow panic.
* `Vec<T>` is modelled by `List T`; an indexed write `v[i] = a` is modelled
  by `setIdx`, whose `none` result models the out-of-bounds index panic,
  and an indexed read by `l[i]?`, whose `none` likewise models the panic.
* Fallible computations (any that can hit a panic) return `Option`/`Except`.
-/

/-- Parent-pointer / movement direction (src/logic.rs, `enum Dir`). -/
inductive Dir : Type
  | up
  | down
  | left
  | right
  deriving DecidableEq, Repr

/-- The `rng.gen_range(0..4)` decoding in `impl Distribution<Dir> for Standard`:
`0 => Up, 1 => Down, 2 => Left, 3 => Right` (other values unreachable for a
draw from `0..4`). -/
def Dir.sample (n : Nat) : Dir :=
  match n with
  | 0 => Dir.up
  | 1 => Dir.down
  | 2 => Dir.left
  | _ => Dir.right

/-- The maze state (src/logic.rs, `struct Maze`). -/
structure Maze : Type where
  width : Nat
  height : Nat
  origin : Nat × Nat
  tiles : List (Option Dir)
  horz_walls : List Bool
  vert_walls : List Bool
  deriving DecidableEq, Repr

/-- An indexed `Vec` write `v[i] = a`; `none` models the Rust panic on an
out-of-bounds index. -/
def setIdx {α : Type} (l : List α) (i : Nat) (a : α) : Option (List α) :=
  if i < l.length then some (l.set i a) else none

/-- Non-wrapping `u32` subtraction; `none` models the underflow panic. -/
def sub? (a b : Nat) : Option Nat :=
  if b ≤ a then some (a - b) else none

/-- Body of `Maze::new` (src/logic.rs lines 36-61), for `width ≥ 1`,
`height ≥ 1`.  `chunks_exact_mut(width)` over the `width*height` tile vector
visits exactly `height` chunks and `row[0]` of chunk `i` is linear index
`i*width`; likewise for the `width*(height-1)` horizontal-wall vector. -/
def Maze.newBody (width height : Nat) : Maze :=
  let tiles := List.replicate (width * height) (some Dir.left)
  let tiles := (List.range height).foldl
    (fun t i => t.set (i * width) (if i = 0 then none else some Dir.up)) tiles
  let horz_walls := List.replicate (width * (height - 1)) true
  let horz_walls := (List.range (height - 1)).foldl
    (fun t i => t.set (i * width) false) horz_walls
  let vert_walls := List.replicate ((width - 1) * height) false
  { width, height, tiles, horz_walls, vert_walls, origin := (0, 0) }

/-- Failure modes of the modelled code.  `panic` models a Rust panic
(index out of bounds, `unwrap` of `None`, `u32` underflow, zero chunk size).
`invalidDimension` is the error named by the specification's §7; the source
defines no error type and never produces such a value — the constructor
exists only so that the specification's statement can be expressed. -/
inductive MazeErr : Type
  | invalidDimension
  | panic
  deriving DecidableEq, Repr

/-- `Maze::new` (src/logic.rs lines 36-61).  The source returns `Self` and
performs no validation: for `width = 0` the call
`tiles.chunks_exact_mut(0)` panics (chunk size must be non-zero), and for
`height = 0` the `height - 1` in the horizontal-wall allocation underflows
`u32`.  Both degenerate cases are therefore modelled as `MazeErr.panic`. -/
def Maze.new (width height : Nat) : Except MazeErr Maze :=
  if width = 0 ∨ height = 0 then Except.error MazeErr.panic
  else Except.ok (Maze.newBody width height)

/-- The `match` inside the rejection loop of `Maze::step` (src/logic.rs
lines 68-77) computing `new_origin` from a sampled direction: `none` is a
rejected (out-of-grid) direction. -/
def Maze.moveTarget (m : Maze) (direction : Dir) : Option (Nat × Nat) :=
  match direction with
  | Dir.left => if m.origin.1 = 0 then none else some (m.origin.1 - 1, m.origin.2)
  | Dir.up => if m.origin.2 = 0 then none else some (m.origin.1, m.origin.2 - 1)
  | Dir.right => if m.origin.1 + 1 = m.width then none else some (m.origin.1 + 1, m.origin.2)
  | Dir.down => if m.origin.2 + 1 = m.height then none else some (m.origin.1, m.origin.2 + 1)

/-- `Maze::step` after the sampling loop (src/logic.rs lines 84-129), given
the accepted `direction` and `new_origin`.  `none` models a panic: an
out-of-bounds wall/tile index, the `unwrap` of the new root's tile when that
tile is `None`, or a `u32` underflow in an index computation. -/
def Maze.stepCore (m : Maze) (direction : Dir) (new_origin : Nat × Nat) : Option Maze := do
  let old_origin := m.origin
  let m₁ : Maze ←
    match direction with
    | Dir.up => do
        let hw ← setIdx m.horz_walls (new_origin.1 + new_origin.2 * m.width) false
        pure { m with horz_walls := hw }
    | Dir.down => do
        let hw ← setIdx m.horz_walls (old_origin.1 + old_origin.2 * m.width) false
        pure { m with horz_walls := hw }
    | Dir.left => do
        let w1 ← sub? m.width 1
        let vw ← setIdx m.vert_walls (new_origin.1 + new_origin.2 * w1) false
        pure { m with vert_walls := vw }
    | Dir.right => do
        let w1 ← sub? m.width 1
        let vw ← setIdx m.vert_walls (old_origin.1 + old_origin.2 * w1) false
        pure { m with vert_walls := vw }
  let t ← m₁.tiles[new_origin.1 + new_origin.2 * m₁.width]?
  let other_dir ← t
  let m₂ : Maze ←
    match direction, other_dir with
    | Dir.down, Dir.up => pure m₁
    | _, Dir.up => do
        let y1 ← sub? new_origin.2 1
        let hw ← setIdx m₁.horz_walls (new_origin.1 + y1 * m₁.width) true
        pure { m₁ with horz_walls := hw }
    | Dir.up, Dir.down => pure m₁
    | _, Dir.down => do
        let hw ← setIdx m₁.horz_walls (new_origin.1 + new_origin.2 * m₁.width) true
        pure { m₁ with horz_walls := hw }
    | Dir.right, Dir.left => pure m₁
    | _, Dir.left => do
        let x1 ← sub? new_origin.1 1
        let w1 ← sub? m₁.width 1
        let vw ← setIdx m₁.vert_walls (x1 + new_origin.2 * w1) true
        pure { m₁ with vert_walls := vw }
    | Dir.left, Dir.right => pure m₁
    | _, Dir.right => do
        let w1 ← sub? m₁.width 1
        let vw ← setIdx m₁.vert_walls (new_origin.1 + new_origin.2 * w1) true
        pure { m₁ with vert_walls := vw }
  let tiles₁ ← setIdx m₂.tiles (old_origin.1 + old_origin.2 * m₂.width) (some direction)
  let tiles₂ ← setIdx tiles₁ (new_origin.1 + new_origin.2 * m₂.width) none
  pure { m₂ with tiles := tiles₂, origin := new_origin }

/-- One iteration of `Maze::step` for a given sampled direction: the
direction is either rejected by the in-bounds `match` (`none`, the loop
retries with the maze unchanged) or accepted and the mutation body runs. -/
def Maze.step (m : Maze) (direction : Dir) : Option Maze :=
  match m.moveTarget direction with
  | none => none
  | some new_origin => m.stepCore direction new_origin

/-- Termination of the rejection-sampling loop in `Maze::step` (src/logic.rs
lines 66-82) for a given stream of drawn directions: some draw is accepted. -/
def Maze.loopTerminates (m : Maze) (draws : Nat → Dir) : Prop :=
  ∃ k, (m.moveTarget (draws k)).isSome

/-- The cell reached by walking one step from `c` in the direction stored in
`c`'s parent pointer — the parent of `c` in the encoded tree (spec §3). -/
def Maze.parentOf (m : Maze) (c : Nat × Nat) : Option (Nat × Nat) :=
  match m.tiles[c.1 + c.2 * m.width]? with
  | some (some Dir.up) => some (c.1, c.2 - 1)
  | some (some Dir.down) => some (c.1, c.2 + 1)
  | some (some Dir.left) => some (c.1 - 1, c.2)
  | some (some Dir.right) => some (c.1 + 1, c.2)
  | _ => none

/-- `c` reaches `root` by following the partial parent function `par`. -/
inductive Follows (par : Nat × Nat → Option (Nat × Nat)) (root : Nat × Nat) :
    Nat × Nat → Prop
  | refl : Follows par root root
  | step {c c' : Nat × Nat} : par c = some c' → Follows par root c' →
      Follows par root c

/-- States reachable from `Maze::new width height` by any sequence of
(successful) `Maze::step` calls. -/
inductive Maze.Reachable (w h : Nat) : Maze → Prop
  | base {m : Maze} : Maze.new w h = Except.ok m → Maze.Reachable w h m
  | step {m m' : Maze} (d : Dir) : Maze.Reachable w h m → m.step d = some m' →
      Maze.Reachable w h m'

/-- One character of `Maze::to_str` (src/logic.rs lines 138-185), at text
column `x` and text row `y`; `none` models an out-of-bounds read panic. -/
def Maze.cellChar (m : Maze) (dirs : Bool) (x y : Nat) : Option Char :=
  let xe := x % 2 == 0
  let xx := x / 2
  let ye := y % 2 == 0
  let yy := y / 2
  match xe, ye with
  | false, false =>
      if dirs then
        match m.tiles[xx + yy * m.width]? with
        | some (some Dir.up) => some '^'
        | some (some Dir.down) => some 'v'
        | some (some Dir.left) => some '<'
        | some (some Dir.right) => some '>'
        | some none => some 'X'
        | none => none
      else some ' '
  | true, true => some '+'
  | false, true =>
      if yy = 0 ∨ yy = m.height then some '-'
      else
        match m.horz_walls[xx + (yy - 1) * m.width]? with
        | some true => some '-'
        | some false => some ' '
        | none => none
  | true, false =>
      if xx = 0 ∨ xx = m.width then some '|'
      else
        match m.vert_walls[(xx - 1) + yy * (m.width - 1)]? with
        | some true => some '|'
        | some false => some ' '
        | none => none

/-- One text row of `Maze::to_str`: the inner `for x` loop. -/
def Maze.rowChars (m : Maze) (dirs : Bool) (y : Nat) : Option (List Char) :=
  (List.range (m.width * 2 + 1)).mapM (fun x => m.cellChar dirs x y)

/-- All text rows of `Maze::to_str`: the outer `for y` loop. -/
def Maze.gridChars (m : Maze) (dirs : Bool) : Option (List (List Char)) :=
  (List.range (m.height * 2 + 1)).mapM (fun y => m.rowChars dirs y)

/-- `Maze::to_str` (src/logic.rs lines 138-185): the rows, each followed by
a newline, accumulated into one string. -/
def Maze.to_str (m : Maze) (dirs : Bool) : Option String :=
  (m.gridChars dirs).map
    (fun rows => String.join (rows.map (fun r => String.mk r ++ "\n")))

/-! ### The open-wall graph (spec §2): vertices are cells, edges are open walls -/

/-- One orientation of wall-adjacency: `b` is the lower or the right
neighbour of `a` and the wall between them (at the index the source uses:
`x + y*width` for horizontal walls, `x + y*(width-1)` for vertical walls)
is open (`false`). -/
def Maze.openAdjStep (m : Maze) (a b : Nat × Nat) : Prop :=
  (b.1 = a.1 ∧ b.2 = a.2 + 1 ∧ m.horz_walls[a.1 + a.2 * m.width]? = some false) ∨
  (b.2 = a.2 ∧ b.1 = a.1 + 1 ∧ m.vert_walls[a.1 + a.2 * (m.width - 1)]? = some false)

/-- `a` and `b` are adjacent cells separated by an open wall. -/
def Maze.openAdj (m : Maze) (a b : Nat × Nat) : Prop :=
  m.openAdjStep a b ∨ m.openAdjStep b a

/-- The graph over the `width*height` cells whose edges are the open walls. -/
def Maze.openGraph (w h : Nat) (m : Maze) : SimpleGraph (Fin w × Fin h) where
  Adj a b := m.openAdj (a.1.1, a.2.1) (b.1.1, b.2.1)
  symm := by
    intro a b hab
    exact Or.symm hab
  loopless := by
    intro a ha
    simp only [Maze.openAdj, Maze.openAdjStep] at ha
    rcases ha with hs | hs <;> rcases hs with ⟨_, h2, _⟩ | ⟨_, h2, _⟩ <;> omega

/-- The parent map lifted to in-bounds vertices (an out-of-bounds parent,
which `Maze.Inv` excludes, is mapped to `none`). -/
def Maze.parentFin (w h : Nat) (m : Maze) (v : Fin w × Fin h) :
    Option (Fin w × Fin h) :=
  match m.parentOf (v.1.1, v.2.1) with
  | some q =>
      if hq : q.1 < w ∧ q.2 < h then some (⟨q.1, hq.1⟩, ⟨q.2, hq.2⟩) else none
  | none => none

/-- One application of the parent map as a total function (the root maps to
itself). -/
def Maze.pstep (m : Maze) (p : Nat × Nat) : Nat × Nat :=
  (m.parentOf p).getD p

/-! ### Index arithmetic for the row-major layout -/

/-- A cell index `x + y*w` with `x < w`, `y < h` is in range for a
`w*h`-element row-major array. -/
theorem idx_lt {x y w h : Nat} (hx : x < w) (hy : y < h) : x + y * w < w * h :=
  calc x + y * w < w + y * w := Nat.add_lt_add_right hx _
    _ = (y + 1) * w := by ring
    _ ≤ h * w := Nat.mul_le_mul_right _ hy
    _ = w * h := Nat.mul_comm _ _

theorem idx_inj {x x' y y' w : Nat} (hx : x < w) (hx' : x' < w)
    (he : x + y * w = x' + y' * w) : x = x' ∧ y = y' := by
  have hw : 0 < w := lt_of_le_of_lt (Nat.zero_le x) hx
  have h1 : (x + y * w) % w = x := by
    rw [Nat.add_mul_mod_self_right, Nat.mod_eq_of_lt hx]
  have h2 : (x' + y' * w) % w = x' := by
    rw [Nat.add_mul_mod_self_right, Nat.mod_eq_of_lt hx']
  have hxx : x = x' := by rw [← h1, ← h2, he]
  subst hxx
  have hyy : y * w = y' * w := Nat.add_left_cancel he
  exact ⟨rfl, Nat.eq_of_mul_eq_mul_right hw hyy⟩

/-! ### List plumbing: `setIdx`, counts, strided initialisation -/

theorem setIdx_eq_some {α : Type} {l : List α} {i : Nat} (a : α)
    (h : i < l.length) : setIdx l i a = some (l.set i a) := by
  simp [setIdx, h]

theorem setIdx_isSome {α : Type} {l : List α} {i : Nat} {a : α} {r : List α}
    (h : setIdx l i a = some r) : i < l.length ∧ r = l.set i a := by
  by_cases hi : i < l.length <;> simp [setIdx, hi] at h
  exact ⟨hi, h.symm⟩

/-- Writing the value already present leaves the list unchanged. -/
theorem set_same {α : Type} {l : List α} {i : Nat} {a : α}
    (h : l[i]? = some a) : l.set i a = l := by
  apply List.ext_getElem?
  intro n
  rw [List.getElem?_set]
  by_cases hn : i = n
  · subst hn
    rcases List.getElem?_eq_some.mp h with ⟨hi, _⟩
    simp [hi, h]
  · simp [hn]

theorem count_false_set_true {l : List Bool} {i : Nat}
    (h : l[i]? = some false) : (l.set i true).count false + 1 = l.count false := by
  induction l generalizing i with
  | nil => simp at h
  | cons b t ih =>
    cases i with
    | zero =>
      simp at h
      subst h
      simp [List.count_cons]
    | succ j =>
      simp at h
      have := ih h
      cases b <;> simp [List.count_cons, List.set] <;> omega

theorem count_false_set_false {l : List Bool} {i : Nat}
    (h : l[i]? = some true) : (l.set i false).count false = l.count false + 1 := by
  induction l generalizing i with
  | nil => simp at h
  | cons b t ih =>
    cases i with
    | zero =>
      simp at h
      subst h
      simp [List.count_cons]
    | succ j =>
      simp at h
      have := ih h
      cases b <;> simp [List.count_cons, List.set] <;> omega

theorem foldl_set_length {α : Type} (g : Nat → Nat) (v : Nat → α)
    (is : List Nat) (l : List α) :
    (is.foldl (fun t i => t.set (g i) (v i)) l).length = l.length := by
  induction is generalizing l with
  | nil => rfl
  | cons i is ih => simp [ih, List.length_set]

/-- Read-back of a strided initialisation pass: writes go to positions
`0*w, 1*w, …, (n-1)*w`. -/
theorem foldl_set_stride_getElem {α : Type} {w : Nat} (hw : 1 ≤ w) (v : Nat → α)
    (l : List α) (n j : Nat) :
    ((List.range n).foldl (fun t i => t.set (i * w) (v i)) l)[j]? =
      if j % w = 0 ∧ j / w < n then
        (if j < l.length then some (v (j / w)) else none)
      else l[j]? := by
  induction n with
  | zero => simp
  | succ n ih =>
    rw [List.range_succ, List.foldl_append]
    simp only [List.foldl_cons, List.foldl_nil]
    rw [List.getElem?_set, foldl_set_length, ih]
    by_cases hj : n * w = j
    · subst hj
      have hmod : n * w % w = 0 := Nat.mul_mod_left n w
      have hdiv : n * w / w = n := Nat.mul_div_left n (by omega)
      simp [hmod, hdiv, Nat.lt_succ_self]
    · have hne : ¬(j % w = 0 ∧ j / w = n) := by
        rintro ⟨h1, h2⟩
        apply hj
        have hd := Nat.div_add_mod j w
        rw [h2] at hd
        rw [Nat.mul_comm]
        omega
      by_cases hcond : j % w = 0 ∧ j / w < n
      · simp [hj, hcond, hcond.1, Nat.lt_succ_of_lt hcond.2]
      · have : ¬(j % w = 0 ∧ j / w < n + 1) := by
          rintro ⟨h1, h2⟩
          rcases Nat.lt_succ_iff_lt_or_eq.mp h2 with h | h
          · exact hcond ⟨h1, h⟩
          · exact hne ⟨h1, h⟩
        simp [hj, hcond, this]

/-! ### Characterisation of the initial comb state -/

theorem newBody_width (w h : Nat) : (Maze.newBody w h).width = w := rfl

theorem newBody_height (w h : Nat) : (Maze.newBody w h).height = h := rfl

theorem newBody_origin (w h : Nat) : (Maze.newBody w h).origin = (0, 0) := rfl

theorem newBody_tiles_len (w h : Nat) : (Maze.newBody w h).tiles.length = w * h := by
  simp only [Maze.newBody]
  rw [foldl_set_length (fun i => i * w)
    (fun i => if i = 0 then none else some Dir.up)]
  exact List.length_replicate _ _

theorem newBody_horz_len (w h : Nat) :
    (Maze.newBody w h).horz_walls.length = w * (h - 1) := by
  simp only [Maze.newBody]
  rw [foldl_set_length (fun i => i * w) (fun _ => false)]
  exact List.length_replicate _ _

theorem newBody_vert_len (w h : Nat) :
    (Maze.newBody w h).vert_walls.length = (w - 1) * h :=
  List.length_replicate _ _

theorem newBody_tiles_get (w h : Nat) (hw : 1 ≤ w) {x y : Nat}
    (hx : x < w) (hy : y < h) :
    (Maze.newBody w h).tiles[x + y * w]? =
      some (if x = 0 then (if y = 0 then none else some Dir.up)
            else some Dir.left) := by
  have hmod : (x + y * w) % w = x := by
    rw [Nat.add_mul_mod_self_right, Nat.mod_eq_of_lt hx]
  have hdiv : (x + y * w) / w = y := by
    rw [Nat.add_mul_div_right _ _ (by omega : 0 < w), Nat.div_eq_of_lt hx]
    omega
  have hlt : x + y * w < w * h := idx_lt hx hy
  show ((List.range h).foldl
    (fun t i => t.set (i * w) (if i = 0 then none else some Dir.up))
    (List.replicate (w * h) (some Dir.left)))[x + y * w]? = _
  rw [foldl_set_stride_getElem hw, hmod, hdiv]
  simp only [List.length_replicate]
  by_cases hx0 : x = 0
  · rw [if_pos ⟨hx0, hy⟩, if_pos hlt, if_pos hx0]
  · rw [if_neg (fun hc => hx0 hc.1), if_neg hx0]
    simp [List.getElem?_replicate, hlt]

theorem newBody_horz_get (w h : Nat) (hw : 1 ≤ w) {x y : Nat}
    (hx : x < w) (hy : y < h - 1) :
    (Maze.newBody w h).horz_walls[x + y * w]? =
      some (if x = 0 then false else true) := by
  have hmod : (x + y * w) % w = x := by
    rw [Nat.add_mul_mod_self_right, Nat.mod_eq_of_lt hx]
  have hdiv : (x + y * w) / w = y := by
    rw [Nat.add_mul_div_right _ _ (by omega : 0 < w), Nat.div_eq_of_lt hx]
    omega
  have hlt : x + y * w < w * (h - 1) := idx_lt hx hy
  show ((List.range (h - 1)).foldl (fun t i => t.set (i * w) false)
    (List.replicate (w * (h - 1)) true))[x + y * w]? = _
  rw [foldl_set_stride_getElem hw, hmod, hdiv]
  simp only [List.length_replicate]
  by_cases hx0 : x = 0
  · rw [if_pos ⟨hx0, hy⟩, if_pos hlt, if_pos hx0]
  · rw [if_neg (fun hc => hx0 hc.1), if_neg hx0]
    simp [List.getElem?_replicate, hlt]

theorem newBody_vert_get (w h : Nat) {j : Nat} (hj : j < (w - 1) * h) :
    (Maze.newBody w h).vert_walls[j]? = some false := by
  show (List.replicate ((w - 1) * h) false)[j]? = some false
  simp [List.getElem?_replicate, hj]

theorem comb_horz_count_aux (w : Nat) (hw : 1 ≤ w) (m : Nat) :
    ∀ n, n ≤ m →
      ((List.range n).foldl (fun t i => t.set (i * w) false)
        (List.replicate (w * m) true)).count false = n := by
  intro n
  induction n with
  | zero => intro _; simp [List.count_replicate]
  | succ n ih =>
    intro hnm
    rw [List.range_succ, List.foldl_append]
    simp only [List.foldl_cons, List.foldl_nil]
    have hprev : ((List.range n).foldl (fun t i => t.set (i * w) false)
        (List.replicate (w * m) true))[n * w]? = some true := by
      rw [foldl_set_stride_getElem hw]
      have hdiv : n * w / w = n := Nat.mul_div_left n (by omega)
      have hlt : n * w < w * m := by
        calc n * w < m * w := (Nat.mul_lt_mul_right (by omega)).mpr (by omega)
          _ = w * m := Nat.mul_comm _ _
      simp [hdiv, List.getElem?_replicate, hlt]
    rw [count_false_set_false hprev, ih (by omega)]

theorem newBody_horz_count (w h : Nat) (hw : 1 ≤ w) :
    (Maze.newBody w h).horz_walls.count false = h - 1 := by
  show ((List.range (h - 1)).foldl (fun t i => t.set (i * w) false)
    (List.replicate (w * (h - 1)) true)).count false = h - 1
  exact comb_horz_count_aux w hw (h - 1) (h - 1) (Nat.le_refl _)

theorem newBody_vert_count (w h : Nat) :
    (Maze.newBody w h).vert_walls.count false = (w - 1) * h := by
  show (List.replicate ((w - 1) * h) false).count false = (w - 1) * h
  simp [List.count_replicate]

theorem comb_count_arith {w h : Nat} (hw : 1 ≤ w) (hh : 1 ≤ h) :
    (h - 1) + (w - 1) * h + 1 = w * h := by
  obtain ⟨w', rfl⟩ : ∃ w', w = w' + 1 := ⟨w - 1, by omega⟩
  obtain ⟨h', rfl⟩ : ∃ h', h = h' + 1 := ⟨h - 1, by omega⟩
  simp only [Nat.add_sub_cancel]
  ring

/-! ### The reachable-state invariant -/

/-- The structural invariant maintained by `Maze::new` and `Maze::step`
(spec §3): well-formed sizes, a single root located at `origin`, parent
pointers that stay on the grid, the open walls exactly the parent edges,
every cell connected to the root through parent pointers, and
`width*height - 1` open walls in total. -/
structure Maze.Inv (w h : Nat) (m : Maze) : Prop where
  width_eq : m.width = w
  height_eq : m.height = h
  wpos : 1 ≤ w
  hpos : 1 ≤ h
  tiles_len : m.tiles.length = w * h
  horz_len : m.horz_walls.length = w * (h - 1)
  vert_len : m.vert_walls.length = (w - 1) * h
  origin_lt : m.origin.1 < w ∧ m.origin.2 < h
  root_none : m.tiles[m.origin.1 + m.origin.2 * w]? = some none
  unique_root : ∀ x y, x < w → y < h → m.tiles[x + y * w]? = some none →
    (x, y) = m.origin
  ptr_up : ∀ x y, x < w → y < h → m.tiles[x + y * w]? = some (some Dir.up) →
    1 ≤ y
  ptr_down : ∀ x y, x < w → y < h → m.tiles[x + y * w]? = some (some Dir.down) →
    y + 1 < h
  ptr_left : ∀ x y, x < w → y < h → m.tiles[x + y * w]? = some (some Dir.left) →
    1 ≤ x
  ptr_right : ∀ x y, x < w → y < h → m.tiles[x + y * w]? = some (some Dir.right) →
    x + 1 < w
  horz_open : ∀ x y, x < w → y + 1 < h →
    (m.horz_walls[x + y * w]? = some false ↔
      (m.tiles[x + (y + 1) * w]? = some (some Dir.up) ∨
        m.tiles[x + y * w]? = some (some Dir.down)))
  vert_open : ∀ x y, x + 1 < w → y < h →
    (m.vert_walls[x + y * (w - 1)]? = some false ↔
      (m.tiles[(x + 1) + y * w]? = some (some Dir.left) ∨
        m.tiles[x + y * w]? = some (some Dir.right)))
  reach : ∀ x y, x < w → y < h → Follows m.parentOf m.origin (x, y)
  wall_count : m.horz_walls.count false + m.vert_walls.count false + 1 = w * h

theorem newBody_parent_left {w h : Nat} (hw : 1 ≤ w) {x y : Nat}
    (hx : x + 1 < w) (hy : y < h) :
    (Maze.newBody w h).parentOf (x + 1, y) = some (x, y) := by
  have ht := newBody_tiles_get w h hw hx hy
  rw [if_neg (Nat.succ_ne_zero x)] at ht
  simp [Maze.parentOf, newBody_width, ht]

theorem newBody_parent_up {w h : Nat} (hw : 1 ≤ w) {y : Nat} (hy : y + 1 < h) :
    (Maze.newBody w h).parentOf (0, y + 1) = some (0, y) := by
  have ht := newBody_tiles_get w h hw (show 0 < w by omega) hy
  rw [if_pos rfl, if_neg (Nat.succ_ne_zero y)] at ht
  simp only [Nat.zero_add] at ht
  simp [Maze.parentOf, newBody_width, ht]

theorem newBody_reach {w h : Nat} (hw : 1 ≤ w) {x y : Nat}
    (hx : x < w) (hy : y < h) :
    Follows (Maze.newBody w h).parentOf (0, 0) (x, y) := by
  induction x with
  | zero =>
    induction y with
    | zero => exact Follows.refl
    | succ y ihy =>
      exact Follows.step (newBody_parent_up hw hy) (ihy (by omega))
  | succ x ihx =>
    exact Follows.step (newBody_parent_left hw hx hy) (ihx (by omega))

theorem newBody_inv {w h : Nat} (hw : 1 ≤ w) (hh : 1 ≤ h) :
    Maze.Inv w h (Maze.newBody w h) := by
  have htg := fun {x y : Nat} (hx : x < w) (hy : y < h) =>
    newBody_tiles_get w h hw hx hy
  refine ⟨rfl, rfl, hw, hh, newBody_tiles_len w h, newBody_horz_len w h,
    newBody_vert_len w h, ?_, ?_, ?_, ?_, ?_, ?_, ?_, ?_, ?_, ?_, ?_⟩
  · rw [newBody_origin]
    exact ⟨hw, hh⟩
  · have := htg (show 0 < w by omega) (show 0 < h by omega)
    simpa [newBody_origin] using this
  · intro x y hx hy ht
    rw [htg hx hy] at ht
    rw [newBody_origin]
    by_cases hx0 : x = 0
    · by_cases hy0 : y = 0
      · simp [hx0, hy0]
      · simp [hx0, hy0] at ht
    · simp [hx0] at ht
  · intro x y hx hy ht
    rw [htg hx hy] at ht
    by_cases hx0 : x = 0
    · by_cases hy0 : y = 0 <;> simp [hx0, hy0] at ht ⊢
      omega
    · simp [hx0] at ht
  · intro x y hx hy ht
    rw [htg hx hy] at ht
    by_cases hx0 : x = 0
    · by_cases hy0 : y = 0 <;> simp [hx0, hy0] at ht
    · simp [hx0] at ht
  · intro x y hx hy ht
    rw [htg hx hy] at ht
    by_cases hx0 : x = 0
    · by_cases hy0 : y = 0 <;> simp [hx0, hy0] at ht
    · omega
  · intro x y hx hy ht
    rw [htg hx hy] at ht
    by_cases hx0 : x = 0
    · by_cases hy0 : y = 0 <;> simp [hx0, hy0] at ht
    · simp [hx0] at ht
  · intro x y hx hy
    rw [newBody_horz_get w h hw hx (by omega),
      htg hx (show y + 1 < h from hy), htg hx (show y < h by omega)]
    by_cases hx0 : x = 0
    · simp [hx0]
    · simp [hx0]
  · intro x y hx hy
    have hj : x + y * (w - 1) < (w - 1) * h := idx_lt (by omega) hy
    rw [newBody_vert_get w h hj, htg hx hy, htg (show x < w by omega) hy]
    rw [if_neg (show ¬x + 1 = 0 by omega)]
    simp
  · intro x y hx hy
    rw [newBody_origin]
    exact newBody_reach hw hx hy
  · rw [newBody_horz_count w h hw, newBody_vert_count w h]
    exact comb_count_arith hw hh

/-! ### Parent-pointer lemmas -/

theorem parentOf_none {m : Maze} {w : Nat} (hw : m.width = w) {c : Nat × Nat}
    (ht : m.tiles[c.1 + c.2 * w]? = some none) : m.parentOf c = none := by
  simp [Maze.parentOf, hw, ht]

theorem parentOf_up {m : Maze} {w : Nat} (hw : m.width = w) {c : Nat × Nat}
    (ht : m.tiles[c.1 + c.2 * w]? = some (some Dir.up)) :
    m.parentOf c = some (c.1, c.2 - 1) := by
  simp [Maze.parentOf, hw, ht]

theorem parentOf_down {m : Maze} {w : Nat} (hw : m.width = w) {c : Nat × Nat}
    (ht : m.tiles[c.1 + c.2 * w]? = some (some Dir.down)) :
    m.parentOf c = some (c.1, c.2 + 1) := by
  simp [Maze.parentOf, hw, ht]

theorem parentOf_left {m : Maze} {w : Nat} (hw : m.width = w) {c : Nat × Nat}
    (ht : m.tiles[c.1 + c.2 * w]? = some (some Dir.left)) :
    m.parentOf c = some (c.1 - 1, c.2) := by
  simp [Maze.parentOf, hw, ht]

theorem parentOf_right {m : Maze} {w : Nat} (hw : m.width = w) {c : Nat × Nat}
    (ht : m.tiles[c.1 + c.2 * w]? = some (some Dir.right)) :
    m.parentOf c = some (c.1 + 1, c.2) := by
  simp [Maze.parentOf, hw, ht]

theorem tiles_get_total {w h : Nat} {m : Maze} (inv : Maze.Inv w h m)
    {x y : Nat} (hx : x < w) (hy : y < h) :
    ∃ t, m.tiles[x + y * w]? = some t := by
  have hb : x + y * w < m.tiles.length := by
    rw [inv.tiles_len]; exact idx_lt hx hy
  exact ⟨m.tiles[x + y * w], List.getElem?_eq_getElem hb⟩

theorem parentOf_bounds {w h : Nat} {m : Maze} (inv : Maze.Inv w h m)
    {c c' : Nat × Nat} (hc : c.1 < w ∧ c.2 < h)
    (hp : m.parentOf c = some c') : c'.1 < w ∧ c'.2 < h := by
  have hw := inv.width_eq
  simp only [Maze.parentOf, hw] at hp
  rcases htc : m.tiles[c.1 + c.2 * w]? with _ | t
  · rw [htc] at hp; cases hp
  · rw [htc] at hp
    rcases t with _ | dir
    · cases hp
    · cases dir with
      | up =>
        obtain rfl : (c.1, c.2 - 1) = c' := Option.some.inj hp
        exact ⟨hc.1, by omega⟩
      | down =>
        obtain rfl : (c.1, c.2 + 1) = c' := Option.some.inj hp
        exact ⟨hc.1, inv.ptr_down c.1 c.2 hc.1 hc.2 htc⟩
      | left =>
        obtain rfl : (c.1 - 1, c.2) = c' := Option.some.inj hp
        exact ⟨by omega, hc.2⟩
      | right =>
        obtain rfl : (c.1 + 1, c.2) = c' := Option.some.inj hp
        exact ⟨inv.ptr_right c.1 c.2 hc.1 hc.2 htc, hc.2⟩

/-- Following parent pointers admits no 2-cycle below a root that has no
parent. -/
theorem follows_no_two_cycle {par : Nat × Nat → Option (Nat × Nat)}
    {r a : Nat × Nat} (hr : par r = none) (hf : Follows par r a) :
    ∀ b, par a = some b → par b = some a → False := by
  induction hf with
  | refl =>
    intro b hab _
    rw [hr] at hab
    cases hab
  | step hpc hfc ih =>
    intro b hab hba
    rw [hpc] at hab
    obtain rfl := Option.some.inj hab
    exact ih _ hba hpc

/-- Adjacent cells cannot point at each other: `Up` below `Down`. -/
theorem not_up_down {w h : Nat} {m : Maze} (inv : Maze.Inv w h m)
    {x y : Nat} (hx : x < w) (hy : y + 1 < h)
    (hu : m.tiles[x + (y + 1) * w]? = some (some Dir.up))
    (hd : m.tiles[x + y * w]? = some (some Dir.down)) : False := by
  have h1 : m.parentOf (x, y + 1) = some (x, y) := by
    have := parentOf_up inv.width_eq (c := (x, y + 1)) hu
    simpa using this
  have h2 : m.parentOf (x, y) = some (x, y + 1) :=
    parentOf_down inv.width_eq (c := (x, y)) hd
  have hr : m.parentOf m.origin = none := parentOf_none inv.width_eq inv.root_none
  exact follows_no_two_cycle hr (inv.reach x y hx (by omega)) _ h2 h1

/-- Adjacent cells cannot point at each other: `Left` beside `Right`. -/
theorem not_left_right {w h : Nat} {m : Maze} (inv : Maze.Inv w h m)
    {x y : Nat} (hx : x + 1 < w) (hy : y < h)
    (hl : m.tiles[(x + 1) + y * w]? = some (some Dir.left))
    (hr : m.tiles[x + y * w]? = some (some Dir.right)) : False := by
  have h1 : m.parentOf (x + 1, y) = some (x, y) := by
    have := parentOf_left inv.width_eq (c := (x + 1, y)) hl
    simpa using this
  have h2 : m.parentOf (x, y) = some (x + 1, y) :=
    parentOf_right inv.width_eq (c := (x, y)) hr
  have hro : m.parentOf m.origin = none := parentOf_none inv.width_eq inv.root_none
  exact follows_no_two_cycle hro (inv.reach x y (by omega) hy) _ h2 h1

/-- Re-rooting one tree edge: if every cell (within `P`) followed `par` to
`r`, then after redirecting `r` to point at the adjacent `r'` and clearing
`r'`, every cell follows the new pointers to `r'`. -/
theorem follows_reroot {par par' : Nat × Nat → Option (Nat × Nat)}
    {r r' : Nat × Nat} (P : Nat × Nat → Prop)
    (hPc : ∀ c c', P c → par c = some c' → P c')
    (hr : par r = none)
    (hpr : par' r = some r') (hpr' : par' r' = none)
    (hsame : ∀ c, P c → c ≠ r → c ≠ r' → par' c = par c) :
    ∀ c, P c → Follows par r c → Follows par' r' c := by
  intro c hPc0 hf
  induction hf with
  | refl => exact Follows.step hpr Follows.refl
  | @step c0 c1 hpc hfc ih =>
    by_cases hcr' : c0 = r'
    · subst hcr'
      exact Follows.refl
    · by_cases hcr : c0 = r
      · subst hcr
        rw [hr] at hpc
        cases hpc
      · refine Follows.step ?_ (ih (hPc _ _ hPc0 hpc))
        rw [hsame c0 hPc0 hcr hcr']
        exact hpc

/-! ### Reads over the updated arrays -/

theorem set2_tiles_get {w h : Nat} {tiles : List (Option Dir)}
    (hl : tiles.length = w * h) {o p : Nat × Nat}
    (ho : o.1 < w ∧ o.2 < h) (hp : p.1 < w ∧ p.2 < h) (d : Dir)
    {x y : Nat} (hx : x < w) (hy : y < h) :
    ((tiles.set (o.1 + o.2 * w) (some d)).set (p.1 + p.2 * w) none)[x + y * w]? =
      if x = p.1 ∧ y = p.2 then some none
      else if x = o.1 ∧ y = o.2 then some (some d)
      else tiles[x + y * w]? := by
  have hxy : x + y * w < w * h := idx_lt hx hy
  rw [List.getElem?_set, List.getElem?_set, List.length_set, hl]
  by_cases h1 : p.1 + p.2 * w = x + y * w
  · obtain ⟨e1, e2⟩ := idx_inj hp.1 hx h1
    rw [if_pos h1, if_pos (show p.1 + p.2 * w < w * h by omega),
      if_pos ⟨e1.symm, e2.symm⟩]
  · have hne1 : ¬(x = p.1 ∧ y = p.2) := by
      rintro ⟨rfl, rfl⟩
      exact h1 rfl
    rw [if_neg h1, if_neg hne1]
    by_cases h2 : o.1 + o.2 * w = x + y * w
    · obtain ⟨e1, e2⟩ := idx_inj ho.1 hx h2
      rw [if_pos h2, if_pos (show o.1 + o.2 * w < w * h by omega),
        if_pos ⟨e1.symm, e2.symm⟩]
    · have hne2 : ¬(x = o.1 ∧ y = o.2) := by
        rintro ⟨rfl, rfl⟩
        exact h2 rfl
      rw [if_neg h2, if_neg hne2]

theorem set1_get {α : Type} {l : List α} {i : Nat} {a : α} (j : Nat) :
    (l.set i a)[j]? =
      if i = j then (if j < l.length then some a else none) else l[j]? := by
  rw [List.getElem?_set]
  by_cases hij : i = j
  · subst hij
    rfl
  · rw [if_neg hij, if_neg hij]

theorem set2_get {α : Type} {l : List α} {i1 i2 : Nat} {a1 a2 : α} (j : Nat) :
    ((l.set i1 a1).set i2 a2)[j]? =
      if i2 = j then (if j < l.length then some a2 else none)
      else if i1 = j then (if j < l.length then some a1 else none)
      else l[j]? := by
  rw [set1_get, set1_get, List.length_set]

/-! ### Tiles-side invariant preservation for one step -/

theorem tiles_fields {w h : Nat} {m : Maze} (inv : Maze.Inv w h m)
    (d : Dir) {p : Nat × Nat}
    (hpb : p.1 < w ∧ p.2 < h) (hne : p ≠ m.origin)
    (hdptr : match d with
      | Dir.up => 1 ≤ m.origin.2
      | Dir.down => m.origin.2 + 1 < h
      | Dir.left => 1 ≤ m.origin.1
      | Dir.right => m.origin.1 + 1 < w)
    (hdtar : (match d with
      | Dir.up => (m.origin.1, m.origin.2 - 1)
      | Dir.down => (m.origin.1, m.origin.2 + 1)
      | Dir.left => (m.origin.1 - 1, m.origin.2)
      | Dir.right => (m.origin.1 + 1, m.origin.2)) = p)
    {n : Maze} (hw' : n.width = w) (ho' : n.origin = p)
    (ht' : n.tiles =
      (m.tiles.set (m.origin.1 + m.origin.2 * w) (some d)).set
        (p.1 + p.2 * w) none) :
    n.tiles.length = w * h ∧
    n.tiles[n.origin.1 + n.origin.2 * w]? = some none ∧
    (∀ x y, x < w → y < h → n.tiles[x + y * w]? = some none →
      (x, y) = n.origin) ∧
    (∀ x y, x < w → y < h → n.tiles[x + y * w]? = some (some Dir.up) →
      1 ≤ y) ∧
    (∀ x y, x < w → y < h → n.tiles[x + y * w]? = some (some Dir.down) →
      y + 1 < h) ∧
    (∀ x y, x < w → y < h → n.tiles[x + y * w]? = some (some Dir.left) →
      1 ≤ x) ∧
    (∀ x y, x < w → y < h → n.tiles[x + y * w]? = some (some Dir.right) →
      x + 1 < w) ∧
    (∀ x y, x < w → y < h → Follows n.parentOf n.origin (x, y)) := by
  have hob := inv.origin_lt
  have hnc : ¬(m.origin.1 = p.1 ∧ m.origin.2 = p.2) := by
    rintro ⟨e1, e2⟩
    exact hne (Prod.ext e1.symm e2.symm)
  have hget : ∀ x y, x < w → y < h → n.tiles[x + y * w]? =
      if x = p.1 ∧ y = p.2 then some none
      else if x = m.origin.1 ∧ y = m.origin.2 then some (some d)
      else m.tiles[x + y * w]? := by
    intro x y hx hy
    rw [ht']
    exact set2_tiles_get inv.tiles_len hob hpb d hx hy
  have hl' : n.tiles.length = w * h := by
    rw [ht', List.length_set, List.length_set, inv.tiles_len]
  have hroot' : n.tiles[n.origin.1 + n.origin.2 * w]? = some none := by
    rw [ho']
    rw [hget p.1 p.2 hpb.1 hpb.2, if_pos ⟨rfl, rfl⟩]
  have hpo' : n.parentOf p = none := by
    refine parentOf_none hw' ?_
    rw [hget p.1 p.2 hpb.1 hpb.2, if_pos ⟨rfl, rfl⟩]
  have htorg : n.tiles[m.origin.1 + m.origin.2 * w]? = some (some d) := by
    rw [hget m.origin.1 m.origin.2 hob.1 hob.2, if_neg hnc,
      if_pos ⟨rfl, rfl⟩]
  have hpr : n.parentOf m.origin = some p := by
    cases d with
    | up =>
      have := parentOf_up hw' (c := m.origin) htorg
      exact this.trans (congrArg some hdtar)
    | down =>
      have := parentOf_down hw' (c := m.origin) htorg
      exact this.trans (congrArg some hdtar)
    | left =>
      have := parentOf_left hw' (c := m.origin) htorg
      exact this.trans (congrArg some hdtar)
    | right =>
      have := parentOf_right hw' (c := m.origin) htorg
      exact this.trans (congrArg some hdtar)
  have hsame : ∀ c : Nat × Nat, (c.1 < w ∧ c.2 < h) → c ≠ m.origin → c ≠ p →
      n.parentOf c = m.parentOf c := by
    intro c hc hc1 hc2
    have hcc : n.tiles[c.1 + c.2 * w]? = m.tiles[c.1 + c.2 * w]? := by
      rw [hget c.1 c.2 hc.1 hc.2,
        if_neg (fun hcon => hc2 (Prod.ext hcon.1 hcon.2)),
        if_neg (fun hcon => hc1 (Prod.ext hcon.1 hcon.2))]
    simp only [Maze.parentOf, hw', inv.width_eq, hcc]
  refine ⟨hl', hroot', ?_, ?_, ?_, ?_, ?_, ?_⟩
  · intro x y hx hy ht
    rw [hget x y hx hy] at ht
    by_cases c1 : x = p.1 ∧ y = p.2
    · rw [ho']
      exact Prod.ext c1.1 c1.2
    · rw [if_neg c1] at ht
      by_cases c2 : x = m.origin.1 ∧ y = m.origin.2
      · rw [if_pos c2] at ht
        cases ht
      · rw [if_neg c2] at ht
        exact absurd (congrArg Prod.fst (inv.unique_root x y hx hy ht) |>.trans rfl
          |> fun e1 => ⟨e1, congrArg Prod.snd (inv.unique_root x y hx hy ht)⟩) c2
  · intro x y hx hy ht
    rw [hget x y hx hy] at ht
    by_cases c1 : x = p.1 ∧ y = p.2
    · rw [if_pos c1] at ht
      cases ht
    · rw [if_neg c1] at ht
      by_cases c2 : x = m.origin.1 ∧ y = m.origin.2
      · rw [if_pos c2] at ht
        obtain rfl : d = Dir.up := by
          cases d <;> simp at ht <;> rfl
        simp only at hdptr
        omega
      · rw [if_neg c2] at ht
        exact inv.ptr_up x y hx hy ht
  · intro x y hx hy ht
    rw [hget x y hx hy] at ht
    by_cases c1 : x = p.1 ∧ y = p.2
    · rw [if_pos c1] at ht
      cases ht
    · rw [if_neg c1] at ht
      by_cases c2 : x = m.origin.1 ∧ y = m.origin.2
      · rw [if_pos c2] at ht
        obtain rfl : d = Dir.down := by
          cases d <;> simp at ht <;> rfl
        simp only at hdptr
        omega
      · rw [if_neg c2] at ht
        exact inv.ptr_down x y hx hy ht
  · intro x y hx hy ht
    rw [hget x y hx hy] at ht
    by_cases c1 : x = p.1 ∧ y = p.2
    · rw [if_pos c1] at ht
      cases ht
    · rw [if_neg c1] at ht
      by_cases c2 : x = m.origin.1 ∧ y = m.origin.2
      · rw [if_pos c2] at ht
        obtain rfl : d = Dir.left := by
          cases d <;> simp at ht <;> rfl
        simp only at hdptr
        omega
      · rw [if_neg c2] at ht
        exact inv.ptr_left x y hx hy ht
  · intro x y hx hy ht
    rw [hget x y hx hy] at ht
    by_cases c1 : x = p.1 ∧ y = p.2
    · rw [if_pos c1] at ht
      cases ht
    · rw [if_neg c1] at ht
      by_cases c2 : x = m.origin.1 ∧ y = m.origin.2
      · rw [if_pos c2] at ht
        obtain rfl : d = Dir.right := by
          cases d <;> simp at ht <;> rfl
        simp only at hdptr
        omega
      · rw [if_neg c2] at ht
        exact inv.ptr_right x y hx hy ht
  · intro x y hx hy
    rw [ho']
    refine follows_reroot (fun c => c.1 < w ∧ c.2 < h)
      (fun c c' hc hp => parentOf_bounds inv hc hp)
      (parentOf_none inv.width_eq inv.root_none) hpr hpo' hsame
      (x, y) ⟨hx, hy⟩ (inv.reach x y hx hy)

/-! ### Evaluation of `stepCore` in each (direction, old-parent) case -/

theorem stepCore_up_up {m : Maze} {p : Nat × Nat}
    (hto : p.1 + p.2 * m.width < m.horz_walls.length)
    (ht : m.tiles[p.1 + p.2 * m.width]? = some (some Dir.up))
    (hp2 : 1 ≤ p.2)
    (hts : p.1 + (p.2 - 1) * m.width < m.horz_walls.length)
    (hbo : m.origin.1 + m.origin.2 * m.width < m.tiles.length)
    (hbp : p.1 + p.2 * m.width < m.tiles.length) :
    m.stepCore Dir.up p = some { m with
      origin := p,
      tiles := (m.tiles.set (m.origin.1 + m.origin.2 * m.width) (some Dir.up)).set
        (p.1 + p.2 * m.width) none,
      horz_walls := (m.horz_walls.set (p.1 + p.2 * m.width) false).set (p.1 + (p.2 - 1) * m.width) true } := by
  simp [Maze.stepCore, setIdx, sub?, hto, ht, hp2, hts, hbo, hbp, List.length_set]

theorem stepCore_up_down {m : Maze} {p : Nat × Nat}
    (hto : p.1 + p.2 * m.width < m.horz_walls.length)
    (ht : m.tiles[p.1 + p.2 * m.width]? = some (some Dir.down))
    (hbo : m.origin.1 + m.origin.2 * m.width < m.tiles.length)
    (hbp : p.1 + p.2 * m.width < m.tiles.length) :
    m.stepCore Dir.up p = some { m with
      origin := p,
      tiles := (m.tiles.set (m.origin.1 + m.origin.2 * m.width) (some Dir.up)).set
        (p.1 + p.2 * m.width) none,
      horz_walls := m.horz_walls.set (p.1 + p.2 * m.width) false } := by
  simp [Maze.stepCore, setIdx, sub?, hto, ht, hbo, hbp, List.length_set]

theorem stepCore_up_left {m : Maze} {p : Nat × Nat}
    (hto : p.1 + p.2 * m.width < m.horz_walls.length)
    (ht : m.tiles[p.1 + p.2 * m.width]? = some (some Dir.left))
    (hp1 : 1 ≤ p.1)
    (hw1 : 1 ≤ m.width)
    (hts : (p.1 - 1) + p.2 * (m.width - 1) < m.vert_walls.length)
    (hbo : m.origin.1 + m.origin.2 * m.width < m.tiles.length)
    (hbp : p.1 + p.2 * m.width < m.tiles.length) :
    m.stepCore Dir.up p = some { m with
      origin := p,
      tiles := (m.tiles.set (m.origin.1 + m.origin.2 * m.width) (some Dir.up)).set
        (p.1 + p.2 * m.width) none,
      horz_walls := m.horz_walls.set (p.1 + p.2 * m.width) false,
      vert_walls := m.vert_walls.set ((p.1 - 1) + p.2 * (m.width - 1)) true } := by
  simp [Maze.stepCore, setIdx, sub?, hto, ht, hp1, hw1, hts, hbo, hbp, List.length_set]

theorem stepCore_up_right {m : Maze} {p : Nat × Nat}
    (hto : p.1 + p.2 * m.width < m.horz_walls.length)
    (ht : m.tiles[p.1 + p.2 * m.width]? = some (some Dir.right))
    (hw1 : 1 ≤ m.width)
    (hts : p.1 + p.2 * (m.width - 1) < m.vert_walls.length)
    (hbo : m.origin.1 + m.origin.2 * m.width < m.tiles.length)
    (hbp : p.1 + p.2 * m.width < m.tiles.length) :
    m.stepCore Dir.up p = some { m with
      origin := p,
      tiles := (m.tiles.set (m.origin.1 + m.origin.2 * m.width) (some Dir.up)).set
        (p.1 + p.2 * m.width) none,
      horz_walls := m.horz_walls.set (p.1 + p.2 * m.width) false,
      vert_walls := m.vert_walls.set (p.1 + p.2 * (m.width - 1)) true } := by
  simp [Maze.stepCore, setIdx, sub?, hto, ht, hw1, hts, hbo, hbp, List.length_set]

theorem stepCore_down_up {m : Maze} {p : Nat × Nat}
    (hto : m.origin.1 + m.origin.2 * m.width < m.horz_walls.length)
    (ht : m.tiles[p.1 + p.2 * m.width]? = some (some Dir.up))
    (hbo : m.origin.1 + m.origin.2 * m.width < m.tiles.length)
    (hbp : p.1 + p.2 * m.width < m.tiles.length) :
    m.stepCore Dir.down p = some { m with
      origin := p,
      tiles := (m.tiles.set (m.origin.1 + m.origin.2 * m.width) (some Dir.down)).set
        (p.1 + p.2 * m.width) none,
      horz_walls := m.horz_walls.set (m.origin.1 + m.origin.2 * m.width) false } := by
  simp [Maze.stepCore, setIdx, sub?, hto, ht, hbo, hbp, List.length_set]

theorem stepCore_down_down {m : Maze} {p : Nat × Nat}
    (hto : m.origin.1 + m.origin.2 * m.width < m.horz_walls.length)
    (ht : m.tiles[p.1 + p.2 * m.width]? = some (some Dir.down))
    (hts : p.1 + p.2 * m.width < m.horz_walls.length)
    (hbo : m.origin.1 + m.origin.2 * m.width < m.tiles.length)
    (hbp : p.1 + p.2 * m.width < m.tiles.length) :
    m.stepCore Dir.down p = some { m with
      origin := p,
      tiles := (m.tiles.set (m.origin.1 + m.origin.2 * m.width) (some Dir.down)).set
        (p.1 + p.2 * m.width) none,
      horz_walls := (m.horz_walls.set (m.origin.1 + m.origin.2 * m.width) false).set (p.1 + p.2 * m.width) true } := by
  simp [Maze.stepCore, setIdx, sub?, hto, ht, hts, hbo, hbp, List.length_set]

theorem stepCore_down_left {m : Maze} {p : Nat × Nat}
    (hto : m.origin.1 + m.origin.2 * m.width < m.horz_walls.length)
    (ht : m.tiles[p.1 + p.2 * m.width]? = some (some Dir.left))
    (hp1 : 1 ≤ p.1)
    (hw1 : 1 ≤ m.width)
    (hts : (p.1 - 1) + p.2 * (m.width - 1) < m.vert_walls.length)
    (hbo : m.origin.1 + m.origin.2 * m.width < m.tiles.length)
    (hbp : p.1 + p.2 * m.width < m.tiles.length) :
    m.stepCore Dir.down p = some { m with
      origin := p,
      tiles := (m.tiles.set (m.origin.1 + m.origin.2 * m.width) (some Dir.down)).set
        (p.1 + p.2 * m.width) none,
      horz_walls := m.horz_walls.set (m.origin.1 + m.origin.2 * m.width) false,
      vert_walls := m.vert_walls.set ((p.1 - 1) + p.2 * (m.width - 1)) true } := by
  simp [Maze.stepCore, setIdx, sub?, hto, ht, hp1, hw1, hts, hbo, hbp, List.length_set]

theorem stepCore_down_right {m : Maze} {p : Nat × Nat}
    (hto : m.origin.1 + m.origin.2 * m.width < m.horz_walls.length)
    (ht : m.tiles[p.1 + p.2 * m.width]? = some (some Dir.right))
    (hw1 : 1 ≤ m.width)
    (hts : p.1 + p.2 * (m.width - 1) < m.vert_walls.length)
    (hbo : m.origin.1 + m.origin.2 * m.width < m.tiles.length)
    (hbp : p.1 + p.2 * m.width < m.tiles.length) :
    m.stepCore Dir.down p = some { m with
      origin := p,
      tiles := (m.tiles.set (m.origin.1 + m.origin.2 * m.width) (some Dir.down)).set
        (p.1 + p.2 * m.width) none,
      horz_walls := m.horz_walls.set (m.origin.1 + m.origin.2 * m.width) false,
      vert_walls := m.vert_walls.set (p.1 + p.2 * (m.width - 1)) true } := by
  simp [Maze.stepCore, setIdx, sub?, hto, ht, hw1, hts, hbo, hbp, List.length_set]

theorem stepCore_left_up {m : Maze} {p : Nat × Nat}
    (hw1 : 1 ≤ m.width)
    (hto : p.1 + p.2 * (m.width - 1) < m.vert_walls.length)
    (ht : m.tiles[p.1 + p.2 * m.width]? = some (some Dir.up))
    (hp2 : 1 ≤ p.2)
    (hts : p.1 + (p.2 - 1) * m.width < m.horz_walls.length)
    (hbo : m.origin.1 + m.origin.2 * m.width < m.tiles.length)
    (hbp : p.1 + p.2 * m.width < m.tiles.length) :
    m.stepCore Dir.left p = some { m with
      origin := p,
      tiles := (m.tiles.set (m.origin.1 + m.origin.2 * m.width) (some Dir.left)).set
        (p.1 + p.2 * m.width) none,
      horz_walls := m.horz_walls.set (p.1 + (p.2 - 1) * m.width) true,
      vert_walls := m.vert_walls.set (p.1 + p.2 * (m.width - 1)) false } := by
  simp [Maze.stepCore, setIdx, sub?, hw1, hto, ht, hp2, hts, hbo, hbp, List.length_set]

theorem stepCore_left_down {m : Maze} {p : Nat × Nat}
    (hw1 : 1 ≤ m.width)
    (hto : p.1 + p.2 * (m.width - 1) < m.vert_walls.length)
    (ht : m.tiles[p.1 + p.2 * m.width]? = some (some Dir.down))
    (hts : p.1 + p.2 * m.width < m.horz_walls.length)
    (hbo : m.origin.1 + m.origin.2 * m.width < m.tiles.length)
    (hbp : p.1 + p.2 * m.width < m.tiles.length) :
    m.stepCore Dir.left p = some { m with
      origin := p,
      tiles := (m.tiles.set (m.origin.1 + m.origin.2 * m.width) (some Dir.left)).set
        (p.1 + p.2 * m.width) none,
      horz_walls := m.horz_walls.set (p.1 + p.2 * m.width) true,
      vert_walls := m.vert_walls.set (p.1 + p.2 * (m.width - 1)) false } := by
  simp [Maze.stepCore, setIdx, sub?, hw1, hto, ht, hts, hbo, hbp, List.length_set]

theorem stepCore_left_left {m : Maze} {p : Nat × Nat}
    (hw1 : 1 ≤ m.width)
    (hto : p.1 + p.2 * (m.width - 1) < m.vert_walls.length)
    (ht : m.tiles[p.1 + p.2 * m.width]? = some (some Dir.left))
    (hp1 : 1 ≤ p.1)
    (hts : (p.1 - 1) + p.2 * (m.width - 1) < m.vert_walls.length)
    (hbo : m.origin.1 + m.origin.2 * m.width < m.tiles.length)
    (hbp : p.1 + p.2 * m.width < m.tiles.length) :
    m.stepCore Dir.left p = some { m with
      origin := p,
      tiles := (m.tiles.set (m.origin.1 + m.origin.2 * m.width) (some Dir.left)).set
        (p.1 + p.2 * m.width) none,
      vert_walls := (m.vert_walls.set (p.1 + p.2 * (m.width - 1)) false).set ((p.1 - 1) + p.2 * (m.width - 1)) true } := by
  simp [Maze.stepCore, setIdx, sub?, hw1, hto, ht, hp1, hts, hbo, hbp, List.length_set]

theorem stepCore_left_right {m : Maze} {p : Nat × Nat}
    (hw1 : 1 ≤ m.width)
    (hto : p.1 + p.2 * (m.width - 1) < m.vert_walls.length)
    (ht : m.tiles[p.1 + p.2 * m.width]? = some (some Dir.right))
    (hbo : m.origin.1 + m.origin.2 * m.width < m.tiles.length)
    (hbp : p.1 + p.2 * m.width < m.tiles.length) :
    m.stepCore Dir.left p = some { m with
      origin := p,
      tiles := (m.tiles.set (m.origin.1 + m.origin.2 * m.width) (some Dir.left)).set
        (p.1 + p.2 * m.width) none,
      vert_walls := m.vert_walls.set (p.1 + p.2 * (m.width - 1)) false } := by
  simp [Maze.stepCore, setIdx, sub?, hw1, hto, ht, hbo, hbp, List.length_set]

theorem stepCore_right_up {m : Maze} {p : Nat × Nat}
    (hw1 : 1 ≤ m.width)
    (hto : m.origin.1 + m.origin.2 * (m.width - 1) < m.vert_walls.length)
    (ht : m.tiles[p.1 + p.2 * m.width]? = some (some Dir.up))
    (hp2 : 1 ≤ p.2)
    (hts : p.1 + (p.2 - 1) * m.width < m.horz_walls.length)
    (hbo : m.origin.1 + m.origin.2 * m.width < m.tiles.length)
    (hbp : p.1 + p.2 * m.width < m.tiles.length) :
    m.stepCore Dir.right p = some { m with
      origin := p,
      tiles := (m.tiles.set (m.origin.1 + m.origin.2 * m.width) (some Dir.right)).set
        (p.1 + p.2 * m.width) none,
      horz_walls := m.horz_walls.set (p.1 + (p.2 - 1) * m.width) true,
      vert_walls := m.vert_walls.set (m.origin.1 + m.origin.2 * (m.width - 1)) false } := by
  simp [Maze.stepCore, setIdx, sub?, hw1, hto, ht, hp2, hts, hbo, hbp, List.length_set]

theorem stepCore_right_down {m : Maze} {p : Nat × Nat}
    (hw1 : 1 ≤ m.width)
    (hto : m.origin.1 + m.origin.2 * (m.width - 1) < m.vert_walls.length)
    (ht : m.tiles[p.1 + p.2 * m.width]? = some (some Dir.down))
    (hts : p.1 + p.2 * m.width < m.horz_walls.length)
    (hbo : m.origin.1 + m.origin.2 * m.width < m.tiles.length)
    (hbp : p.1 + p.2 * m.width < m.tiles.length) :
    m.stepCore Dir.right p = some { m with
      origin := p,
      tiles := (m.tiles.set (m.origin.1 + m.origin.2 * m.width) (some Dir.right)).set
        (p.1 + p.2 * m.width) none,
      horz_walls := m.horz_walls.set (p.1 + p.2 * m.width) true,
      vert_walls := m.vert_walls.set (m.origin.1 + m.origin.2 * (m.width - 1)) false } := by
  simp [Maze.stepCore, setIdx, sub?, hw1, hto, ht, hts, hbo, hbp, List.length_set]

theorem stepCore_right_left {m : Maze} {p : Nat × Nat}
    (hw1 : 1 ≤ m.width)
    (hto : m.origin.1 + m.origin.2 * (m.width - 1) < m.vert_walls.length)
    (ht : m.tiles[p.1 + p.2 * m.width]? = some (some Dir.left))
    (hbo : m.origin.1 + m.origin.2 * m.width < m.tiles.length)
    (hbp : p.1 + p.2 * m.width < m.tiles.length) :
    m.stepCore Dir.right p = some { m with
      origin := p,
      tiles := (m.tiles.set (m.origin.1 + m.origin.2 * m.width) (some Dir.right)).set
        (p.1 + p.2 * m.width) none,
      vert_walls := m.vert_walls.set (m.origin.1 + m.origin.2 * (m.width - 1)) false } := by
  simp [Maze.stepCore, setIdx, sub?, hw1, hto, ht, hbo, hbp, List.length_set]

theorem stepCore_right_right {m : Maze} {p : Nat × Nat}
    (hw1 : 1 ≤ m.width)
    (hto : m.origin.1 + m.origin.2 * (m.width - 1) < m.vert_walls.length)
    (ht : m.tiles[p.1 + p.2 * m.width]? = some (some Dir.right))
    (hts : p.1 + p.2 * (m.width - 1) < m.vert_walls.length)
    (hbo : m.origin.1 + m.origin.2 * m.width < m.tiles.length)
    (hbp : p.1 + p.2 * m.width < m.tiles.length) :
    m.stepCore Dir.right p = some { m with
      origin := p,
      tiles := (m.tiles.set (m.origin.1 + m.origin.2 * m.width) (some Dir.right)).set
        (p.1 + p.2 * m.width) none,
      vert_walls := (m.vert_walls.set (m.origin.1 + m.origin.2 * (m.width - 1)) false).set (p.1 + p.2 * (m.width - 1)) true } := by
  simp [Maze.stepCore, setIdx, sub?, hw1, hto, ht, hts, hbo, hbp, List.length_set]

/-! ### Invariant preservation for each (direction, old-parent) case -/

theorem step_up_up {w h : Nat} {m : Maze} (inv : Maze.Inv w h m) {px py : Nat}
    (horg : m.origin = (px, py + 1)) (hpx : px < w) (hpy : py + 1 < h)
    (ht2 : m.tiles[px + py * w]? = some (some Dir.up)) :
    ∃ m', m.stepCore Dir.up (px, py) = some m' ∧ Maze.Inv w h m' := by
  have hw := inv.width_eq
  have hhl := inv.horz_len
  have hvl := inv.vert_len
  have htl := inv.tiles_len
  have hob := inv.origin_lt
  have hpyh : py < h := by omega
  have hp2 : 1 ≤ py := inv.ptr_up px py hpx hpyh ht2
  have hto : px + py * m.width < m.horz_walls.length := by
    rw [hw, hhl]; exact idx_lt hpx (by omega)
  have hts : px + (py - 1) * m.width < m.horz_walls.length := by
    rw [hw, hhl]; exact idx_lt hpx (by omega)
  have hbo : m.origin.1 + m.origin.2 * m.width < m.tiles.length := by
    rw [hw, htl, horg]; exact idx_lt hpx hpy
  have hbp : px + py * m.width < m.tiles.length := by
    rw [hw, htl]; exact idx_lt hpx hpyh
  have htm : m.tiles[px + py * m.width]? = some (some Dir.up) := by
    rw [hw]; exact ht2
  have hrno : m.tiles[px + (py + 1) * w]? = some none := by
    have := inv.root_none
    rw [horg] at this
    exact this
  refine ⟨({ m with
      origin := (px, py),
      tiles := (m.tiles.set (px + (py + 1) * w) (some Dir.up)).set
        (px + py * w) none,
      horz_walls := (m.horz_walls.set (px + py * w) false).set
        (px + (py - 1) * w) true }), ?_, ?_⟩
  · have hc := stepCore_up_up (m := m) (p := (px, py)) hto htm hp2 hts hbo hbp
    rw [hw, horg] at hc
    rw [hw]
    dsimp only at hc
    exact hc
  · have hTg : ∀ x y, x < w → y < h →
        ((m.tiles.set (px + (py + 1) * w) (some Dir.up)).set
          (px + py * w) none)[x + y * w]? =
        if x = px ∧ y = py then some none
        else if x = px ∧ y = py + 1 then some (some Dir.up)
        else m.tiles[x + y * w]? := by
      intro x y hx hy
      exact set2_tiles_get (o := (px, py + 1)) (p := (px, py)) htl
        ⟨hpx, hpy⟩ ⟨hpx, hpyh⟩ Dir.up hx hy
    obtain ⟨tl', rn', uq', pu', pd', pl', pr', rc'⟩ :=
      tiles_fields inv Dir.up (p := (px, py)) ⟨hpx, hpyh⟩
        (by rw [horg]; intro he; have := congrArg Prod.snd he; simp at this)
        (by show 1 ≤ m.origin.2; rw [horg]; simp)
        (by show (m.origin.1, m.origin.2 - 1) = (px, py); rw [horg]; simp)
        (n := { m with
          origin := (px, py),
          tiles := (m.tiles.set (px + (py + 1) * w) (some Dir.up)).set
            (px + py * w) none,
          horz_walls := (m.horz_walls.set (px + py * w) false).set
            (px + (py - 1) * w) true })
        hw rfl (by show _ = (m.tiles.set (m.origin.1 + m.origin.2 * w) _).set _ _; rw [horg])
    -- wall facts before the step
    have hwallT : m.horz_walls[px + py * w]? = some true := by
      have hl : px + py * w < m.horz_walls.length := by rw [hhl]; exact idx_lt hpx (by omega)
      obtain ⟨b, hb⟩ : ∃ b, m.horz_walls[px + py * w]? = some b :=
        ⟨m.horz_walls[px + py * w], List.getElem?_eq_getElem hl⟩
      cases b with
      | true => exact hb
      | false =>
        exfalso
        rcases (inv.horz_open px py hpx hpy).mp hb with hc | hc
        · rw [hrno] at hc; cases hc
        · rw [ht2] at hc; cases hc
    have hidxST : ¬(px + (py - 1) * w = px + py * w) := by
      intro he
      obtain ⟨-, e2⟩ := idx_inj hpx hpx he
      omega
    have hwallS : (m.horz_walls.set (px + py * w) false)[px + (py - 1) * w]? =
        some false := by
      rw [set1_get, if_neg (fun he => hidxST he.symm)]
      have h1 : m.tiles[px + (py - 1 + 1) * w]? = some (some Dir.up) := by
        have e : py - 1 + 1 = py := by omega
        rw [e]; exact ht2
      exact (inv.horz_open px (py - 1) hpx (by omega)).mpr (Or.inl h1)
    refine ⟨inv.width_eq, inv.height_eq, inv.wpos, inv.hpos, tl', ?_, hvl,
      ⟨hpx, hpyh⟩, rn', uq', pu', pd', pl', pr', ?_, ?_, rc', ?_⟩
    · show ((m.horz_walls.set (px + py * w) false).set
        (px + (py - 1) * w) true).length = w * (h - 1)
      rw [List.length_set, List.length_set, hhl]
    -- horz_open
    · intro x y hx hy1
      have hy : y < h := by omega
      have hidx : x + y * w < w * (h - 1) := idx_lt hx (by omega)
      have hidx' : x + y * w < m.horz_walls.length := by rw [hhl]; exact hidx
      show ((m.horz_walls.set (px + py * w) false).set
        (px + (py - 1) * w) true)[x + y * w]? = some false ↔ _
      rw [set2_get, hTg x (y + 1) hx hy1, hTg x y hx hy]
      by_cases cS : px + (py - 1) * w = x + y * w
      · obtain ⟨e1, e2⟩ := idx_inj hpx hx cS
        rw [if_pos cS, if_pos hidx']
        rw [if_pos (show x = px ∧ y + 1 = py from ⟨e1.symm, by omega⟩)]
        rw [if_neg (show ¬(x = px ∧ y = py) by rintro ⟨-, h2⟩; omega)]
        rw [if_neg (show ¬(x = px ∧ y = py + 1) by rintro ⟨-, h2⟩; omega)]
        constructor
        · intro hc; cases hc
        · rintro (hc | hc)
          · cases hc
          · have hu : m.tiles[x + (y + 1) * w]? = some (some Dir.up) := by
              have epy : py = y + 1 := by omega
              rw [← e1, ← epy]; exact ht2
            exact (not_up_down inv hx (by omega) hu hc).elim
      · rw [if_neg cS]
        by_cases cT : px + py * w = x + y * w
        · obtain ⟨e1, e2⟩ := idx_inj hpx hx cT
          rw [if_pos cT, if_pos hidx']
          rw [if_neg (show ¬(x = px ∧ y + 1 = py) by rintro ⟨-, h2⟩; omega)]
          rw [if_pos (show x = px ∧ y + 1 = py + 1 from ⟨e1.symm, by omega⟩)]
          rw [if_pos (show x = px ∧ y = py from ⟨e1.symm, e2.symm⟩)]
          simp
        · rw [if_neg cT]
          rw [if_neg (show ¬(x = px ∧ y + 1 = py) by
            rintro ⟨rfl, h2⟩
            refine cS ?_
            have ee : py - 1 = y := by omega
            rw [ee])]
          rw [if_neg (show ¬(x = px ∧ y + 1 = py + 1) by
            rintro ⟨rfl, h2⟩
            refine cT ?_
            have ee : py = y := by omega
            rw [ee])]
          rw [if_neg (show ¬(x = px ∧ y = py) by
            rintro ⟨rfl, rfl⟩; exact cT rfl)]
          by_cases cO : x = px ∧ y = py + 1
          · rw [if_pos cO]
            rw [inv.horz_open x y hx hy1]
            have hrn : m.tiles[x + y * w]? = some none := by
              rcases cO with ⟨rfl, rfl⟩; exact hrno
            rw [hrn]
            simp
          · rw [if_neg cO]
            exact inv.horz_open x y hx hy1
    -- vert_open
    · intro x y hx1 hy
      show m.vert_walls[x + y * (w - 1)]? = some false ↔ _
      rw [hTg (x + 1) y (by omega) hy, hTg x y (by omega) hy]
      rw [inv.vert_open x y hx1 hy]
      by_cases c1 : x + 1 = px ∧ y = py
      · rw [if_pos c1]
        have hup : m.tiles[(x + 1) + y * w]? = some (some Dir.up) := by
          rcases c1 with ⟨e1, rfl⟩; rw [e1]; exact ht2
        rw [hup]
        rw [if_neg (show ¬(x = px ∧ y = py) by rintro ⟨rfl, -⟩; omega)]
        rw [if_neg (show ¬(x = px ∧ y = py + 1) by
          rintro ⟨rfl, h2⟩; rcases c1 with ⟨-, h3⟩; omega)]
        simp
      · rw [if_neg c1]
        by_cases c2 : x + 1 = px ∧ y = py + 1
        · rw [if_pos c2]
          have hrn : m.tiles[(x + 1) + y * w]? = some none := by
            rcases c2 with ⟨e1, rfl⟩; rw [e1]; exact hrno
          rw [hrn]
          rw [if_neg (show ¬(x = px ∧ y = py) by
            rintro ⟨rfl, rfl⟩; rcases c2 with ⟨-, h3⟩; omega)]
          rw [if_neg (show ¬(x = px ∧ y = py + 1) by
            rintro ⟨rfl, -⟩; rcases c2 with ⟨h3, -⟩; omega)]
          simp
        · rw [if_neg c2]
          by_cases c3 : x = px ∧ y = py
          · rw [if_pos c3]
            have hpt : m.tiles[x + y * w]? = some (some Dir.up) := by
              rcases c3 with ⟨rfl, rfl⟩; exact ht2
            rw [hpt]
            simp
          · rw [if_neg c3]
            by_cases c4 : x = px ∧ y = py + 1
            · rw [if_pos c4]
              have hrn : m.tiles[x + y * w]? = some none := by
                rcases c4 with ⟨rfl, rfl⟩; exact hrno
              rw [hrn]
              simp
            · rw [if_neg c4]
    -- wall_count
    · show ((m.horz_walls.set (px + py * w) false).set
        (px + (py - 1) * w) true).count false + m.vert_walls.count false + 1 = w * h
      have e1 := count_false_set_true hwallS
      have e2 := count_false_set_false hwallT
      have := inv.wall_count
      omega

theorem step_up_down {w h : Nat} {m : Maze} (inv : Maze.Inv w h m) {px py : Nat}
    (horg : m.origin = (px, py + 1)) (hpx : px < w) (hpy : py + 1 < h)
    (ht2 : m.tiles[px + py * w]? = some (some Dir.down)) :
    ∃ m', m.stepCore Dir.up (px, py) = some m' ∧ Maze.Inv w h m' := by
  have hw := inv.width_eq
  have hhl := inv.horz_len
  have hvl := inv.vert_len
  have htl := inv.tiles_len
  have hpyh : py < h := by omega
  have hto : px + py * m.width < m.horz_walls.length := by
    rw [hw, hhl]; exact idx_lt hpx (by omega)
  have hbo : m.origin.1 + m.origin.2 * m.width < m.tiles.length := by
    rw [hw, htl, horg]; exact idx_lt hpx hpy
  have hbp : px + py * m.width < m.tiles.length := by
    rw [hw, htl]; exact idx_lt hpx hpyh
  have htm : m.tiles[px + py * m.width]? = some (some Dir.down) := by
    rw [hw]; exact ht2
  have hrno : m.tiles[px + (py + 1) * w]? = some none := by
    have := inv.root_none
    rw [horg] at this
    exact this
  have hwallT : m.horz_walls[px + py * w]? = some false :=
    (inv.horz_open px py hpx hpy).mpr (Or.inr ht2)
  have hset : m.horz_walls.set (px + py * w) false = m.horz_walls :=
    set_same hwallT
  refine ⟨({ m with
      origin := (px, py),
      tiles := (m.tiles.set (px + (py + 1) * w) (some Dir.up)).set
        (px + py * w) none,
      horz_walls := m.horz_walls.set (px + py * w) false }), ?_, ?_⟩
  · have hc := stepCore_up_down (m := m) (p := (px, py)) hto htm hbo hbp
    rw [hw, horg] at hc
    rw [hw]
    dsimp only at hc
    exact hc
  · have hTg : ∀ x y, x < w → y < h →
        ((m.tiles.set (px + (py + 1) * w) (some Dir.up)).set
          (px + py * w) none)[x + y * w]? =
        if x = px ∧ y = py then some none
        else if x = px ∧ y = py + 1 then some (some Dir.up)
        else m.tiles[x + y * w]? := by
      intro x y hx hy
      exact set2_tiles_get (o := (px, py + 1)) (p := (px, py)) htl
        ⟨hpx, hpy⟩ ⟨hpx, hpyh⟩ Dir.up hx hy
    obtain ⟨tl', rn', uq', pu', pd', pl', pr', rc'⟩ :=
      tiles_fields inv Dir.up (p := (px, py)) ⟨hpx, hpyh⟩
        (by rw [horg]; intro he; have := congrArg Prod.snd he; simp at this)
        (by show 1 ≤ m.origin.2; rw [horg]; simp)
        (by show (m.origin.1, m.origin.2 - 1) = (px, py); rw [horg]; simp)
        (n := { m with
          origin := (px, py),
          tiles := (m.tiles.set (px + (py + 1) * w) (some Dir.up)).set
            (px + py * w) none,
          horz_walls := m.horz_walls.set (px + py * w) false })
        hw rfl (by show _ = (m.tiles.set (m.origin.1 + m.origin.2 * w) _).set _ _; rw [horg])
    refine ⟨inv.width_eq, inv.height_eq, inv.wpos, inv.hpos, tl', ?_, hvl,
      ⟨hpx, hpyh⟩, rn', uq', pu', pd', pl', pr', ?_, ?_, rc', ?_⟩
    · show (m.horz_walls.set (px + py * w) false).length = w * (h - 1)
      rw [List.length_set, hhl]
    -- horz_open
    · intro x y hx hy1
      have hy : y < h := by omega
      show (m.horz_walls.set (px + py * w) false)[x + y * w]? = some false ↔ _
      rw [hset, hTg x (y + 1) hx hy1, hTg x y hx hy]
      rw [inv.horz_open x y hx hy1]
      by_cases c1 : x = px ∧ y + 1 = py
      · rw [if_pos c1]
        have hb1 : m.tiles[x + (y + 1) * w]? = some (some Dir.down) := by
          rcases c1 with ⟨rfl, h2⟩
          rw [h2]; exact ht2
        rw [hb1]
        rw [if_neg (show ¬(x = px ∧ y = py) by rintro ⟨-, h2⟩; omega)]
        rw [if_neg (show ¬(x = px ∧ y = py + 1) by rintro ⟨-, h2⟩; omega)]
        simp
      · rw [if_neg c1]
        by_cases c2 : x = px ∧ y + 1 = py + 1
        · rw [if_pos c2]
          have hb1 : m.tiles[x + (y + 1) * w]? = some none := by
            rcases c2 with ⟨rfl, h2⟩
            rw [h2]; exact hrno
          rw [hb1]
          rw [if_pos (show x = px ∧ y = py from ⟨c2.1, by omega⟩)]
          have hb2 : m.tiles[x + y * w]? = some (some Dir.down) := by
            rcases c2 with ⟨rfl, h2⟩
            have ee : y = py := by omega
            rw [ee]; exact ht2
          rw [hb2]
          simp
        · rw [if_neg c2]
          rw [if_neg (show ¬(x = px ∧ y = py) by
            rintro ⟨rfl, rfl⟩; exact c2 ⟨rfl, rfl⟩)]
          by_cases c4 : x = px ∧ y = py + 1
          · rw [if_pos c4]
            have hb2 : m.tiles[x + y * w]? = some none := by
              rcases c4 with ⟨rfl, rfl⟩; exact hrno
            rw [hb2]
            simp
          · rw [if_neg c4]
    -- vert_open
    · intro x y hx1 hy
      show m.vert_walls[x + y * (w - 1)]? = some false ↔ _
      rw [hTg (x + 1) y (by omega) hy, hTg x y (by omega) hy]
      rw [inv.vert_open x y hx1 hy]
      by_cases c1 : x + 1 = px ∧ y = py
      · rw [if_pos c1]
        have hb1 : m.tiles[(x + 1) + y * w]? = some (some Dir.down) := by
          rcases c1 with ⟨e1, rfl⟩
          rw [e1]; exact ht2
        rw [hb1]
        rw [if_neg (show ¬(x = px ∧ y = py) by
          rintro ⟨rfl, -⟩; rcases c1 with ⟨h1, -⟩; omega)]
        rw [if_neg (show ¬(x = px ∧ y = py + 1) by
          rintro ⟨rfl, h2⟩; rcases c1 with ⟨-, h3⟩; omega)]
        simp
      · rw [if_neg c1]
        by_cases c2 : x + 1 = px ∧ y = py + 1
        · rw [if_pos c2]
          have hb1 : m.tiles[(x + 1) + y * w]? = some none := by
            rcases c2 with ⟨e1, rfl⟩
            rw [e1]; exact hrno
          rw [hb1]
          rw [if_neg (show ¬(x = px ∧ y = py) by
            rintro ⟨rfl, rfl⟩; rcases c2 with ⟨-, h3⟩; omega)]
          rw [if_neg (show ¬(x = px ∧ y = py + 1) by
            rintro ⟨rfl, -⟩; rcases c2 with ⟨h3, -⟩; omega)]
          simp
        · rw [if_neg c2]
          by_cases c3 : x = px ∧ y = py
          · rw [if_pos c3]
            have hb2 : m.tiles[x + y * w]? = some (some Dir.down) := by
              rcases c3 with ⟨rfl, rfl⟩; exact ht2
            rw [hb2]
            simp
          · rw [if_neg c3]
            by_cases c4 : x = px ∧ y = py + 1
            · rw [if_pos c4]
              have hb2 : m.tiles[x + y * w]? = some none := by
                rcases c4 with ⟨rfl, rfl⟩; exact hrno
              rw [hb2]
              simp
            · rw [if_neg c4]
    -- wall_count
    · show (m.horz_walls.set (px + py * w) false).count false +
        m.vert_walls.count false + 1 = w * h
      rw [hset]
      exact inv.wall_count

theorem step_up_left {w h : Nat} {m : Maze} (inv : Maze.Inv w h m) {px py : Nat}
    (horg : m.origin = (px, py + 1)) (hpx : px < w) (hpy : py + 1 < h)
    (ht2 : m.tiles[px + py * w]? = some (some Dir.left)) :
    ∃ m', m.stepCore Dir.up (px, py) = some m' ∧ Maze.Inv w h m' := by
  have hw := inv.width_eq
  have hhl := inv.horz_len
  have hvl := inv.vert_len
  have htl := inv.tiles_len
  have hpyh : py < h := by omega
  have hp1 : 1 ≤ px := inv.ptr_left px py hpx hpyh ht2
  have hw1 : 1 ≤ m.width := by rw [hw]; exact inv.wpos
  have hto : px + py * m.width < m.horz_walls.length := by
    rw [hw, hhl]; exact idx_lt hpx (by omega)
  have hts : (px - 1) + py * (m.width - 1) < m.vert_walls.length := by
    rw [hw, hvl]; exact idx_lt (by omega) hpyh
  have hbo : m.origin.1 + m.origin.2 * m.width < m.tiles.length := by
    rw [hw, htl, horg]; exact idx_lt hpx hpy
  have hbp : px + py * m.width < m.tiles.length := by
    rw [hw, htl]; exact idx_lt hpx hpyh
  have htm : m.tiles[px + py * m.width]? = some (some Dir.left) := by
    rw [hw]; exact ht2
  have hrno : m.tiles[px + (py + 1) * w]? = some none := by
    have := inv.root_none
    rw [horg] at this
    exact this
  have ee1 : px - 1 + 1 = px := by omega
  have hwallT : m.horz_walls[px + py * w]? = some true := by
    have hl : px + py * w < m.horz_walls.length := by
      rw [hhl]; exact idx_lt hpx (by omega)
    obtain ⟨b, hb⟩ : ∃ b, m.horz_walls[px + py * w]? = some b :=
      ⟨m.horz_walls[px + py * w], List.getElem?_eq_getElem hl⟩
    cases b with
    | true => exact hb
    | false =>
      exfalso
      rcases (inv.horz_open px py hpx hpy).mp hb with hc | hc
      · rw [hrno] at hc; cases hc
      · rw [ht2] at hc; cases hc
  have hwallS : m.vert_walls[(px - 1) + py * (w - 1)]? = some false := by
    refine (inv.vert_open (px - 1) py (by omega) hpyh).mpr (Or.inl ?_)
    rw [ee1]
    exact ht2
  refine ⟨({ m with
      origin := (px, py),
      tiles := (m.tiles.set (px + (py + 1) * w) (some Dir.up)).set
        (px + py * w) none,
      horz_walls := m.horz_walls.set (px + py * w) false,
      vert_walls := m.vert_walls.set ((px - 1) + py * (w - 1)) true }), ?_, ?_⟩
  · have hc := stepCore_up_left (m := m) (p := (px, py)) hto htm hp1 hw1 hts hbo hbp
    rw [hw, horg] at hc
    rw [hw]
    dsimp only at hc
    exact hc
  · have hTg : ∀ x y, x < w → y < h →
        ((m.tiles.set (px + (py + 1) * w) (some Dir.up)).set
          (px + py * w) none)[x + y * w]? =
        if x = px ∧ y = py then some none
        else if x = px ∧ y = py + 1 then some (some Dir.up)
        else m.tiles[x + y * w]? := by
      intro x y hx hy
      exact set2_tiles_get (o := (px, py + 1)) (p := (px, py)) htl
        ⟨hpx, hpy⟩ ⟨hpx, hpyh⟩ Dir.up hx hy
    obtain ⟨tl', rn', uq', pu', pd', pl', pr', rc'⟩ :=
      tiles_fields inv Dir.up (p := (px, py)) ⟨hpx, hpyh⟩
        (by rw [horg]; intro he; have := congrArg Prod.snd he; simp at this)
        (by show 1 ≤ m.origin.2; rw [horg]; simp)
        (by show (m.origin.1, m.origin.2 - 1) = (px, py); rw [horg]; simp)
        (n := { m with
          origin := (px, py),
          tiles := (m.tiles.set (px + (py + 1) * w) (some Dir.up)).set
            (px + py * w) none,
          horz_walls := m.horz_walls.set (px + py * w) false,
          vert_walls := m.vert_walls.set ((px - 1) + py * (w - 1)) true })
        hw rfl (by show _ = (m.tiles.set (m.origin.1 + m.origin.2 * w) _).set _ _; rw [horg])
    refine ⟨inv.width_eq, inv.height_eq, inv.wpos, inv.hpos, tl', ?_, ?_,
      ⟨hpx, hpyh⟩, rn', uq', pu', pd', pl', pr', ?_, ?_, rc', ?_⟩
    · show (m.horz_walls.set (px + py * w) false).length = w * (h - 1)
      rw [List.length_set, hhl]
    · show (m.vert_walls.set ((px - 1) + py * (w - 1)) true).length = (w - 1) * h
      rw [List.length_set, hvl]
    -- horz_open
    · intro x y hx hy1
      have hy : y < h := by omega
      have hidx' : x + y * w < m.horz_walls.length := by
        rw [hhl]; exact idx_lt hx (by omega)
      show (m.horz_walls.set (px + py * w) false)[x + y * w]? = some false ↔ _
      rw [set1_get, hTg x (y + 1) hx hy1, hTg x y hx hy]
      by_cases cT : px + py * w = x + y * w
      · obtain ⟨e1, e2⟩ := idx_inj hpx hx cT
        rw [if_pos cT, if_pos hidx']
        rw [if_neg (show ¬(x = px ∧ y + 1 = py) by rintro ⟨-, h2⟩; omega)]
        rw [if_pos (show x = px ∧ y + 1 = py + 1 from ⟨e1.symm, by omega⟩)]
        rw [if_pos (show x = px ∧ y = py from ⟨e1.symm, e2.symm⟩)]
        simp
      · rw [if_neg cT]
        rw [inv.horz_open x y hx hy1]
        by_cases c1 : x = px ∧ y + 1 = py
        · rw [if_pos c1]
          have hb1 : m.tiles[x + (y + 1) * w]? = some (some Dir.left) := by
            rcases c1 with ⟨rfl, h2⟩
            rw [h2]; exact ht2
          rw [hb1]
          rw [if_neg (show ¬(x = px ∧ y = py) by rintro ⟨-, h2⟩; omega)]
          rw [if_neg (show ¬(x = px ∧ y = py + 1) by rintro ⟨-, h2⟩; omega)]
          simp
        · rw [if_neg c1]
          rw [if_neg (show ¬(x = px ∧ y + 1 = py + 1) by
            rintro ⟨rfl, h2⟩
            refine cT ?_
            have ee : py = y := by omega
            rw [ee])]
          rw [if_neg (show ¬(x = px ∧ y = py) by
            rintro ⟨rfl, rfl⟩; exact cT rfl)]
          by_cases c4 : x = px ∧ y = py + 1
          · rw [if_pos c4]
            have hb2 : m.tiles[x + y * w]? = some none := by
              rcases c4 with ⟨rfl, rfl⟩; exact hrno
            rw [hb2]
            simp
          · rw [if_neg c4]
    -- vert_open
    · intro x y hx1 hy
      have hidxv : x + y * (w - 1) < m.vert_walls.length := by
        rw [hvl]; exact idx_lt (by omega) hy
      show (m.vert_walls.set ((px - 1) + py * (w - 1)) true)[x + y * (w - 1)]? =
        some false ↔ _
      rw [set1_get, hTg (x + 1) y (by omega) hy, hTg x y (by omega) hy]
      by_cases cS : (px - 1) + py * (w - 1) = x + y * (w - 1)
      · obtain ⟨e1, e2⟩ := idx_inj (by omega : px - 1 < w - 1) (by omega : x < w - 1) cS
        rw [if_pos cS, if_pos hidxv]
        rw [if_pos (show x + 1 = px ∧ y = py from ⟨by omega, e2.symm⟩)]
        rw [if_neg (show ¬(x = px ∧ y = py) by rintro ⟨rfl, -⟩; omega)]
        rw [if_neg (show ¬(x = px ∧ y = py + 1) by rintro ⟨rfl, -⟩; omega)]
        constructor
        · intro hc; cases hc
        · rintro (hc | hc)
          · cases hc
          · exfalso
            have hlft : m.tiles[(x + 1) + y * w]? = some (some Dir.left) := by
              have e3 : x + 1 = px := by omega
              have e4 : y = py := e2.symm
              rw [e3, e4]; exact ht2
            exact not_left_right inv (by omega) hy hlft hc
      · rw [if_neg cS]
        rw [inv.vert_open x y hx1 hy]
        by_cases c1 : x + 1 = px ∧ y = py
        · exfalso
          rcases c1 with ⟨e1, rfl⟩
          refine cS ?_
          have ee : px - 1 = x := by omega
          rw [ee]
        · rw [if_neg c1]
          by_cases c2 : x + 1 = px ∧ y = py + 1
          · rw [if_pos c2]
            have hb1 : m.tiles[(x + 1) + y * w]? = some none := by
              rcases c2 with ⟨e1, rfl⟩
              rw [e1]; exact hrno
            rw [hb1]
            rw [if_neg (show ¬(x = px ∧ y = py) by
              rintro ⟨rfl, rfl⟩; rcases c2 with ⟨-, h3⟩; omega)]
            rw [if_neg (show ¬(x = px ∧ y = py + 1) by
              rintro ⟨rfl, -⟩; rcases c2 with ⟨h3, -⟩; omega)]
            simp
          · rw [if_neg c2]
            by_cases c3 : x = px ∧ y = py
            · rw [if_pos c3]
              have hb2 : m.tiles[x + y * w]? = some (some Dir.left) := by
                rcases c3 with ⟨rfl, rfl⟩; exact ht2
              rw [hb2]
              simp
            · rw [if_neg c3]
              by_cases c4 : x = px ∧ y = py + 1
              · rw [if_pos c4]
                have hb2 : m.tiles[x + y * w]? = some none := by
                  rcases c4 with ⟨rfl, rfl⟩; exact hrno
                rw [hb2]
                simp
              · rw [if_neg c4]
    -- wall_count
    · show (m.horz_walls.set (px + py * w) false).count false +
        (m.vert_walls.set ((px - 1) + py * (w - 1)) true).count false + 1 = w * h
      have e1 := count_false_set_false hwallT
      have e2 := count_false_set_true hwallS
      have := inv.wall_count
      omega

theorem step_up_right {w h : Nat} {m : Maze} (inv : Maze.Inv w h m) {px py : Nat}
    (horg : m.origin = (px, py + 1)) (hpx : px < w) (hpy : py + 1 < h)
    (ht2 : m.tiles[px + py * w]? = some (some Dir.right)) :
    ∃ m', m.stepCore Dir.up (px, py) = some m' ∧ Maze.Inv w h m' := by
  have hw := inv.width_eq
  have hhl := inv.horz_len
  have hvl := inv.vert_len
  have htl := inv.tiles_len
  have hpyh : py < h := by omega
  have hpr : px + 1 < w := inv.ptr_right px py hpx hpyh ht2
  have hw1 : 1 ≤ m.width := by rw [hw]; exact inv.wpos
  have hto : px + py * m.width < m.horz_walls.length := by
    rw [hw, hhl]; exact idx_lt hpx (by omega)
  have hts : px + py * (m.width - 1) < m.vert_walls.length := by
    rw [hw, hvl]; exact idx_lt (by omega) hpyh
  have hbo : m.origin.1 + m.origin.2 * m.width < m.tiles.length := by
    rw [hw, htl, horg]; exact idx_lt hpx hpy
  have hbp : px + py * m.width < m.tiles.length := by
    rw [hw, htl]; exact idx_lt hpx hpyh
  have htm : m.tiles[px + py * m.width]? = some (some Dir.right) := by
    rw [hw]; exact ht2
  have hrno : m.tiles[px + (py + 1) * w]? = some none := by
    have := inv.root_none
    rw [horg] at this
    exact this
  have hwallT : m.horz_walls[px + py * w]? = some true := by
    have hl : px + py * w < m.horz_walls.length := by
      rw [hhl]; exact idx_lt hpx (by omega)
    obtain ⟨b, hb⟩ : ∃ b, m.horz_walls[px + py * w]? = some b :=
      ⟨m.horz_walls[px + py * w], List.getElem?_eq_getElem hl⟩
    cases b with
    | true => exact hb
    | false =>
      exfalso
      rcases (inv.horz_open px py hpx hpy).mp hb with hc | hc
      · rw [hrno] at hc; cases hc
      · rw [ht2] at hc; cases hc
  have hwallS : m.vert_walls[px + py * (w - 1)]? = some false :=
    (inv.vert_open px py hpr hpyh).mpr (Or.inr ht2)
  refine ⟨({ m with
      origin := (px, py),
      tiles := (m.tiles.set (px + (py + 1) * w) (some Dir.up)).set
        (px + py * w) none,
      horz_walls := m.horz_walls.set (px + py * w) false,
      vert_walls := m.vert_walls.set (px + py * (w - 1)) true }), ?_, ?_⟩
  · have hc := stepCore_up_right (m := m) (p := (px, py)) hto htm hw1 hts hbo hbp
    rw [hw, horg] at hc
    rw [hw]
    dsimp only at hc
    exact hc
  · have hTg : ∀ x y, x < w → y < h →
        ((m.tiles.set (px + (py + 1) * w) (some Dir.up)).set
          (px + py * w) none)[x + y * w]? =
        if x = px ∧ y = py then some none
        else if x = px ∧ y = py + 1 then some (some Dir.up)
        else m.tiles[x + y * w]? := by
      intro x y hx hy
      exact set2_tiles_get (o := (px, py + 1)) (p := (px, py)) htl
        ⟨hpx, hpy⟩ ⟨hpx, hpyh⟩ Dir.up hx hy
    obtain ⟨tl', rn', uq', pu', pd', pl', pr', rc'⟩ :=
      tiles_fields inv Dir.up (p := (px, py)) ⟨hpx, hpyh⟩
        (by rw [horg]; intro he; have := congrArg Prod.snd he; simp at this)
        (by show 1 ≤ m.origin.2; rw [horg]; simp)
        (by show (m.origin.1, m.origin.2 - 1) = (px, py); rw [horg]; simp)
        (n := { m with
          origin := (px, py),
          tiles := (m.tiles.set (px + (py + 1) * w) (some Dir.up)).set
            (px + py * w) none,
          horz_walls := m.horz_walls.set (px + py * w) false,
          vert_walls := m.vert_walls.set (px + py * (w - 1)) true })
        hw rfl (by show _ = (m.tiles.set (m.origin.1 + m.origin.2 * w) _).set _ _; rw [horg])
    refine ⟨inv.width_eq, inv.height_eq, inv.wpos, inv.hpos, tl', ?_, ?_,
      ⟨hpx, hpyh⟩, rn', uq', pu', pd', pl', pr', ?_, ?_, rc', ?_⟩
    · show (m.horz_walls.set (px + py * w) false).length = w * (h - 1)
      rw [List.length_set, hhl]
    · show (m.vert_walls.set (px + py * (w - 1)) true).length = (w - 1) * h
      rw [List.length_set, hvl]
    -- horz_open
    · intro x y hx hy1
      have hy : y < h := by omega
      have hidx' : x + y * w < m.horz_walls.length := by
        rw [hhl]; exact idx_lt hx (by omega)
      show (m.horz_walls.set (px + py * w) false)[x + y * w]? = some false ↔ _
      rw [set1_get, hTg x (y + 1) hx hy1, hTg x y hx hy]
      by_cases cT : px + py * w = x + y * w
      · obtain ⟨e1, e2⟩ := idx_inj hpx hx cT
        rw [if_pos cT, if_pos hidx']
        rw [if_neg (show ¬(x = px ∧ y + 1 = py) by rintro ⟨-, h2⟩; omega)]
        rw [if_pos (show x = px ∧ y + 1 = py + 1 from ⟨e1.symm, by omega⟩)]
        rw [if_pos (show x = px ∧ y = py from ⟨e1.symm, e2.symm⟩)]
        simp
      · rw [if_neg cT]
        rw [inv.horz_open x y hx hy1]
        by_cases c1 : x = px ∧ y + 1 = py
        · rw [if_pos c1]
          have hb1 : m.tiles[x + (y + 1) * w]? = some (some Dir.right) := by
            rcases c1 with ⟨rfl, h2⟩
            rw [h2]; exact ht2
          rw [hb1]
          rw [if_neg (show ¬(x = px ∧ y = py) by rintro ⟨-, h2⟩; omega)]
          rw [if_neg (show ¬(x = px ∧ y = py + 1) by rintro ⟨-, h2⟩; omega)]
          simp
        · rw [if_neg c1]
          rw [if_neg (show ¬(x = px ∧ y + 1 = py + 1) by
            rintro ⟨rfl, h2⟩
            refine cT ?_
            have ee : py = y := by omega
            rw [ee])]
          rw [if_neg (show ¬(x = px ∧ y = py) by
            rintro ⟨rfl, rfl⟩; exact cT rfl)]
          by_cases c4 : x = px ∧ y = py + 1
          · rw [if_pos c4]
            have hb2 : m.tiles[x + y * w]? = some none := by
              rcases c4 with ⟨rfl, rfl⟩; exact hrno
            rw [hb2]
            simp
          · rw [if_neg c4]
    -- vert_open
    · intro x y hx1 hy
      have hidxv : x + y * (w - 1) < m.vert_walls.length := by
        rw [hvl]; exact idx_lt (by omega) hy
      show (m.vert_walls.set (px + py * (w - 1)) true)[x + y * (w - 1)]? =
        some false ↔ _
      rw [set1_get, hTg (x + 1) y (by omega) hy, hTg x y (by omega) hy]
      by_cases cS : px + py * (w - 1) = x + y * (w - 1)
      · obtain ⟨e1, e2⟩ := idx_inj (by omega : px < w - 1) (by omega : x < w - 1) cS
        rw [if_pos cS, if_pos hidxv]
        rw [if_neg (show ¬(x + 1 = px ∧ y = py) by rintro ⟨h1, -⟩; omega)]
        rw [if_neg (show ¬(x + 1 = px ∧ y = py + 1) by rintro ⟨h1, -⟩; omega)]
        rw [if_pos (show x = px ∧ y = py from ⟨e1.symm, e2.symm⟩)]
        constructor
        · intro hc; cases hc
        · rintro (hc | hc)
          · exfalso
            have hrt : m.tiles[x + y * w]? = some (some Dir.right) := by
              rw [← e1, ← e2]; exact ht2
            exact not_left_right inv (by omega) hy hc hrt
          · cases hc
      · rw [if_neg cS]
        rw [inv.vert_open x y hx1 hy]
        by_cases c1 : x + 1 = px ∧ y = py
        · rw [if_pos c1]
          have hb1 : m.tiles[(x + 1) + y * w]? = some (some Dir.right) := by
            rcases c1 with ⟨e1, rfl⟩
            rw [e1]; exact ht2
          rw [hb1]
          rw [if_neg (show ¬(x = px ∧ y = py) by
            rintro ⟨rfl, -⟩; rcases c1 with ⟨h1, -⟩; omega)]
          rw [if_neg (show ¬(x = px ∧ y = py + 1) by
            rintro ⟨rfl, h2⟩; rcases c1 with ⟨-, h3⟩; omega)]
          simp
        · rw [if_neg c1]
          by_cases c2 : x + 1 = px ∧ y = py + 1
          · rw [if_pos c2]
            have hb1 : m.tiles[(x + 1) + y * w]? = some none := by
              rcases c2 with ⟨e1, rfl⟩
              rw [e1]; exact hrno
            rw [hb1]
            rw [if_neg (show ¬(x = px ∧ y = py) by
              rintro ⟨rfl, rfl⟩; rcases c2 with ⟨-, h3⟩; omega)]
            rw [if_neg (show ¬(x = px ∧ y = py + 1) by
              rintro ⟨rfl, -⟩; rcases c2 with ⟨h3, -⟩; omega)]
            simp
          · rw [if_neg c2]
            by_cases c3 : x = px ∧ y = py
            · exfalso
              rcases c3 with ⟨rfl, rfl⟩
              exact cS rfl
            · rw [if_neg c3]
              by_cases c4 : x = px ∧ y = py + 1
              · rw [if_pos c4]
                have hb2 : m.tiles[x + y * w]? = some none := by
                  rcases c4 with ⟨rfl, rfl⟩; exact hrno
                rw [hb2]
                simp
              · rw [if_neg c4]
    -- wall_count
    · show (m.horz_walls.set (px + py * w) false).count false +
        (m.vert_walls.set (px + py * (w - 1)) true).count false + 1 = w * h
      have e1 := count_false_set_false hwallT
      have e2 := count_false_set_true hwallS
      have := inv.wall_count
      omega

theorem step_down_up {w h : Nat} {m : Maze} (inv : Maze.Inv w h m) {px py : Nat}
    (horg : m.origin = (px, py)) (hpx : px < w) (hpy : py + 1 < h)
    (ht2 : m.tiles[px + (py + 1) * w]? = some (some Dir.up)) :
    ∃ m', m.stepCore Dir.down (px, py + 1) = some m' ∧ Maze.Inv w h m' := by
  have hw := inv.width_eq
  have hhl := inv.horz_len
  have hvl := inv.vert_len
  have htl := inv.tiles_len
  have hpyh : py < h := by omega
  have hto : m.origin.1 + m.origin.2 * m.width < m.horz_walls.length := by
    rw [hw, hhl, horg]; exact idx_lt hpx (by omega)
  have hbo : m.origin.1 + m.origin.2 * m.width < m.tiles.length := by
    rw [hw, htl, horg]; exact idx_lt hpx hpyh
  have hbp : px + (py + 1) * m.width < m.tiles.length := by
    rw [hw, htl]; exact idx_lt hpx hpy
  have htm : m.tiles[px + (py + 1) * m.width]? = some (some Dir.up) := by
    rw [hw]; exact ht2
  have hrno : m.tiles[px + py * w]? = some none := by
    have := inv.root_none
    rw [horg] at this
    exact this
  have hwallT : m.horz_walls[px + py * w]? = some false :=
    (inv.horz_open px py hpx hpy).mpr (Or.inl ht2)
  have hset : m.horz_walls.set (px + py * w) false = m.horz_walls :=
    set_same hwallT
  refine ⟨({ m with
      origin := (px, py + 1),
      tiles := (m.tiles.set (px + py * w) (some Dir.down)).set
        (px + (py + 1) * w) none,
      horz_walls := m.horz_walls.set (px + py * w) false }), ?_, ?_⟩
  · have hc := stepCore_down_up (m := m) (p := (px, py + 1)) hto htm hbo hbp
    rw [hw, horg] at hc
    rw [hw]
    dsimp only at hc
    exact hc
  · have hTg : ∀ x y, x < w → y < h →
        ((m.tiles.set (px + py * w) (some Dir.down)).set
          (px + (py + 1) * w) none)[x + y * w]? =
        if x = px ∧ y = py + 1 then some none
        else if x = px ∧ y = py then some (some Dir.down)
        else m.tiles[x + y * w]? := by
      intro x y hx hy
      exact set2_tiles_get (o := (px, py)) (p := (px, py + 1)) htl
        ⟨hpx, hpyh⟩ ⟨hpx, hpy⟩ Dir.down hx hy
    obtain ⟨tl', rn', uq', pu', pd', pl', pr', rc'⟩ :=
      tiles_fields inv Dir.down (p := (px, py + 1)) ⟨hpx, hpy⟩
        (by rw [horg]; intro he; have := congrArg Prod.snd he; simp at this)
        (by show m.origin.2 + 1 < h; rw [horg]; exact hpy)
        (by show (m.origin.1, m.origin.2 + 1) = (px, py + 1); rw [horg])
        (n := { m with
          origin := (px, py + 1),
          tiles := (m.tiles.set (px + py * w) (some Dir.down)).set
            (px + (py + 1) * w) none,
          horz_walls := m.horz_walls.set (px + py * w) false })
        hw rfl (by show _ = (m.tiles.set (m.origin.1 + m.origin.2 * w) _).set _ _; rw [horg])
    refine ⟨inv.width_eq, inv.height_eq, inv.wpos, inv.hpos, tl', ?_, hvl,
      ⟨hpx, hpy⟩, rn', uq', pu', pd', pl', pr', ?_, ?_, rc', ?_⟩
    · show (m.horz_walls.set (px + py * w) false).length = w * (h - 1)
      rw [List.length_set, hhl]
    -- horz_open
    · intro x y hx hy1
      have hy : y < h := by omega
      show (m.horz_walls.set (px + py * w) false)[x + y * w]? = some false ↔ _
      rw [hset, hTg x (y + 1) hx hy1, hTg x y hx hy]
      rw [inv.horz_open x y hx hy1]
      by_cases c1 : x = px ∧ y + 1 = py + 1
      · rw [if_pos c1]
        have hb1 : m.tiles[x + (y + 1) * w]? = some (some Dir.up) := by
          rcases c1 with ⟨rfl, h2⟩
          rw [h2]; exact ht2
        rw [hb1]
        rw [if_neg (show ¬(x = px ∧ y = py + 1) by
          rintro ⟨-, h3⟩; rcases c1 with ⟨-, h4⟩; omega)]
        rw [if_pos (show x = px ∧ y = py from ⟨c1.1, by rcases c1 with ⟨-, h4⟩; omega⟩)]
        have hb2 : m.tiles[x + y * w]? = some none := by
          rcases c1 with ⟨rfl, h4⟩
          have ey : y = py := by omega
          rw [ey]; exact hrno
        rw [hb2]
        simp
      · rw [if_neg c1]
        by_cases c2 : x = px ∧ y + 1 = py
        · rw [if_pos c2]
          have hb1 : m.tiles[x + (y + 1) * w]? = some none := by
            rcases c2 with ⟨rfl, h2⟩
            rw [h2]; exact hrno
          rw [hb1]
          rw [if_neg (show ¬(x = px ∧ y = py + 1) by rintro ⟨-, h3⟩; omega)]
          rw [if_neg (show ¬(x = px ∧ y = py) by rintro ⟨-, h3⟩; omega)]
          simp
        · rw [if_neg c2]
          by_cases c3 : x = px ∧ y = py + 1
          · rw [if_pos c3]
            have hb2 : m.tiles[x + y * w]? = some (some Dir.up) := by
              rcases c3 with ⟨rfl, rfl⟩; exact ht2
            rw [hb2]
            simp
          · rw [if_neg c3]
            rw [if_neg (show ¬(x = px ∧ y = py) by
              rintro ⟨rfl, rfl⟩; exact c1 ⟨rfl, rfl⟩)]
    -- vert_open
    · intro x y hx1 hy
      show m.vert_walls[x + y * (w - 1)]? = some false ↔ _
      rw [hTg (x + 1) y (by omega) hy, hTg x y (by omega) hy]
      rw [inv.vert_open x y hx1 hy]
      by_cases c1 : x + 1 = px ∧ y = py + 1
      · rw [if_pos c1]
        have hb1 : m.tiles[(x + 1) + y * w]? = some (some Dir.up) := by
          rcases c1 with ⟨e1, rfl⟩
          rw [e1]; exact ht2
        rw [hb1]
        rw [if_neg (show ¬(x = px ∧ y = py + 1) by
          rintro ⟨rfl, -⟩; rcases c1 with ⟨h1, -⟩; omega)]
        rw [if_neg (show ¬(x = px ∧ y = py) by
          rintro ⟨rfl, h3⟩; rcases c1 with ⟨-, h4⟩; omega)]
        simp
      · rw [if_neg c1]
        by_cases c2 : x + 1 = px ∧ y = py
        · rw [if_pos c2]
          have hb1 : m.tiles[(x + 1) + y * w]? = some none := by
            rcases c2 with ⟨e1, rfl⟩
            rw [e1]; exact hrno
          rw [hb1]
          rw [if_neg (show ¬(x = px ∧ y = py + 1) by
            rintro ⟨rfl, -⟩; rcases c2 with ⟨h3, -⟩; omega)]
          rw [if_neg (show ¬(x = px ∧ y = py) by
            rintro ⟨rfl, rfl⟩; rcases c2 with ⟨h3, -⟩; omega)]
          simp
        · rw [if_neg c2]
          by_cases c3 : x = px ∧ y = py + 1
          · rw [if_pos c3]
            have hb2 : m.tiles[x + y * w]? = some (some Dir.up) := by
              rcases c3 with ⟨rfl, rfl⟩; exact ht2
            rw [hb2]
            simp
          · rw [if_neg c3]
            by_cases c4 : x = px ∧ y = py
            · rw [if_pos c4]
              have hb2 : m.tiles[x + y * w]? = some none := by
                rcases c4 with ⟨rfl, rfl⟩; exact hrno
              rw [hb2]
              simp
            · rw [if_neg c4]
    -- wall_count
    · show (m.horz_walls.set (px + py * w) false).count false +
        m.vert_walls.count false + 1 = w * h
      rw [hset]
      exact inv.wall_count

theorem step_down_down {w h : Nat} {m : Maze} (inv : Maze.Inv w h m) {px py : Nat}
    (horg : m.origin = (px, py)) (hpx : px < w) (hpy : py + 1 < h)
    (ht2 : m.tiles[px + (py + 1) * w]? = some (some Dir.down)) :
    ∃ m', m.stepCore Dir.down (px, py + 1) = some m' ∧ Maze.Inv w h m' := by
  have hw := inv.width_eq
  have hhl := inv.horz_len
  have hvl := inv.vert_len
  have htl := inv.tiles_len
  have hpyh : py < h := by omega
  have hpd : py + 1 + 1 < h := inv.ptr_down px (py + 1) hpx hpy ht2
  have hto : m.origin.1 + m.origin.2 * m.width < m.horz_walls.length := by
    rw [hw, hhl, horg]; exact idx_lt hpx (by omega)
  have hts : px + (py + 1) * m.width < m.horz_walls.length := by
    rw [hw, hhl]; exact idx_lt hpx (by omega)
  have hbo : m.origin.1 + m.origin.2 * m.width < m.tiles.length := by
    rw [hw, htl, horg]; exact idx_lt hpx hpyh
  have hbp : px + (py + 1) * m.width < m.tiles.length := by
    rw [hw, htl]; exact idx_lt hpx hpy
  have htm : m.tiles[px + (py + 1) * m.width]? = some (some Dir.down) := by
    rw [hw]; exact ht2
  have hrno : m.tiles[px + py * w]? = some none := by
    have := inv.root_none
    rw [horg] at this
    exact this
  have hwallT : m.horz_walls[px + py * w]? = some true := by
    have hl : px + py * w < m.horz_walls.length := by
      rw [hhl]; exact idx_lt hpx (by omega)
    obtain ⟨b, hb⟩ : ∃ b, m.horz_walls[px + py * w]? = some b :=
      ⟨m.horz_walls[px + py * w], List.getElem?_eq_getElem hl⟩
    cases b with
    | true => exact hb
    | false =>
      exfalso
      rcases (inv.horz_open px py hpx hpy).mp hb with hc | hc
      · rw [ht2] at hc; cases hc
      · rw [hrno] at hc; cases hc
  have hidxST : ¬(px + py * w = px + (py + 1) * w) := by
    intro he
    obtain ⟨-, e2⟩ := idx_inj hpx hpx he
    omega
  have hwallS : (m.horz_walls.set (px + py * w) false)[px + (py + 1) * w]? =
      some false := by
    rw [set1_get, if_neg hidxST]
    exact (inv.horz_open px (py + 1) hpx (by omega)).mpr (Or.inr ht2)
  refine ⟨({ m with
      origin := (px, py + 1),
      tiles := (m.tiles.set (px + py * w) (some Dir.down)).set
        (px + (py + 1) * w) none,
      horz_walls := (m.horz_walls.set (px + py * w) false).set
        (px + (py + 1) * w) true }), ?_, ?_⟩
  · have hc := stepCore_down_down (m := m) (p := (px, py + 1)) hto htm hts hbo hbp
    rw [hw, horg] at hc
    rw [hw]
    dsimp only at hc
    exact hc
  · have hTg : ∀ x y, x < w → y < h →
        ((m.tiles.set (px + py * w) (some Dir.down)).set
          (px + (py + 1) * w) none)[x + y * w]? =
        if x = px ∧ y = py + 1 then some none
        else if x = px ∧ y = py then some (some Dir.down)
        else m.tiles[x + y * w]? := by
      intro x y hx hy
      exact set2_tiles_get (o := (px, py)) (p := (px, py + 1)) htl
        ⟨hpx, hpyh⟩ ⟨hpx, hpy⟩ Dir.down hx hy
    obtain ⟨tl', rn', uq', pu', pd', pl', pr', rc'⟩ :=
      tiles_fields inv Dir.down (p := (px, py + 1)) ⟨hpx, hpy⟩
        (by rw [horg]; intro he; have := congrArg Prod.snd he; simp at this)
        (by show m.origin.2 + 1 < h; rw [horg]; exact hpy)
        (by show (m.origin.1, m.origin.2 + 1) = (px, py + 1); rw [horg])
        (n := { m with
          origin := (px, py + 1),
          tiles := (m.tiles.set (px + py * w) (some Dir.down)).set
            (px + (py + 1) * w) none,
          horz_walls := (m.horz_walls.set (px + py * w) false).set
            (px + (py + 1) * w) true })
        hw rfl (by show _ = (m.tiles.set (m.origin.1 + m.origin.2 * w) _).set _ _; rw [horg])
    refine ⟨inv.width_eq, inv.height_eq, inv.wpos, inv.hpos, tl', ?_, hvl,
      ⟨hpx, hpy⟩, rn', uq', pu', pd', pl', pr', ?_, ?_, rc', ?_⟩
    · show ((m.horz_walls.set (px + py * w) false).set
        (px + (py + 1) * w) true).length = w * (h - 1)
      rw [List.length_set, List.length_set, hhl]
    -- horz_open
    · intro x y hx hy1
      have hy : y < h := by omega
      have hidx' : x + y * w < m.horz_walls.length := by
        rw [hhl]; exact idx_lt hx (by omega)
      show ((m.horz_walls.set (px + py * w) false).set
        (px + (py + 1) * w) true)[x + y * w]? = some false ↔ _
      rw [set2_get, hTg x (y + 1) hx hy1, hTg x y hx hy]
      by_cases cS : px + (py + 1) * w = x + y * w
      · obtain ⟨e1, e2⟩ := idx_inj hpx hx cS
        rw [if_pos cS, if_pos hidx']
        rw [if_neg (show ¬(x = px ∧ y + 1 = py + 1) by rintro ⟨-, h3⟩; omega)]
        rw [if_neg (show ¬(x = px ∧ y + 1 = py) by rintro ⟨-, h3⟩; omega)]
        rw [if_pos (show x = px ∧ y = py + 1 from ⟨e1.symm, e2.symm⟩)]
        constructor
        · intro hc; cases hc
        · rintro (hc | hc)
          · exfalso
            have hd : m.tiles[x + y * w]? = some (some Dir.down) := by
              rw [← e1, ← e2]; exact ht2
            exact not_up_down inv hx (by omega) hc hd
          · cases hc
      · rw [if_neg cS]
        by_cases cT : px + py * w = x + y * w
        · obtain ⟨e1, e2⟩ := idx_inj hpx hx cT
          rw [if_pos cT, if_pos hidx']
          rw [if_pos (show x = px ∧ y + 1 = py + 1 from ⟨e1.symm, by omega⟩)]
          rw [if_neg (show ¬(x = px ∧ y = py + 1) by rintro ⟨-, h3⟩; omega)]
          rw [if_pos (show x = px ∧ y = py from ⟨e1.symm, e2.symm⟩)]
          simp
        · rw [if_neg cT]
          rw [inv.horz_open x y hx hy1]
          rw [if_neg (show ¬(x = px ∧ y + 1 = py + 1) by
            rintro ⟨rfl, h3⟩
            refine cT ?_
            have ee : py = y := by omega
            rw [ee])]
          by_cases c2 : x = px ∧ y + 1 = py
          · rw [if_pos c2]
            have hb1 : m.tiles[x + (y + 1) * w]? = some none := by
              rcases c2 with ⟨rfl, h2⟩
              rw [h2]; exact hrno
            rw [hb1]
            rw [if_neg (show ¬(x = px ∧ y = py + 1) by rintro ⟨-, h3⟩; omega)]
            rw [if_neg (show ¬(x = px ∧ y = py) by rintro ⟨-, h3⟩; omega)]
            simp
          · rw [if_neg c2]
            rw [if_neg (show ¬(x = px ∧ y = py + 1) by
              rintro ⟨rfl, rfl⟩; exact cS rfl)]
            rw [if_neg (show ¬(x = px ∧ y = py) by
              rintro ⟨rfl, rfl⟩; exact cT rfl)]
    -- vert_open
    · intro x y hx1 hy
      show m.vert_walls[x + y * (w - 1)]? = some false ↔ _
      rw [hTg (x + 1) y (by omega) hy, hTg x y (by omega) hy]
      rw [inv.vert_open x y hx1 hy]
      by_cases c1 : x + 1 = px ∧ y = py + 1
      · rw [if_pos c1]
        have hb1 : m.tiles[(x + 1) + y * w]? = some (some Dir.down) := by
          rcases c1 with ⟨e1, rfl⟩
          rw [e1]; exact ht2
        rw [hb1]
        rw [if_neg (show ¬(x = px ∧ y = py + 1) by
          rintro ⟨rfl, -⟩; rcases c1 with ⟨h1, -⟩; omega)]
        rw [if_neg (show ¬(x = px ∧ y = py) by
          rintro ⟨rfl, h3⟩; rcases c1 with ⟨-, h4⟩; omega)]
        simp
      · rw [if_neg c1]
        by_cases c2 : x + 1 = px ∧ y = py
        · rw [if_pos c2]
          have hb1 : m.tiles[(x + 1) + y * w]? = some none := by
            rcases c2 with ⟨e1, rfl⟩
            rw [e1]; exact hrno
          rw [hb1]
          rw [if_neg (show ¬(x = px ∧ y = py + 1) by
            rintro ⟨rfl, -⟩; rcases c2 with ⟨h3, -⟩; omega)]
          rw [if_neg (show ¬(x = px ∧ y = py) by
            rintro ⟨rfl, rfl⟩; rcases c2 with ⟨h3, -⟩; omega)]
          simp
        · rw [if_neg c2]
          by_cases c3 : x = px ∧ y = py + 1
          · rw [if_pos c3]
            have hb2 : m.tiles[x + y * w]? = some (some Dir.down) := by
              rcases c3 with ⟨rfl, rfl⟩; exact ht2
            rw [hb2]
            simp
          · rw [if_neg c3]
            by_cases c4 : x = px ∧ y = py
            · rw [if_pos c4]
              have hb2 : m.tiles[x + y * w]? = some none := by
                rcases c4 with ⟨rfl, rfl⟩; exact hrno
              rw [hb2]
              simp
            · rw [if_neg c4]
    -- wall_count
    · show ((m.horz_walls.set (px + py * w) false).set
        (px + (py + 1) * w) true).count false + m.vert_walls.count false + 1 = w * h
      have e1 := count_false_set_false hwallT
      have e2 := count_false_set_true hwallS
      have := inv.wall_count
      omega

theorem step_down_left {w h : Nat} {m : Maze} (inv : Maze.Inv w h m) {px py : Nat}
    (horg : m.origin = (px, py)) (hpx : px < w) (hpy : py + 1 < h)
    (ht2 : m.tiles[px + (py + 1) * w]? = some (some Dir.left)) :
    ∃ m', m.stepCore Dir.down (px, py + 1) = some m' ∧ Maze.Inv w h m' := by
  have hw := inv.width_eq
  have hhl := inv.horz_len
  have hvl := inv.vert_len
  have htl := inv.tiles_len
  have hpyh : py < h := by omega
  have hp1 : 1 ≤ px := inv.ptr_left px (py + 1) hpx hpy ht2
  have hw1 : 1 ≤ m.width := by rw [hw]; exact inv.wpos
  have ee1 : px - 1 + 1 = px := by omega
  have hto : m.origin.1 + m.origin.2 * m.width < m.horz_walls.length := by
    rw [hw, hhl, horg]; exact idx_lt hpx (by omega)
  have hts : (px - 1) + (py + 1) * (m.width - 1) < m.vert_walls.length := by
    rw [hw, hvl]; exact idx_lt (by omega) hpy
  have hbo : m.origin.1 + m.origin.2 * m.width < m.tiles.length := by
    rw [hw, htl, horg]; exact idx_lt hpx hpyh
  have hbp : px + (py + 1) * m.width < m.tiles.length := by
    rw [hw, htl]; exact idx_lt hpx hpy
  have htm : m.tiles[px + (py + 1) * m.width]? = some (some Dir.left) := by
    rw [hw]; exact ht2
  have hrno : m.tiles[px + py * w]? = some none := by
    have := inv.root_none
    rw [horg] at this
    exact this
  have hwallT : m.horz_walls[px + py * w]? = some true := by
    have hl : px + py * w < m.horz_walls.length := by
      rw [hhl]; exact idx_lt hpx (by omega)
    obtain ⟨b, hb⟩ : ∃ b, m.horz_walls[px + py * w]? = some b :=
      ⟨m.horz_walls[px + py * w], List.getElem?_eq_getElem hl⟩
    cases b with
    | true => exact hb
    | false =>
      exfalso
      rcases (inv.horz_open px py hpx hpy).mp hb with hc | hc
      · rw [ht2] at hc; cases hc
      · rw [hrno] at hc; cases hc
  have hwallS : m.vert_walls[(px - 1) + (py + 1) * (w - 1)]? = some false := by
    refine (inv.vert_open (px - 1) (py + 1) (by omega) hpy).mpr (Or.inl ?_)
    rw [ee1]
    exact ht2
  refine ⟨({ m with
      origin := (px, py + 1),
      tiles := (m.tiles.set (px + py * w) (some Dir.down)).set
        (px + (py + 1) * w) none,
      horz_walls := m.horz_walls.set (px + py * w) false,
      vert_walls := m.vert_walls.set ((px - 1) + (py + 1) * (w - 1)) true }), ?_, ?_⟩
  · have hc := stepCore_down_left (m := m) (p := (px, py + 1)) hto htm hp1 hw1 hts hbo hbp
    rw [hw, horg] at hc
    rw [hw]
    dsimp only at hc
    exact hc
  · have hTg : ∀ x y, x < w → y < h →
        ((m.tiles.set (px + py * w) (some Dir.down)).set
          (px + (py + 1) * w) none)[x + y * w]? =
        if x = px ∧ y = py + 1 then some none
        else if x = px ∧ y = py then some (some Dir.down)
        else m.tiles[x + y * w]? := by
      intro x y hx hy
      exact set2_tiles_get (o := (px, py)) (p := (px, py + 1)) htl
        ⟨hpx, hpyh⟩ ⟨hpx, hpy⟩ Dir.down hx hy
    obtain ⟨tl', rn', uq', pu', pd', pl', pr', rc'⟩ :=
      tiles_fields inv Dir.down (p := (px, py + 1)) ⟨hpx, hpy⟩
        (by rw [horg]; intro he; have := congrArg Prod.snd he; simp at this)
        (by show m.origin.2 + 1 < h; rw [horg]; exact hpy)
        (by show (m.origin.1, m.origin.2 + 1) = (px, py + 1); rw [horg])
        (n := { m with
          origin := (px, py + 1),
          tiles := (m.tiles.set (px + py * w) (some Dir.down)).set
            (px + (py + 1) * w) none,
          horz_walls := m.horz_walls.set (px + py * w) false,
          vert_walls := m.vert_walls.set ((px - 1) + (py + 1) * (w - 1)) true })
        hw rfl (by show _ = (m.tiles.set (m.origin.1 + m.origin.2 * w) _).set _ _; rw [horg])
    refine ⟨inv.width_eq, inv.height_eq, inv.wpos, inv.hpos, tl', ?_, ?_,
      ⟨hpx, hpy⟩, rn', uq', pu', pd', pl', pr', ?_, ?_, rc', ?_⟩
    · show (m.horz_walls.set (px + py * w) false).length = w * (h - 1)
      rw [List.length_set, hhl]
    · show (m.vert_walls.set ((px - 1) + (py + 1) * (w - 1)) true).length = (w - 1) * h
      rw [List.length_set, hvl]
    -- horz_open
    · intro x y hx hy1
      have hy : y < h := by omega
      have hidx' : x + y * w < m.horz_walls.length := by
        rw [hhl]; exact idx_lt hx (by omega)
      show (m.horz_walls.set (px + py * w) false)[x + y * w]? = some false ↔ _
      rw [set1_get, hTg x (y + 1) hx hy1, hTg x y hx hy]
      by_cases cT : px + py * w = x + y * w
      · obtain ⟨e1, e2⟩ := idx_inj hpx hx cT
        rw [if_pos cT, if_pos hidx']
        rw [if_pos (show x = px ∧ y + 1 = py + 1 from ⟨e1.symm, by omega⟩)]
        rw [if_neg (show ¬(x = px ∧ y = py + 1) by rintro ⟨-, h3⟩; omega)]
        rw [if_pos (show x = px ∧ y = py from ⟨e1.symm, e2.symm⟩)]
        simp
      · rw [if_neg cT]
        rw [inv.horz_open x y hx hy1]
        rw [if_neg (show ¬(x = px ∧ y + 1 = py + 1) by
          rintro ⟨rfl, h3⟩
          refine cT ?_
          have ee : py = y := by omega
          rw [ee])]
        by_cases c2 : x = px ∧ y + 1 = py
        · rw [if_pos c2]
          have hb1 : m.tiles[x + (y + 1) * w]? = some none := by
            rcases c2 with ⟨rfl, h2⟩
            rw [h2]; exact hrno
          rw [hb1]
          rw [if_neg (show ¬(x = px ∧ y = py + 1) by rintro ⟨-, h3⟩; omega)]
          rw [if_neg (show ¬(x = px ∧ y = py) by rintro ⟨-, h3⟩; omega)]
          simp
        · rw [if_neg c2]
          by_cases c3 : x = px ∧ y = py + 1
          · rw [if_pos c3]
            have hb2 : m.tiles[x + y * w]? = some (some Dir.left) := by
              rcases c3 with ⟨rfl, rfl⟩; exact ht2
            rw [hb2]
            simp
          · rw [if_neg c3]
            rw [if_neg (show ¬(x = px ∧ y = py) by
              rintro ⟨rfl, rfl⟩; exact cT rfl)]
    -- vert_open
    · intro x y hx1 hy
      have hidxv : x + y * (w - 1) < m.vert_walls.length := by
        rw [hvl]; exact idx_lt (by omega) hy
      show (m.vert_walls.set ((px - 1) + (py + 1) * (w - 1)) true)[x + y * (w - 1)]? =
        some false ↔ _
      rw [set1_get, hTg (x + 1) y (by omega) hy, hTg x y (by omega) hy]
      by_cases cS : (px - 1) + (py + 1) * (w - 1) = x + y * (w - 1)
      · obtain ⟨e1, e2⟩ := idx_inj (by omega : px - 1 < w - 1) (by omega : x < w - 1) cS
        rw [if_pos cS, if_pos hidxv]
        rw [if_pos (show x + 1 = px ∧ y = py + 1 from ⟨by omega, e2.symm⟩)]
        rw [if_neg (show ¬(x = px ∧ y = py + 1) by rintro ⟨rfl, -⟩; omega)]
        rw [if_neg (show ¬(x = px ∧ y = py) by rintro ⟨rfl, -⟩; omega)]
        constructor
        · intro hc; cases hc
        · rintro (hc | hc)
          · cases hc
          · exfalso
            have hlft : m.tiles[(x + 1) + y * w]? = some (some Dir.left) := by
              have e3 : x + 1 = px := by omega
              rw [e3, ← e2]; exact ht2
            exact not_left_right inv (by omega) hy hlft hc
      · rw [if_neg cS]
        rw [inv.vert_open x y hx1 hy]
        by_cases c1 : x + 1 = px ∧ y = py + 1
        · exfalso
          rcases c1 with ⟨e1, rfl⟩
          refine cS ?_
          have ee : px - 1 = x := by omega
          rw [ee]
        · rw [if_neg c1]
          by_cases c2 : x + 1 = px ∧ y = py
          · rw [if_pos c2]
            have hb1 : m.tiles[(x + 1) + y * w]? = some none := by
              rcases c2 with ⟨e1, rfl⟩
              rw [e1]; exact hrno
            rw [hb1]
            rw [if_neg (show ¬(x = px ∧ y = py + 1) by
              rintro ⟨rfl, -⟩; rcases c2 with ⟨h3, -⟩; omega)]
            rw [if_neg (show ¬(x = px ∧ y = py) by
              rintro ⟨rfl, rfl⟩; rcases c2 with ⟨h3, -⟩; omega)]
            simp
          · rw [if_neg c2]
            by_cases c3 : x = px ∧ y = py + 1
            · rw [if_pos c3]
              have hb2 : m.tiles[x + y * w]? = some (some Dir.left) := by
                rcases c3 with ⟨rfl, rfl⟩; exact ht2
              rw [hb2]
              simp
            · rw [if_neg c3]
              by_cases c4 : x = px ∧ y = py
              · rw [if_pos c4]
                have hb2 : m.tiles[x + y * w]? = some none := by
                  rcases c4 with ⟨rfl, rfl⟩; exact hrno
                rw [hb2]
                simp
              · rw [if_neg c4]
    -- wall_count
    · show (m.horz_walls.set (px + py * w) false).count false +
        (m.vert_walls.set ((px - 1) + (py + 1) * (w - 1)) true).count false + 1 = w * h
      have e1 := count_false_set_false hwallT
      have e2 := count_false_set_true hwallS
      have := inv.wall_count
      omega

theorem step_down_right {w h : Nat} {m : Maze} (inv : Maze.Inv w h m) {px py : Nat}
    (horg : m.origin = (px, py)) (hpx : px < w) (hpy : py + 1 < h)
    (ht2 : m.tiles[px + (py + 1) * w]? = some (some Dir.right)) :
    ∃ m', m.stepCore Dir.down (px, py + 1) = some m' ∧ Maze.Inv w h m' := by
  have hw := inv.width_eq
  have hhl := inv.horz_len
  have hvl := inv.vert_len
  have htl := inv.tiles_len
  have hpyh : py < h := by omega
  have hpr : px + 1 < w := inv.ptr_right px (py + 1) hpx hpy ht2
  have hw1 : 1 ≤ m.width := by rw [hw]; exact inv.wpos
  have hto : m.origin.1 + m.origin.2 * m.width < m.horz_walls.length := by
    rw [hw, hhl, horg]; exact idx_lt hpx (by omega)
  have hts : px + (py + 1) * (m.width - 1) < m.vert_walls.length := by
    rw [hw, hvl]; exact idx_lt (by omega) hpy
  have hbo : m.origin.1 + m.origin.2 * m.width < m.tiles.length := by
    rw [hw, htl, horg]; exact idx_lt hpx hpyh
  have hbp : px + (py + 1) * m.width < m.tiles.length := by
    rw [hw, htl]; exact idx_lt hpx hpy
  have htm : m.tiles[px + (py + 1) * m.width]? = some (some Dir.right) := by
    rw [hw]; exact ht2
  have hrno : m.tiles[px + py * w]? = some none := by
    have := inv.root_none
    rw [horg] at this
    exact this
  have hwallT : m.horz_walls[px + py * w]? = some true := by
    have hl : px + py * w < m.horz_walls.length := by
      rw [hhl]; exact idx_lt hpx (by omega)
    obtain ⟨b, hb⟩ : ∃ b, m.horz_walls[px + py * w]? = some b :=
      ⟨m.horz_walls[px + py * w], List.getElem?_eq_getElem hl⟩
    cases b with
    | true => exact hb
    | false =>
      exfalso
      rcases (inv.horz_open px py hpx hpy).mp hb with hc | hc
      · rw [ht2] at hc; cases hc
      · rw [hrno] at hc; cases hc
  have hwallS : m.vert_walls[px + (py + 1) * (w - 1)]? = some false :=
    (inv.vert_open px (py + 1) hpr hpy).mpr (Or.inr ht2)
  refine ⟨({ m with
      origin := (px, py + 1),
      tiles := (m.tiles.set (px + py * w) (some Dir.down)).set
        (px + (py + 1) * w) none,
      horz_walls := m.horz_walls.set (px + py * w) false,
      vert_walls := m.vert_walls.set (px + (py + 1) * (w - 1)) true }), ?_, ?_⟩
  · have hc := stepCore_down_right (m := m) (p := (px, py + 1)) hto htm hw1 hts hbo hbp
    rw [hw, horg] at hc
    rw [hw]
    dsimp only at hc
    exact hc
  · have hTg : ∀ x y, x < w → y < h →
        ((m.tiles.set (px + py * w) (some Dir.down)).set
          (px + (py + 1) * w) none)[x + y * w]? =
        if x = px ∧ y = py + 1 then some none
        else if x = px ∧ y = py then some (some Dir.down)
        else m.tiles[x + y * w]? := by
      intro x y hx hy
      exact set2_tiles_get (o := (px, py)) (p := (px, py + 1)) htl
        ⟨hpx, hpyh⟩ ⟨hpx, hpy⟩ Dir.down hx hy
    obtain ⟨tl', rn', uq', pu', pd', pl', pr', rc'⟩ :=
      tiles_fields inv Dir.down (p := (px, py + 1)) ⟨hpx, hpy⟩
        (by rw [horg]; intro he; have := congrArg Prod.snd he; simp at this)
        (by show m.origin.2 + 1 < h; rw [horg]; exact hpy)
        (by show (m.origin.1, m.origin.2 + 1) = (px, py + 1); rw [horg])
        (n := { m with
          origin := (px, py + 1),
          tiles := (m.tiles.set (px + py * w) (some Dir.down)).set
            (px + (py + 1) * w) none,
          horz_walls := m.horz_walls.set (px + py * w) false,
          vert_walls := m.vert_walls.set (px + (py + 1) * (w - 1)) true })
        hw rfl (by show _ = (m.tiles.set (m.origin.1 + m.origin.2 * w) _).set _ _; rw [horg])
    refine ⟨inv.width_eq, inv.height_eq, inv.wpos, inv.hpos, tl', ?_, ?_,
      ⟨hpx, hpy⟩, rn', uq', pu', pd', pl', pr', ?_, ?_, rc', ?_⟩
    · show (m.horz_walls.set (px + py * w) false).length = w * (h - 1)
      rw [List.length_set, hhl]
    · show (m.vert_walls.set (px + (py + 1) * (w - 1)) true).length = (w - 1) * h
      rw [List.length_set, hvl]
    -- horz_open
    · intro x y hx hy1
      have hy : y < h := by omega
      have hidx' : x + y * w < m.horz_walls.length := by
        rw [hhl]; exact idx_lt hx (by omega)
      show (m.horz_walls.set (px + py * w) false)[x + y * w]? = some false ↔ _
      rw [set1_get, hTg x (y + 1) hx hy1, hTg x y hx hy]
      by_cases cT : px + py * w = x + y * w
      · obtain ⟨e1, e2⟩ := idx_inj hpx hx cT
        rw [if_pos cT, if_pos hidx']
        rw [if_pos (show x = px ∧ y + 1 = py + 1 from ⟨e1.symm, by omega⟩)]
        rw [if_neg (show ¬(x = px ∧ y = py + 1) by rintro ⟨-, h3⟩; omega)]
        rw [if_pos (show x = px ∧ y = py from ⟨e1.symm, e2.symm⟩)]
        simp
      · rw [if_neg cT]
        rw [inv.horz_open x y hx hy1]
        rw [if_neg (show ¬(x = px ∧ y + 1 = py + 1) by
          rintro ⟨rfl, h3⟩
          refine cT ?_
          have ee : py = y := by omega
          rw [ee])]
        by_cases c2 : x = px ∧ y + 1 = py
        · rw [if_pos c2]
          have hb1 : m.tiles[x + (y + 1) * w]? = some none := by
            rcases c2 with ⟨rfl, h2⟩
            rw [h2]; exact hrno
          rw [hb1]
          rw [if_neg (show ¬(x = px ∧ y = py + 1) by rintro ⟨-, h3⟩; omega)]
          rw [if_neg (show ¬(x = px ∧ y = py) by rintro ⟨-, h3⟩; omega)]
          simp
        · rw [if_neg c2]
          by_cases c3 : x = px ∧ y = py + 1
          · rw [if_pos c3]
            have hb2 : m.tiles[x + y * w]? = some (some Dir.right) := by
              rcases c3 with ⟨rfl, rfl⟩; exact ht2
            rw [hb2]
            simp
          · rw [if_neg c3]
            rw [if_neg (show ¬(x = px ∧ y = py) by
              rintro ⟨rfl, rfl⟩; exact cT rfl)]
    -- vert_open
    · intro x y hx1 hy
      have hidxv : x + y * (w - 1) < m.vert_walls.length := by
        rw [hvl]; exact idx_lt (by omega) hy
      show (m.vert_walls.set (px + (py + 1) * (w - 1)) true)[x + y * (w - 1)]? =
        some false ↔ _
      rw [set1_get, hTg (x + 1) y (by omega) hy, hTg x y (by omega) hy]
      by_cases cS : px + (py + 1) * (w - 1) = x + y * (w - 1)
      · obtain ⟨e1, e2⟩ := idx_inj (by omega : px < w - 1) (by omega : x < w - 1) cS
        rw [if_pos cS, if_pos hidxv]
        rw [if_neg (show ¬(x + 1 = px ∧ y = py + 1) by rintro ⟨h1, -⟩; omega)]
        rw [if_neg (show ¬(x + 1 = px ∧ y = py) by rintro ⟨h1, -⟩; omega)]
        rw [if_pos (show x = px ∧ y = py + 1 from ⟨e1.symm, e2.symm⟩)]
        constructor
        · intro hc; cases hc
        · rintro (hc | hc)
          · exfalso
            have hrt : m.tiles[x + y * w]? = some (some Dir.right) := by
              rw [← e1, ← e2]; exact ht2
            exact not_left_right inv (by omega) hy hc hrt
          · cases hc
      · rw [if_neg cS]
        rw [inv.vert_open x y hx1 hy]
        by_cases c1 : x + 1 = px ∧ y = py + 1
        · rw [if_pos c1]
          have hb1 : m.tiles[(x + 1) + y * w]? = some (some Dir.right) := by
            rcases c1 with ⟨e1, rfl⟩
            rw [e1]; exact ht2
          rw [hb1]
          rw [if_neg (show ¬(x = px ∧ y = py + 1) by
            rintro ⟨rfl, -⟩; rcases c1 with ⟨h1, -⟩; omega)]
          rw [if_neg (show ¬(x = px ∧ y = py) by
            rintro ⟨rfl, h3⟩; rcases c1 with ⟨-, h4⟩; omega)]
          simp
        · rw [if_neg c1]
          by_cases c2 : x + 1 = px ∧ y = py
          · rw [if_pos c2]
            have hb1 : m.tiles[(x + 1) + y * w]? = some none := by
              rcases c2 with ⟨e1, rfl⟩
              rw [e1]; exact hrno
            rw [hb1]
            rw [if_neg (show ¬(x = px ∧ y = py + 1) by
              rintro ⟨rfl, -⟩; rcases c2 with ⟨h3, -⟩; omega)]
            rw [if_neg (show ¬(x = px ∧ y = py) by
              rintro ⟨rfl, rfl⟩; rcases c2 with ⟨h3, -⟩; omega)]
            simp
          · rw [if_neg c2]
            by_cases c3 : x = px ∧ y = py + 1
            · exfalso
              rcases c3 with ⟨rfl, rfl⟩
              exact cS rfl
            · rw [if_neg c3]
              by_cases c4 : x = px ∧ y = py
              · rw [if_pos c4]
                have hb2 : m.tiles[x + y * w]? = some none := by
                  rcases c4 with ⟨rfl, rfl⟩; exact hrno
                rw [hb2]
                simp
              · rw [if_neg c4]
    -- wall_count
    · show (m.horz_walls.set (px + py * w) false).count false +
        (m.vert_walls.set (px + (py + 1) * (w - 1)) true).count false + 1 = w * h
      have e1 := count_false_set_false hwallT
      have e2 := count_false_set_true hwallS
      have := inv.wall_count
      omega

theorem step_left_right {w h : Nat} {m : Maze} (inv : Maze.Inv w h m) {px py : Nat}
    (horg : m.origin = (px + 1, py)) (hpx1 : px + 1 < w) (hpy : py < h)
    (ht2 : m.tiles[px + py * w]? = some (some Dir.right)) :
    ∃ m', m.stepCore Dir.left (px, py) = some m' ∧ Maze.Inv w h m' := by
  have hw := inv.width_eq
  have hhl := inv.horz_len
  have hvl := inv.vert_len
  have htl := inv.tiles_len
  have hpxw : px < w := by omega
  have hw1 : 1 ≤ m.width := by rw [hw]; exact inv.wpos
  have hto : px + py * (m.width - 1) < m.vert_walls.length := by
    rw [hw, hvl]; exact idx_lt (by omega) hpy
  have hbo : m.origin.1 + m.origin.2 * m.width < m.tiles.length := by
    rw [hw, htl, horg]; exact idx_lt hpx1 hpy
  have hbp : px + py * m.width < m.tiles.length := by
    rw [hw, htl]; exact idx_lt hpxw hpy
  have htm : m.tiles[px + py * m.width]? = some (some Dir.right) := by
    rw [hw]; exact ht2
  have hrno : m.tiles[(px + 1) + py * w]? = some none := by
    have := inv.root_none
    rw [horg] at this
    exact this
  have hwallT : m.vert_walls[px + py * (w - 1)]? = some false :=
    (inv.vert_open px py hpx1 hpy).mpr (Or.inr ht2)
  have hset : m.vert_walls.set (px + py * (w - 1)) false = m.vert_walls :=
    set_same hwallT
  refine ⟨({ m with
      origin := (px, py),
      tiles := (m.tiles.set ((px + 1) + py * w) (some Dir.left)).set
        (px + py * w) none,
      vert_walls := m.vert_walls.set (px + py * (w - 1)) false }), ?_, ?_⟩
  · have hc := stepCore_left_right (m := m) (p := (px, py)) hw1 hto htm hbo hbp
    rw [hw, horg] at hc
    rw [hw]
    dsimp only at hc
    exact hc
  · have hTg : ∀ x y, x < w → y < h →
        ((m.tiles.set ((px + 1) + py * w) (some Dir.left)).set
          (px + py * w) none)[x + y * w]? =
        if x = px ∧ y = py then some none
        else if x = px + 1 ∧ y = py then some (some Dir.left)
        else m.tiles[x + y * w]? := by
      intro x y hx hy
      exact set2_tiles_get (o := (px + 1, py)) (p := (px, py)) htl
        ⟨hpx1, hpy⟩ ⟨hpxw, hpy⟩ Dir.left hx hy
    obtain ⟨tl', rn', uq', pu', pd', pl', pr', rc'⟩ :=
      tiles_fields inv Dir.left (p := (px, py)) ⟨hpxw, hpy⟩
        (by rw [horg]; intro he; have := congrArg Prod.fst he; simp at this)
        (by show 1 ≤ m.origin.1; rw [horg]; simp)
        (by show (m.origin.1 - 1, m.origin.2) = (px, py); rw [horg]; simp)
        (n := { m with
          origin := (px, py),
          tiles := (m.tiles.set ((px + 1) + py * w) (some Dir.left)).set
            (px + py * w) none,
          vert_walls := m.vert_walls.set (px + py * (w - 1)) false })
        hw rfl (by show _ = (m.tiles.set (m.origin.1 + m.origin.2 * w) _).set _ _; rw [horg])
    refine ⟨inv.width_eq, inv.height_eq, inv.wpos, inv.hpos, tl', hhl, ?_,
      ⟨hpxw, hpy⟩, rn', uq', pu', pd', pl', pr', ?_, ?_, rc', ?_⟩
    · show (m.vert_walls.set (px + py * (w - 1)) false).length = (w - 1) * h
      rw [List.length_set, hvl]
    -- horz_open
    · intro x y hx hy1
      have hy : y < h := by omega
      show m.horz_walls[x + y * w]? = some false ↔ _
      rw [hTg x (y + 1) hx hy1, hTg x y hx hy]
      rw [inv.horz_open x y hx hy1]
      by_cases c1 : x = px ∧ y + 1 = py
      · rw [if_pos c1]
        have hb1 : m.tiles[x + (y + 1) * w]? = some (some Dir.right) := by
          rcases c1 with ⟨rfl, h2⟩
          rw [h2]; exact ht2
        rw [hb1]
        rw [if_neg (show ¬(x = px ∧ y = py) by rintro ⟨-, h3⟩; omega)]
        rw [if_neg (show ¬(x = px + 1 ∧ y = py) by
          rintro ⟨h3, -⟩; rcases c1 with ⟨h4, -⟩; omega)]
        simp
      · rw [if_neg c1]
        by_cases c2 : x = px + 1 ∧ y + 1 = py
        · rw [if_pos c2]
          have hb1 : m.tiles[x + (y + 1) * w]? = some none := by
            rcases c2 with ⟨rfl, h2⟩
            rw [h2]; exact hrno
          rw [hb1]
          rw [if_neg (show ¬(x = px ∧ y = py) by
            rintro ⟨rfl, -⟩; rcases c2 with ⟨h3, -⟩; omega)]
          rw [if_neg (show ¬(x = px + 1 ∧ y = py) by
            rintro ⟨-, h3⟩; rcases c2 with ⟨-, h4⟩; omega)]
          simp
        · rw [if_neg c2]
          by_cases c3 : x = px ∧ y = py
          · rw [if_pos c3]
            have hb2 : m.tiles[x + y * w]? = some (some Dir.right) := by
              rcases c3 with ⟨rfl, rfl⟩; exact ht2
            rw [hb2]
            simp
          · rw [if_neg c3]
            by_cases c4 : x = px + 1 ∧ y = py
            · rw [if_pos c4]
              have hb2 : m.tiles[x + y * w]? = some none := by
                rcases c4 with ⟨rfl, rfl⟩; exact hrno
              rw [hb2]
              simp
            · rw [if_neg c4]
    -- vert_open
    · intro x y hx1 hy
      show (m.vert_walls.set (px + py * (w - 1)) false)[x + y * (w - 1)]? =
        some false ↔ _
      rw [hset, hTg (x + 1) y (by omega) hy, hTg x y (by omega) hy]
      rw [inv.vert_open x y hx1 hy]
      by_cases c1 : x + 1 = px ∧ y = py
      · rw [if_pos c1]
        have hb1 : m.tiles[(x + 1) + y * w]? = some (some Dir.right) := by
          rcases c1 with ⟨e1, rfl⟩
          rw [e1]; exact ht2
        rw [hb1]
        rw [if_neg (show ¬(x = px ∧ y = py) by
          rintro ⟨rfl, -⟩; rcases c1 with ⟨h1, -⟩; omega)]
        rw [if_neg (show ¬(x = px + 1 ∧ y = py) by
          rintro ⟨rfl, -⟩; rcases c1 with ⟨h1, -⟩; omega)]
        simp
      · rw [if_neg c1]
        by_cases c2 : x + 1 = px + 1 ∧ y = py
        · rw [if_pos c2]
          have hb1 : m.tiles[(x + 1) + y * w]? = some none := by
            rcases c2 with ⟨e1, rfl⟩
            rw [e1]; exact hrno
          rw [hb1]
          rw [if_pos (show x = px ∧ y = py from ⟨by rcases c2 with ⟨h3, -⟩; omega, c2.2⟩)]
          have hb2 : m.tiles[x + y * w]? = some (some Dir.right) := by
            rcases c2 with ⟨h3, rfl⟩
            have ex : x = px := by omega
            rw [ex]; exact ht2
          rw [hb2]
          simp
        · rw [if_neg c2]
          rw [if_neg (show ¬(x = px ∧ y = py) by
            rintro ⟨rfl, rfl⟩; exact c2 ⟨rfl, rfl⟩)]
          by_cases c4 : x = px + 1 ∧ y = py
          · rw [if_pos c4]
            have hb2 : m.tiles[x + y * w]? = some none := by
              rcases c4 with ⟨rfl, rfl⟩; exact hrno
            rw [hb2]
            simp
          · rw [if_neg c4]
    -- wall_count
    · show m.horz_walls.count false +
        (m.vert_walls.set (px + py * (w - 1)) false).count false + 1 = w * h
      rw [hset]
      exact inv.wall_count

theorem step_left_left {w h : Nat} {m : Maze} (inv : Maze.Inv w h m) {px py : Nat}
    (horg : m.origin = (px + 1, py)) (hpx1 : px + 1 < w) (hpy : py < h)
    (ht2 : m.tiles[px + py * w]? = some (some Dir.left)) :
    ∃ m', m.stepCore Dir.left (px, py) = some m' ∧ Maze.Inv w h m' := by
  have hw := inv.width_eq
  have hhl := inv.horz_len
  have hvl := inv.vert_len
  have htl := inv.tiles_len
  have hpxw : px < w := by omega
  have hp1 : 1 ≤ px := inv.ptr_left px py hpxw hpy ht2
  have hw1 : 1 ≤ m.width := by rw [hw]; exact inv.wpos
  have ee1 : px - 1 + 1 = px := by omega
  have hto : px + py * (m.width - 1) < m.vert_walls.length := by
    rw [hw, hvl]; exact idx_lt (by omega) hpy
  have hts : (px - 1) + py * (m.width - 1) < m.vert_walls.length := by
    rw [hw, hvl]; exact idx_lt (by omega) hpy
  have hbo : m.origin.1 + m.origin.2 * m.width < m.tiles.length := by
    rw [hw, htl, horg]; exact idx_lt hpx1 hpy
  have hbp : px + py * m.width < m.tiles.length := by
    rw [hw, htl]; exact idx_lt hpxw hpy
  have htm : m.tiles[px + py * m.width]? = some (some Dir.left) := by
    rw [hw]; exact ht2
  have hrno : m.tiles[(px + 1) + py * w]? = some none := by
    have := inv.root_none
    rw [horg] at this
    exact this
  have hwallT : m.vert_walls[px + py * (w - 1)]? = some true := by
    have hl : px + py * (w - 1) < m.vert_walls.length := by
      rw [hvl]; exact idx_lt (by omega) hpy
    obtain ⟨b, hb⟩ : ∃ b, m.vert_walls[px + py * (w - 1)]? = some b :=
      ⟨m.vert_walls[px + py * (w - 1)], List.getElem?_eq_getElem hl⟩
    cases b with
    | true => exact hb
    | false =>
      exfalso
      rcases (inv.vert_open px py hpx1 hpy).mp hb with hc | hc
      · rw [hrno] at hc; cases hc
      · rw [ht2] at hc; cases hc
  have hidxST : ¬(px + py * (w - 1) = (px - 1) + py * (w - 1)) := by
    intro he
    obtain ⟨e1, -⟩ := idx_inj (by omega : px < w - 1) (by omega : px - 1 < w - 1) he
    omega
  have hwallS : (m.vert_walls.set (px + py * (w - 1)) false)[(px - 1) + py * (w - 1)]? =
      some false := by
    rw [set1_get, if_neg hidxST]
    refine (inv.vert_open (px - 1) py (by omega) hpy).mpr (Or.inl ?_)
    rw [ee1]
    exact ht2
  refine ⟨({ m with
      origin := (px, py),
      tiles := (m.tiles.set ((px + 1) + py * w) (some Dir.left)).set
        (px + py * w) none,
      vert_walls := (m.vert_walls.set (px + py * (w - 1)) false).set
        ((px - 1) + py * (w - 1)) true }), ?_, ?_⟩
  · have hc := stepCore_left_left (m := m) (p := (px, py)) hw1 hto htm hp1 hts hbo hbp
    rw [hw, horg] at hc
    rw [hw]
    dsimp only at hc
    exact hc
  · have hTg : ∀ x y, x < w → y < h →
        ((m.tiles.set ((px + 1) + py * w) (some Dir.left)).set
          (px + py * w) none)[x + y * w]? =
        if x = px ∧ y = py then some none
        else if x = px + 1 ∧ y = py then some (some Dir.left)
        else m.tiles[x + y * w]? := by
      intro x y hx hy
      exact set2_tiles_get (o := (px + 1, py)) (p := (px, py)) htl
        ⟨hpx1, hpy⟩ ⟨hpxw, hpy⟩ Dir.left hx hy
    obtain ⟨tl', rn', uq', pu', pd', pl', pr', rc'⟩ :=
      tiles_fields inv Dir.left (p := (px, py)) ⟨hpxw, hpy⟩
        (by rw [horg]; intro he; have := congrArg Prod.fst he; simp at this)
        (by show 1 ≤ m.origin.1; rw [horg]; simp)
        (by show (m.origin.1 - 1, m.origin.2) = (px, py); rw [horg]; simp)
        (n := { m with
          origin := (px, py),
          tiles := (m.tiles.set ((px + 1) + py * w) (some Dir.left)).set
            (px + py * w) none,
          vert_walls := (m.vert_walls.set (px + py * (w - 1)) false).set
            ((px - 1) + py * (w - 1)) true })
        hw rfl (by show _ = (m.tiles.set (m.origin.1 + m.origin.2 * w) _).set _ _; rw [horg])
    refine ⟨inv.width_eq, inv.height_eq, inv.wpos, inv.hpos, tl', hhl, ?_,
      ⟨hpxw, hpy⟩, rn', uq', pu', pd', pl', pr', ?_, ?_, rc', ?_⟩
    · show ((m.vert_walls.set (px + py * (w - 1)) false).set
        ((px - 1) + py * (w - 1)) true).length = (w - 1) * h
      rw [List.length_set, List.length_set, hvl]
    -- horz_open
    · intro x y hx hy1
      have hy : y < h := by omega
      show m.horz_walls[x + y * w]? = some false ↔ _
      rw [hTg x (y + 1) hx hy1, hTg x y hx hy]
      rw [inv.horz_open x y hx hy1]
      by_cases c1 : x = px ∧ y + 1 = py
      · rw [if_pos c1]
        have hb1 : m.tiles[x + (y + 1) * w]? = some (some Dir.left) := by
          rcases c1 with ⟨rfl, h2⟩
          rw [h2]; exact ht2
        rw [hb1]
        rw [if_neg (show ¬(x = px ∧ y = py) by rintro ⟨-, h3⟩; omega)]
        rw [if_neg (show ¬(x = px + 1 ∧ y = py) by
          rintro ⟨h3, -⟩; rcases c1 with ⟨h4, -⟩; omega)]
        simp
      · rw [if_neg c1]
        by_cases c2 : x = px + 1 ∧ y + 1 = py
        · rw [if_pos c2]
          have hb1 : m.tiles[x + (y + 1) * w]? = some none := by
            rcases c2 with ⟨rfl, h2⟩
            rw [h2]; exact hrno
          rw [hb1]
          rw [if_neg (show ¬(x = px ∧ y = py) by
            rintro ⟨rfl, -⟩; rcases c2 with ⟨h3, -⟩; omega)]
          rw [if_neg (show ¬(x = px + 1 ∧ y = py) by
            rintro ⟨-, h3⟩; rcases c2 with ⟨-, h4⟩; omega)]
          simp
        · rw [if_neg c2]
          by_cases c3 : x = px ∧ y = py
          · rw [if_pos c3]
            have hb2 : m.tiles[x + y * w]? = some (some Dir.left) := by
              rcases c3 with ⟨rfl, rfl⟩; exact ht2
            rw [hb2]
            simp
          · rw [if_neg c3]
            by_cases c4 : x = px + 1 ∧ y = py
            · rw [if_pos c4]
              have hb2 : m.tiles[x + y * w]? = some none := by
                rcases c4 with ⟨rfl, rfl⟩; exact hrno
              rw [hb2]
              simp
            · rw [if_neg c4]
    -- vert_open
    · intro x y hx1 hy
      have hidxv : x + y * (w - 1) < m.vert_walls.length := by
        rw [hvl]; exact idx_lt (by omega) hy
      show ((m.vert_walls.set (px + py * (w - 1)) false).set
        ((px - 1) + py * (w - 1)) true)[x + y * (w - 1)]? = some false ↔ _
      rw [set2_get, hTg (x + 1) y (by omega) hy, hTg x y (by omega) hy]
      by_cases cS : (px - 1) + py * (w - 1) = x + y * (w - 1)
      · obtain ⟨e1, e2⟩ := idx_inj (by omega : px - 1 < w - 1) (by omega : x < w - 1) cS
        rw [if_pos cS, if_pos hidxv]
        rw [if_pos (show x + 1 = px ∧ y = py from ⟨by omega, e2.symm⟩)]
        rw [if_neg (show ¬(x = px ∧ y = py) by rintro ⟨rfl, -⟩; omega)]
        rw [if_neg (show ¬(x = px + 1 ∧ y = py) by rintro ⟨rfl, -⟩; omega)]
        constructor
        · intro hc; cases hc
        · rintro (hc | hc)
          · cases hc
          · exfalso
            have hlft : m.tiles[(x + 1) + y * w]? = some (some Dir.left) := by
              have e3 : x + 1 = px := by omega
              rw [e3, ← e2]; exact ht2
            exact not_left_right inv (by omega) hy hlft hc
      · rw [if_neg cS]
        by_cases cT : px + py * (w - 1) = x + y * (w - 1)
        · obtain ⟨e1, e2⟩ := idx_inj (by omega : px < w - 1) (by omega : x < w - 1) cT
          rw [if_pos cT, if_pos hidxv]
          rw [if_neg (show ¬(x + 1 = px ∧ y = py) by rintro ⟨h3, -⟩; omega)]
          rw [if_pos (show x + 1 = px + 1 ∧ y = py from ⟨by omega, e2.symm⟩)]
          rw [if_pos (show x = px ∧ y = py from ⟨e1.symm, e2.symm⟩)]
          simp
        · rw [if_neg cT]
          rw [inv.vert_open x y hx1 hy]
          rw [if_neg (show ¬(x + 1 = px ∧ y = py) by
            rintro ⟨h3, rfl⟩
            refine cS ?_
            have ee : px - 1 = x := by omega
            rw [ee])]
          rw [if_neg (show ¬(x + 1 = px + 1 ∧ y = py) by
            rintro ⟨h3, rfl⟩
            refine cT ?_
            have ee : px = x := by omega
            rw [ee])]
          rw [if_neg (show ¬(x = px ∧ y = py) by
            rintro ⟨rfl, rfl⟩; exact cT rfl)]
          by_cases c4 : x = px + 1 ∧ y = py
          · rw [if_pos c4]
            have hb2 : m.tiles[x + y * w]? = some none := by
              rcases c4 with ⟨rfl, rfl⟩; exact hrno
            rw [hb2]
            simp
          · rw [if_neg c4]
    -- wall_count
    · show m.horz_walls.count false +
        ((m.vert_walls.set (px + py * (w - 1)) false).set
          ((px - 1) + py * (w - 1)) true).count false + 1 = w * h
      have e1 := count_false_set_false hwallT
      have e2 := count_false_set_true hwallS
      have := inv.wall_count
      omega

theorem step_left_up {w h : Nat} {m : Maze} (inv : Maze.Inv w h m) {px py : Nat}
    (horg : m.origin = (px + 1, py)) (hpx1 : px + 1 < w) (hpy : py < h)
    (ht2 : m.tiles[px + py * w]? = some (some Dir.up)) :
    ∃ m', m.stepCore Dir.left (px, py) = some m' ∧ Maze.Inv w h m' := by
  have hw := inv.width_eq
  have hhl := inv.horz_len
  have hvl := inv.vert_len
  have htl := inv.tiles_len
  have hpxw : px < w := by omega
  have hp2 : 1 ≤ py := inv.ptr_up px py hpxw hpy ht2
  have hw1 : 1 ≤ m.width := by rw [hw]; exact inv.wpos
  have ee2 : py - 1 + 1 = py := by omega
  have hto : px + py * (m.width - 1) < m.vert_walls.length := by
    rw [hw, hvl]; exact idx_lt (by omega) hpy
  have hts : px + (py - 1) * m.width < m.horz_walls.length := by
    rw [hw, hhl]; exact idx_lt hpxw (by omega)
  have hbo : m.origin.1 + m.origin.2 * m.width < m.tiles.length := by
    rw [hw, htl, horg]; exact idx_lt hpx1 hpy
  have hbp : px + py * m.width < m.tiles.length := by
    rw [hw, htl]; exact idx_lt hpxw hpy
  have htm : m.tiles[px + py * m.width]? = some (some Dir.up) := by
    rw [hw]; exact ht2
  have hrno : m.tiles[(px + 1) + py * w]? = some none := by
    have := inv.root_none
    rw [horg] at this
    exact this
  have hwallT : m.vert_walls[px + py * (w - 1)]? = some true := by
    have hl : px + py * (w - 1) < m.vert_walls.length := by
      rw [hvl]; exact idx_lt (by omega) hpy
    obtain ⟨b, hb⟩ : ∃ b, m.vert_walls[px + py * (w - 1)]? = some b :=
      ⟨m.vert_walls[px + py * (w - 1)], List.getElem?_eq_getElem hl⟩
    cases b with
    | true => exact hb
    | false =>
      exfalso
      rcases (inv.vert_open px py hpx1 hpy).mp hb with hc | hc
      · rw [hrno] at hc; cases hc
      · rw [ht2] at hc; cases hc
  have hwallS : m.horz_walls[px + (py - 1) * w]? = some false := by
    refine (inv.horz_open px (py - 1) hpxw (by omega)).mpr (Or.inl ?_)
    rw [ee2]
    exact ht2
  refine ⟨({ m with
      origin := (px, py),
      tiles := (m.tiles.set ((px + 1) + py * w) (some Dir.left)).set
        (px + py * w) none,
      horz_walls := m.horz_walls.set (px + (py - 1) * w) true,
      vert_walls := m.vert_walls.set (px + py * (w - 1)) false }), ?_, ?_⟩
  · have hc := stepCore_left_up (m := m) (p := (px, py)) hw1 hto htm hp2 hts hbo hbp
    rw [hw, horg] at hc
    rw [hw]
    dsimp only at hc
    exact hc
  · have hTg : ∀ x y, x < w → y < h →
        ((m.tiles.set ((px + 1) + py * w) (some Dir.left)).set
          (px + py * w) none)[x + y * w]? =
        if x = px ∧ y = py then some none
        else if x = px + 1 ∧ y = py then some (some Dir.left)
        else m.tiles[x + y * w]? := by
      intro x y hx hy
      exact set2_tiles_get (o := (px + 1, py)) (p := (px, py)) htl
        ⟨hpx1, hpy⟩ ⟨hpxw, hpy⟩ Dir.left hx hy
    obtain ⟨tl', rn', uq', pu', pd', pl', pr', rc'⟩ :=
      tiles_fields inv Dir.left (p := (px, py)) ⟨hpxw, hpy⟩
        (by rw [horg]; intro he; have := congrArg Prod.fst he; simp at this)
        (by show 1 ≤ m.origin.1; rw [horg]; simp)
        (by show (m.origin.1 - 1, m.origin.2) = (px, py); rw [horg]; simp)
        (n := { m with
          origin := (px, py),
          tiles := (m.tiles.set ((px + 1) + py * w) (some Dir.left)).set
            (px + py * w) none,
          horz_walls := m.horz_walls.set (px + (py - 1) * w) true,
          vert_walls := m.vert_walls.set (px + py * (w - 1)) false })
        hw rfl (by show _ = (m.tiles.set (m.origin.1 + m.origin.2 * w) _).set _ _; rw [horg])
    refine ⟨inv.width_eq, inv.height_eq, inv.wpos, inv.hpos, tl', ?_, ?_,
      ⟨hpxw, hpy⟩, rn', uq', pu', pd', pl', pr', ?_, ?_, rc', ?_⟩
    · show (m.horz_walls.set (px + (py - 1) * w) true).length = w * (h - 1)
      rw [List.length_set, hhl]
    · show (m.vert_walls.set (px + py * (w - 1)) false).length = (w - 1) * h
      rw [List.length_set, hvl]
    -- horz_open
    · intro x y hx hy1
      have hy : y < h := by omega
      have hidx' : x + y * w < m.horz_walls.length := by
        rw [hhl]; exact idx_lt hx (by omega)
      show (m.horz_walls.set (px + (py - 1) * w) true)[x + y * w]? = some false ↔ _
      rw [set1_get, hTg x (y + 1) hx hy1, hTg x y hx hy]
      by_cases cS : px + (py - 1) * w = x + y * w
      · obtain ⟨e1, e2⟩ := idx_inj hpxw hx cS
        rw [if_pos cS, if_pos hidx']
        rw [if_pos (show x = px ∧ y + 1 = py from ⟨e1.symm, by omega⟩)]
        rw [if_neg (show ¬(x = px ∧ y = py) by rintro ⟨-, h3⟩; omega)]
        rw [if_neg (show ¬(x = px + 1 ∧ y = py) by
          rintro ⟨h3, -⟩; omega)]
        constructor
        · intro hc; cases hc
        · rintro (hc | hc)
          · cases hc
          · exfalso
            have hu : m.tiles[x + (y + 1) * w]? = some (some Dir.up) := by
              have epy : py = y + 1 := by omega
              rw [← e1, ← epy]; exact ht2
            exact not_up_down inv hx (by omega) hu hc
      · rw [if_neg cS]
        rw [inv.horz_open x y hx hy1]
        rw [if_neg (show ¬(x = px ∧ y + 1 = py) by
          rintro ⟨rfl, h3⟩
          refine cS ?_
          have ee : py - 1 = y := by omega
          rw [ee])]
        by_cases c2 : x = px + 1 ∧ y + 1 = py
        · rw [if_pos c2]
          have hb1 : m.tiles[x + (y + 1) * w]? = some none := by
            rcases c2 with ⟨rfl, h2⟩
            rw [h2]; exact hrno
          rw [hb1]
          rw [if_neg (show ¬(x = px ∧ y = py) by
            rintro ⟨rfl, -⟩; rcases c2 with ⟨h3, -⟩; omega)]
          rw [if_neg (show ¬(x = px + 1 ∧ y = py) by
            rintro ⟨-, h3⟩; rcases c2 with ⟨-, h4⟩; omega)]
          simp
        · rw [if_neg c2]
          by_cases c3 : x = px ∧ y = py
          · rw [if_pos c3]
            have hb2 : m.tiles[x + y * w]? = some (some Dir.up) := by
              rcases c3 with ⟨rfl, rfl⟩; exact ht2
            rw [hb2]
            simp
          · rw [if_neg c3]
            by_cases c4 : x = px + 1 ∧ y = py
            · rw [if_pos c4]
              have hb2 : m.tiles[x + y * w]? = some none := by
                rcases c4 with ⟨rfl, rfl⟩; exact hrno
              rw [hb2]
              simp
            · rw [if_neg c4]
    -- vert_open
    · intro x y hx1 hy
      have hidxv : x + y * (w - 1) < m.vert_walls.length := by
        rw [hvl]; exact idx_lt (by omega) hy
      show (m.vert_walls.set (px + py * (w - 1)) false)[x + y * (w - 1)]? =
        some false ↔ _
      rw [set1_get, hTg (x + 1) y (by omega) hy, hTg x y (by omega) hy]
      by_cases cT : px + py * (w - 1) = x + y * (w - 1)
      · obtain ⟨e1, e2⟩ := idx_inj (by omega : px < w - 1) (by omega : x < w - 1) cT
        rw [if_pos cT, if_pos hidxv]
        rw [if_neg (show ¬(x + 1 = px ∧ y = py) by rintro ⟨h3, -⟩; omega)]
        rw [if_pos (show x + 1 = px + 1 ∧ y = py from ⟨by omega, e2.symm⟩)]
        rw [if_pos (show x = px ∧ y = py from ⟨e1.symm, e2.symm⟩)]
        simp
      · rw [if_neg cT]
        rw [inv.vert_open x y hx1 hy]
        by_cases c1 : x + 1 = px ∧ y = py
        · rw [if_pos c1]
          have hb1 : m.tiles[(x + 1) + y * w]? = some (some Dir.up) := by
            rcases c1 with ⟨e1, rfl⟩
            rw [e1]; exact ht2
          rw [hb1]
          rw [if_neg (show ¬(x = px ∧ y = py) by
            rintro ⟨rfl, -⟩; rcases c1 with ⟨h1, -⟩; omega)]
          rw [if_neg (show ¬(x = px + 1 ∧ y = py) by
            rintro ⟨rfl, -⟩; rcases c1 with ⟨h1, -⟩; omega)]
          simp
        · rw [if_neg c1]
          rw [if_neg (show ¬(x + 1 = px + 1 ∧ y = py) by
            rintro ⟨h3, rfl⟩
            refine cT ?_
            have ee : px = x := by omega
            rw [ee])]
          rw [if_neg (show ¬(x = px ∧ y = py) by
            rintro ⟨rfl, rfl⟩; exact cT rfl)]
          by_cases c4 : x = px + 1 ∧ y = py
          · rw [if_pos c4]
            have hb2 : m.tiles[x + y * w]? = some none := by
              rcases c4 with ⟨rfl, rfl⟩; exact hrno
            rw [hb2]
            simp
          · rw [if_neg c4]
    -- wall_count
    · show (m.horz_walls.set (px + (py - 1) * w) true).count false +
        (m.vert_walls.set (px + py * (w - 1)) false).count false + 1 = w * h
      have e1 := count_false_set_false hwallT
      have e2 := count_false_set_true hwallS
      have := inv.wall_count
      omega

theorem step_left_down {w h : Nat} {m : Maze} (inv : Maze.Inv w h m) {px py : Nat}
    (horg : m.origin = (px + 1, py)) (hpx1 : px + 1 < w) (hpy : py < h)
    (ht2 : m.tiles[px + py * w]? = some (some Dir.down)) :
    ∃ m', m.stepCore Dir.left (px, py) = some m' ∧ Maze.Inv w h m' := by
  have hw := inv.width_eq
  have hhl := inv.horz_len
  have hvl := inv.vert_len
  have htl := inv.tiles_len
  have hpxw : px < w := by omega
  have hpd : py + 1 < h := inv.ptr_down px py hpxw hpy ht2
  have hw1 : 1 ≤ m.width := by rw [hw]; exact inv.wpos
  have hto : px + py * (m.width - 1) < m.vert_walls.length := by
    rw [hw, hvl]; exact idx_lt (by omega) hpy
  have hts : px + py * m.width < m.horz_walls.length := by
    rw [hw, hhl]; exact idx_lt hpxw (by omega)
  have hbo : m.origin.1 + m.origin.2 * m.width < m.tiles.length := by
    rw [hw, htl, horg]; exact idx_lt hpx1 hpy
  have hbp : px + py * m.width < m.tiles.length := by
    rw [hw, htl]; exact idx_lt hpxw hpy
  have htm : m.tiles[px + py * m.width]? = some (some Dir.down) := by
    rw [hw]; exact ht2
  have hrno : m.tiles[(px + 1) + py * w]? = some none := by
    have := inv.root_none
    rw [horg] at this
    exact this
  have hwallT : m.vert_walls[px + py * (w - 1)]? = some true := by
    have hl : px + py * (w - 1) < m.vert_walls.length := by
      rw [hvl]; exact idx_lt (by omega) hpy
    obtain ⟨b, hb⟩ : ∃ b, m.vert_walls[px + py * (w - 1)]? = some b :=
      ⟨m.vert_walls[px + py * (w - 1)], List.getElem?_eq_getElem hl⟩
    cases b with
    | true => exact hb
    | false =>
      exfalso
      rcases (inv.vert_open px py hpx1 hpy).mp hb with hc | hc
      · rw [hrno] at hc; cases hc
      · rw [ht2] at hc; cases hc
  have hwallS : m.horz_walls[px + py * w]? = some false :=
    (inv.horz_open px py hpxw hpd).mpr (Or.inr ht2)
  refine ⟨({ m with
      origin := (px, py),
      tiles := (m.tiles.set ((px + 1) + py * w) (some Dir.left)).set
        (px + py * w) none,
      horz_walls := m.horz_walls.set (px + py * w) true,
      vert_walls := m.vert_walls.set (px + py * (w - 1)) false }), ?_, ?_⟩
  · have hc := stepCore_left_down (m := m) (p := (px, py)) hw1 hto htm hts hbo hbp
    rw [hw, horg] at hc
    rw [hw]
    dsimp only at hc
    exact hc
  · have hTg : ∀ x y, x < w → y < h →
        ((m.tiles.set ((px + 1) + py * w) (some Dir.left)).set
          (px + py * w) none)[x + y * w]? =
        if x = px ∧ y = py then some none
        else if x = px + 1 ∧ y = py then some (some Dir.left)
        else m.tiles[x + y * w]? := by
      intro x y hx hy
      exact set2_tiles_get (o := (px + 1, py)) (p := (px, py)) htl
        ⟨hpx1, hpy⟩ ⟨hpxw, hpy⟩ Dir.left hx hy
    obtain ⟨tl', rn', uq', pu', pd', pl', pr', rc'⟩ :=
      tiles_fields inv Dir.left (p := (px, py)) ⟨hpxw, hpy⟩
        (by rw [horg]; intro he; have := congrArg Prod.fst he; simp at this)
        (by show 1 ≤ m.origin.1; rw [horg]; simp)
        (by show (m.origin.1 - 1, m.origin.2) = (px, py); rw [horg]; simp)
        (n := { m with
          origin := (px, py),
          tiles := (m.tiles.set ((px + 1) + py * w) (some Dir.left)).set
            (px + py * w) none,
          horz_walls := m.horz_walls.set (px + py * w) true,
          vert_walls := m.vert_walls.set (px + py * (w - 1)) false })
        hw rfl (by show _ = (m.tiles.set (m.origin.1 + m.origin.2 * w) _).set _ _; rw [horg])
    refine ⟨inv.width_eq, inv.height_eq, inv.wpos, inv.hpos, tl', ?_, ?_,
      ⟨hpxw, hpy⟩, rn', uq', pu', pd', pl', pr', ?_, ?_, rc', ?_⟩
    · show (m.horz_walls.set (px + py * w) true).length = w * (h - 1)
      rw [List.length_set, hhl]
    · show (m.vert_walls.set (px + py * (w - 1)) false).length = (w - 1) * h
      rw [List.length_set, hvl]
    -- horz_open
    · intro x y hx hy1
      have hy : y < h := by omega
      have hidx' : x + y * w < m.horz_walls.length := by
        rw [hhl]; exact idx_lt hx (by omega)
      show (m.horz_walls.set (px + py * w) true)[x + y * w]? = some false ↔ _
      rw [set1_get, hTg x (y + 1) hx hy1, hTg x y hx hy]
      by_cases cS : px + py * w = x + y * w
      · obtain ⟨e1, e2⟩ := idx_inj hpxw hx cS
        rw [if_pos cS, if_pos hidx']
        rw [if_neg (show ¬(x = px ∧ y + 1 = py) by rintro ⟨-, h3⟩; omega)]
        rw [if_neg (show ¬(x = px + 1 ∧ y + 1 = py) by
          rintro ⟨h3, -⟩; omega)]
        rw [if_pos (show x = px ∧ y = py from ⟨e1.symm, e2.symm⟩)]
        constructor
        · intro hc; cases hc
        · rintro (hc | hc)
          · exfalso
            have hd : m.tiles[x + y * w]? = some (some Dir.down) := by
              rw [← e1, ← e2]; exact ht2
            exact not_up_down inv hx (by omega) hc hd
          · cases hc
      · rw [if_neg cS]
        rw [inv.horz_open x y hx hy1]
        by_cases c1 : x = px ∧ y + 1 = py
        · rw [if_pos c1]
          have hb1 : m.tiles[x + (y + 1) * w]? = some (some Dir.down) := by
            rcases c1 with ⟨rfl, h2⟩
            rw [h2]; exact ht2
          rw [hb1]
          rw [if_neg (show ¬(x = px ∧ y = py) by rintro ⟨-, h3⟩; omega)]
          rw [if_neg (show ¬(x = px + 1 ∧ y = py) by
            rintro ⟨h3, -⟩; rcases c1 with ⟨h4, -⟩; omega)]
          simp
        · rw [if_neg c1]
          by_cases c2 : x = px + 1 ∧ y + 1 = py
          · rw [if_pos c2]
            have hb1 : m.tiles[x + (y + 1) * w]? = some none := by
              rcases c2 with ⟨rfl, h2⟩
              rw [h2]; exact hrno
            rw [hb1]
            rw [if_neg (show ¬(x = px ∧ y = py) by
              rintro ⟨rfl, -⟩; rcases c2 with ⟨h3, -⟩; omega)]
            rw [if_neg (show ¬(x = px + 1 ∧ y = py) by
              rintro ⟨-, h3⟩; rcases c2 with ⟨-, h4⟩; omega)]
            simp
          · rw [if_neg c2]
            rw [if_neg (show ¬(x = px ∧ y = py) by
              rintro ⟨rfl, rfl⟩; exact cS rfl)]
            by_cases c4 : x = px + 1 ∧ y = py
            · rw [if_pos c4]
              have hb2 : m.tiles[x + y * w]? = some none := by
                rcases c4 with ⟨rfl, rfl⟩; exact hrno
              rw [hb2]
              simp
            · rw [if_neg c4]
    -- vert_open
    · intro x y hx1 hy
      have hidxv : x + y * (w - 1) < m.vert_walls.length := by
        rw [hvl]; exact idx_lt (by omega) hy
      show (m.vert_walls.set (px + py * (w - 1)) false)[x + y * (w - 1)]? =
        some false ↔ _
      rw [set1_get, hTg (x + 1) y (by omega) hy, hTg x y (by omega) hy]
      by_cases cT : px + py * (w - 1) = x + y * (w - 1)
      · obtain ⟨e1, e2⟩ := idx_inj (by omega : px < w - 1) (by omega : x < w - 1) cT
        rw [if_pos cT, if_pos hidxv]
        rw [if_neg (show ¬(x + 1 = px ∧ y = py) by rintro ⟨h3, -⟩; omega)]
        rw [if_pos (show x + 1 = px + 1 ∧ y = py from ⟨by omega, e2.symm⟩)]
        rw [if_pos (show x = px ∧ y = py from ⟨e1.symm, e2.symm⟩)]
        simp
      · rw [if_neg cT]
        rw [inv.vert_open x y hx1 hy]
        by_cases c1 : x + 1 = px ∧ y = py
        · rw [if_pos c1]
          have hb1 : m.tiles[(x + 1) + y * w]? = some (some Dir.down) := by
            rcases c1 with ⟨e1, rfl⟩
            rw [e1]; exact ht2
          rw [hb1]
          rw [if_neg (show ¬(x = px ∧ y = py) by
            rintro ⟨rfl, -⟩; rcases c1 with ⟨h1, -⟩; omega)]
          rw [if_neg (show ¬(x = px + 1 ∧ y = py) by
            rintro ⟨rfl, -⟩; rcases c1 with ⟨h1, -⟩; omega)]
          simp
        · rw [if_neg c1]
          rw [if_neg (show ¬(x + 1 = px + 1 ∧ y = py) by
            rintro ⟨h3, rfl⟩
            refine cT ?_
            have ee : px = x := by omega
            rw [ee])]
          rw [if_neg (show ¬(x = px ∧ y = py) by
            rintro ⟨rfl, rfl⟩; exact cT rfl)]
          by_cases c4 : x = px + 1 ∧ y = py
          · rw [if_pos c4]
            have hb2 : m.tiles[x + y * w]? = some none := by
              rcases c4 with ⟨rfl, rfl⟩; exact hrno
            rw [hb2]
            simp
          · rw [if_neg c4]
    -- wall_count
    · show (m.horz_walls.set (px + py * w) true).count false +
        (m.vert_walls.set (px + py * (w - 1)) false).count false + 1 = w * h
      have e1 := count_false_set_false hwallT
      have e2 := count_false_set_true hwallS
      have := inv.wall_count
      omega

theorem step_right_left {w h : Nat} {m : Maze} (inv : Maze.Inv w h m) {px py : Nat}
    (horg : m.origin = (px, py)) (hpx1 : px + 1 < w) (hpy : py < h)
    (ht2 : m.tiles[(px + 1) + py * w]? = some (some Dir.left)) :
    ∃ m', m.stepCore Dir.right (px + 1, py) = some m' ∧ Maze.Inv w h m' := by
  have hw := inv.width_eq
  have hhl := inv.horz_len
  have hvl := inv.vert_len
  have htl := inv.tiles_len
  have hpxw : px < w := by omega
  have hw1 : 1 ≤ m.width := by rw [hw]; exact inv.wpos
  have hto : m.origin.1 + m.origin.2 * (m.width - 1) < m.vert_walls.length := by
    rw [hw, hvl, horg]; exact idx_lt (by omega) hpy
  have hbo : m.origin.1 + m.origin.2 * m.width < m.tiles.length := by
    rw [hw, htl, horg]; exact idx_lt hpxw hpy
  have hbp : (px + 1) + py * m.width < m.tiles.length := by
    rw [hw, htl]; exact idx_lt hpx1 hpy
  have htm : m.tiles[(px + 1) + py * m.width]? = some (some Dir.left) := by
    rw [hw]; exact ht2
  have hrno : m.tiles[px + py * w]? = some none := by
    have := inv.root_none
    rw [horg] at this
    exact this
  have hwallT : m.vert_walls[px + py * (w - 1)]? = some false :=
    (inv.vert_open px py hpx1 hpy).mpr (Or.inl ht2)
  have hset : m.vert_walls.set (px + py * (w - 1)) false = m.vert_walls :=
    set_same hwallT
  refine ⟨({ m with
      origin := (px + 1, py),
      tiles := (m.tiles.set (px + py * w) (some Dir.right)).set
        ((px + 1) + py * w) none,
      vert_walls := m.vert_walls.set (px + py * (w - 1)) false }), ?_, ?_⟩
  · have hc := stepCore_right_left (m := m) (p := (px + 1, py)) hw1 hto htm hbo hbp
    rw [hw, horg] at hc
    rw [hw]
    dsimp only at hc
    exact hc
  · have hTg : ∀ x y, x < w → y < h →
        ((m.tiles.set (px + py * w) (some Dir.right)).set
          ((px + 1) + py * w) none)[x + y * w]? =
        if x = px + 1 ∧ y = py then some none
        else if x = px ∧ y = py then some (some Dir.right)
        else m.tiles[x + y * w]? := by
      intro x y hx hy
      exact set2_tiles_get (o := (px, py)) (p := (px + 1, py)) htl
        ⟨hpxw, hpy⟩ ⟨hpx1, hpy⟩ Dir.right hx hy
    obtain ⟨tl', rn', uq', pu', pd', pl', pr', rc'⟩ :=
      tiles_fields inv Dir.right (p := (px + 1, py)) ⟨hpx1, hpy⟩
        (by rw [horg]; intro he; have := congrArg Prod.fst he; simp at this)
        (by show m.origin.1 + 1 < w; rw [horg]; exact hpx1)
        (by show (m.origin.1 + 1, m.origin.2) = (px + 1, py); rw [horg])
        (n := { m with
          origin := (px + 1, py),
          tiles := (m.tiles.set (px + py * w) (some Dir.right)).set
            ((px + 1) + py * w) none,
          vert_walls := m.vert_walls.set (px + py * (w - 1)) false })
        hw rfl (by show _ = (m.tiles.set (m.origin.1 + m.origin.2 * w) _).set _ _; rw [horg])
    refine ⟨inv.width_eq, inv.height_eq, inv.wpos, inv.hpos, tl', hhl, ?_,
      ⟨hpx1, hpy⟩, rn', uq', pu', pd', pl', pr', ?_, ?_, rc', ?_⟩
    · show (m.vert_walls.set (px + py * (w - 1)) false).length = (w - 1) * h
      rw [List.length_set, hvl]
    -- horz_open
    · intro x y hx hy1
      have hy : y < h := by omega
      show m.horz_walls[x + y * w]? = some false ↔ _
      rw [hTg x (y + 1) hx hy1, hTg x y hx hy]
      rw [inv.horz_open x y hx hy1]
      by_cases c1 : x = px + 1 ∧ y + 1 = py
      · rw [if_pos c1]
        have hb1 : m.tiles[x + (y + 1) * w]? = some (some Dir.left) := by
          rcases c1 with ⟨rfl, h2⟩
          rw [h2]; exact ht2
        rw [hb1]
        rw [if_neg (show ¬(x = px + 1 ∧ y = py) by rintro ⟨-, h3⟩; omega)]
        rw [if_neg (show ¬(x = px ∧ y = py) by
          rintro ⟨rfl, -⟩; rcases c1 with ⟨h4, -⟩; omega)]
        simp
      · rw [if_neg c1]
        by_cases c2 : x = px ∧ y + 1 = py
        · rw [if_pos c2]
          have hb1 : m.tiles[x + (y + 1) * w]? = some none := by
            rcases c2 with ⟨rfl, h2⟩
            rw [h2]; exact hrno
          rw [hb1]
          rw [if_neg (show ¬(x = px + 1 ∧ y = py) by
            rintro ⟨rfl, -⟩; rcases c2 with ⟨h3, -⟩; omega)]
          rw [if_neg (show ¬(x = px ∧ y = py) by
            rintro ⟨-, h3⟩; rcases c2 with ⟨-, h4⟩; omega)]
          simp
        · rw [if_neg c2]
          by_cases c3 : x = px + 1 ∧ y = py
          · rw [if_pos c3]
            have hb2 : m.tiles[x + y * w]? = some (some Dir.left) := by
              rcases c3 with ⟨rfl, rfl⟩; exact ht2
            rw [hb2]
            simp
          · rw [if_neg c3]
            by_cases c4 : x = px ∧ y = py
            · rw [if_pos c4]
              have hb2 : m.tiles[x + y * w]? = some none := by
                rcases c4 with ⟨rfl, rfl⟩; exact hrno
              rw [hb2]
              simp
            · rw [if_neg c4]
    -- vert_open
    · intro x y hx1 hy
      show (m.vert_walls.set (px + py * (w - 1)) false)[x + y * (w - 1)]? =
        some false ↔ _
      rw [hset, hTg (x + 1) y (by omega) hy, hTg x y (by omega) hy]
      rw [inv.vert_open x y hx1 hy]
      by_cases c1 : x + 1 = px + 1 ∧ y = py
      · rw [if_pos c1]
        have hb1 : m.tiles[(x + 1) + y * w]? = some (some Dir.left) := by
          rcases c1 with ⟨e1, rfl⟩
          rw [e1]; exact ht2
        rw [hb1]
        rw [if_neg (show ¬(x = px + 1 ∧ y = py) by
          rintro ⟨rfl, -⟩; rcases c1 with ⟨h1, -⟩; omega)]
        rw [if_pos (show x = px ∧ y = py from ⟨by rcases c1 with ⟨h1, -⟩; omega, c1.2⟩)]
        have hb2 : m.tiles[x + y * w]? = some none := by
          rcases c1 with ⟨h1, rfl⟩
          have ex : x = px := by omega
          rw [ex]; exact hrno
        rw [hb2]
        simp
      · rw [if_neg c1]
        by_cases c2 : x + 1 = px ∧ y = py
        · rw [if_pos c2]
          have hb1 : m.tiles[(x + 1) + y * w]? = some none := by
            rcases c2 with ⟨e1, rfl⟩
            rw [e1]; exact hrno
          rw [hb1]
          rw [if_neg (show ¬(x = px + 1 ∧ y = py) by
            rintro ⟨rfl, -⟩; rcases c2 with ⟨h3, -⟩; omega)]
          rw [if_neg (show ¬(x = px ∧ y = py) by
            rintro ⟨rfl, -⟩; rcases c2 with ⟨h3, -⟩; omega)]
          simp
        · rw [if_neg c2]
          by_cases c3 : x = px + 1 ∧ y = py
          · rw [if_pos c3]
            have hb2 : m.tiles[x + y * w]? = some (some Dir.left) := by
              rcases c3 with ⟨rfl, rfl⟩; exact ht2
            rw [hb2]
            simp
          · rw [if_neg c3]
            rw [if_neg (show ¬(x = px ∧ y = py) by
              rintro ⟨rfl, rfl⟩; exact c1 ⟨rfl, rfl⟩)]
    -- wall_count
    · show m.horz_walls.count false +
        (m.vert_walls.set (px + py * (w - 1)) false).count false + 1 = w * h
      rw [hset]
      exact inv.wall_count

theorem step_right_right {w h : Nat} {m : Maze} (inv : Maze.Inv w h m) {px py : Nat}
    (horg : m.origin = (px, py)) (hpx1 : px + 1 < w) (hpy : py < h)
    (ht2 : m.tiles[(px + 1) + py * w]? = some (some Dir.right)) :
    ∃ m', m.stepCore Dir.right (px + 1, py) = some m' ∧ Maze.Inv w h m' := by
  have hw := inv.width_eq
  have hhl := inv.horz_len
  have hvl := inv.vert_len
  have htl := inv.tiles_len
  have hpxw : px < w := by omega
  have hprr : px + 1 + 1 < w := inv.ptr_right (px + 1) py hpx1 hpy ht2
  have hw1 : 1 ≤ m.width := by rw [hw]; exact inv.wpos
  have hto : m.origin.1 + m.origin.2 * (m.width - 1) < m.vert_walls.length := by
    rw [hw, hvl, horg]; exact idx_lt (by omega) hpy
  have hts : (px + 1) + py * (m.width - 1) < m.vert_walls.length := by
    rw [hw, hvl]; exact idx_lt (by omega) hpy
  have hbo : m.origin.1 + m.origin.2 * m.width < m.tiles.length := by
    rw [hw, htl, horg]; exact idx_lt hpxw hpy
  have hbp : (px + 1) + py * m.width < m.tiles.length := by
    rw [hw, htl]; exact idx_lt hpx1 hpy
  have htm : m.tiles[(px + 1) + py * m.width]? = some (some Dir.right) := by
    rw [hw]; exact ht2
  have hrno : m.tiles[px + py * w]? = some none := by
    have := inv.root_none
    rw [horg] at this
    exact this
  have hwallT : m.vert_walls[px + py * (w - 1)]? = some true := by
    have hl : px + py * (w - 1) < m.vert_walls.length := by
      rw [hvl]; exact idx_lt (by omega) hpy
    obtain ⟨b, hb⟩ : ∃ b, m.vert_walls[px + py * (w - 1)]? = some b :=
      ⟨m.vert_walls[px + py * (w - 1)], List.getElem?_eq_getElem hl⟩
    cases b with
    | true => exact hb
    | false =>
      exfalso
      rcases (inv.vert_open px py hpx1 hpy).mp hb with hc | hc
      · rw [ht2] at hc; cases hc
      · rw [hrno] at hc; cases hc
  have hidxST : ¬(px + py * (w - 1) = (px + 1) + py * (w - 1)) := by
    intro he
    obtain ⟨e1, -⟩ := idx_inj (by omega : px < w - 1) (by omega : px + 1 < w - 1) he
    omega
  have hwallS : (m.vert_walls.set (px + py * (w - 1)) false)[(px + 1) + py * (w - 1)]? =
      some false := by
    rw [set1_get, if_neg hidxST]
    exact (inv.vert_open (px + 1) py (by omega) hpy).mpr (Or.inr ht2)
  refine ⟨({ m with
      origin := (px + 1, py),
      tiles := (m.tiles.set (px + py * w) (some Dir.right)).set
        ((px + 1) + py * w) none,
      vert_walls := (m.vert_walls.set (px + py * (w - 1)) false).set
        ((px + 1) + py * (w - 1)) true }), ?_, ?_⟩
  · have hc := stepCore_right_right (m := m) (p := (px + 1, py)) hw1 hto htm hts hbo hbp
    rw [hw, horg] at hc
    rw [hw]
    dsimp only at hc
    exact hc
  · have hTg : ∀ x y, x < w → y < h →
        ((m.tiles.set (px + py * w) (some Dir.right)).set
          ((px + 1) + py * w) none)[x + y * w]? =
        if x = px + 1 ∧ y = py then some none
        else if x = px ∧ y = py then some (some Dir.right)
        else m.tiles[x + y * w]? := by
      intro x y hx hy
      exact set2_tiles_get (o := (px, py)) (p := (px + 1, py)) htl
        ⟨hpxw, hpy⟩ ⟨hpx1, hpy⟩ Dir.right hx hy
    obtain ⟨tl', rn', uq', pu', pd', pl', pr', rc'⟩ :=
      tiles_fields inv Dir.right (p := (px + 1, py)) ⟨hpx1, hpy⟩
        (by rw [horg]; intro he; have := congrArg Prod.fst he; simp at this)
        (by show m.origin.1 + 1 < w; rw [horg]; exact hpx1)
        (by show (m.origin.1 + 1, m.origin.2) = (px + 1, py); rw [horg])
        (n := { m with
          origin := (px + 1, py),
          tiles := (m.tiles.set (px + py * w) (some Dir.right)).set
            ((px + 1) + py * w) none,
          vert_walls := (m.vert_walls.set (px + py * (w - 1)) false).set
            ((px + 1) + py * (w - 1)) true })
        hw rfl (by show _ = (m.tiles.set (m.origin.1 + m.origin.2 * w) _).set _ _; rw [horg])
    refine ⟨inv.width_eq, inv.height_eq, inv.wpos, inv.hpos, tl', hhl, ?_,
      ⟨hpx1, hpy⟩, rn', uq', pu', pd', pl', pr', ?_, ?_, rc', ?_⟩
    · show ((m.vert_walls.set (px + py * (w - 1)) false).set
        ((px + 1) + py * (w - 1)) true).length = (w - 1) * h
      rw [List.length_set, List.length_set, hvl]
    -- horz_open
    · intro x y hx hy1
      have hy : y < h := by omega
      show m.horz_walls[x + y * w]? = some false ↔ _
      rw [hTg x (y + 1) hx hy1, hTg x y hx hy]
      rw [inv.horz_open x y hx hy1]
      by_cases c1 : x = px + 1 ∧ y + 1 = py
      · rw [if_pos c1]
        have hb1 : m.tiles[x + (y + 1) * w]? = some (some Dir.right) := by
          rcases c1 with ⟨rfl, h2⟩
          rw [h2]; exact ht2
        rw [hb1]
        rw [if_neg (show ¬(x = px + 1 ∧ y = py) by rintro ⟨-, h3⟩; omega)]
        rw [if_neg (show ¬(x = px ∧ y = py) by
          rintro ⟨rfl, -⟩; rcases c1 with ⟨h4, -⟩; omega)]
        simp
      · rw [if_neg c1]
        by_cases c2 : x = px ∧ y + 1 = py
        · rw [if_pos c2]
          have hb1 : m.tiles[x + (y + 1) * w]? = some none := by
            rcases c2 with ⟨rfl, h2⟩
            rw [h2]; exact hrno
          rw [hb1]
          rw [if_neg (show ¬(x = px + 1 ∧ y = py) by
            rintro ⟨rfl, -⟩; rcases c2 with ⟨h3, -⟩; omega)]
          rw [if_neg (show ¬(x = px ∧ y = py) by
            rintro ⟨-, h3⟩; rcases c2 with ⟨-, h4⟩; omega)]
          simp
        · rw [if_neg c2]
          by_cases c3 : x = px + 1 ∧ y = py
          · rw [if_pos c3]
            have hb2 : m.tiles[x + y * w]? = some (some Dir.right) := by
              rcases c3 with ⟨rfl, rfl⟩; exact ht2
            rw [hb2]
            simp
          · rw [if_neg c3]
            by_cases c4 : x = px ∧ y = py
            · rw [if_pos c4]
              have hb2 : m.tiles[x + y * w]? = some none := by
                rcases c4 with ⟨rfl, rfl⟩; exact hrno
              rw [hb2]
              simp
            · rw [if_neg c4]
    -- vert_open
    · intro x y hx1 hy
      have hidxv : x + y * (w - 1) < m.vert_walls.length := by
        rw [hvl]; exact idx_lt (by omega) hy
      show ((m.vert_walls.set (px + py * (w - 1)) false).set
        ((px + 1) + py * (w - 1)) true)[x + y * (w - 1)]? = some false ↔ _
      rw [set2_get, hTg (x + 1) y (by omega) hy, hTg x y (by omega) hy]
      by_cases cS : (px + 1) + py * (w - 1) = x + y * (w - 1)
      · obtain ⟨e1, e2⟩ := idx_inj (by omega : px + 1 < w - 1) (by omega : x < w - 1) cS
        rw [if_pos cS, if_pos hidxv]
        rw [if_neg (show ¬(x + 1 = px + 1 ∧ y = py) by rintro ⟨h3, -⟩; omega)]
        rw [if_neg (show ¬(x + 1 = px ∧ y = py) by rintro ⟨h3, -⟩; omega)]
        rw [if_pos (show x = px + 1 ∧ y = py from ⟨e1.symm, e2.symm⟩)]
        constructor
        · intro hc; cases hc
        · rintro (hc | hc)
          · exfalso
            have hrt : m.tiles[x + y * w]? = some (some Dir.right) := by
              rw [← e1, ← e2]; exact ht2
            exact not_left_right inv (by omega) hy hc hrt
          · cases hc
      · rw [if_neg cS]
        by_cases cT : px + py * (w - 1) = x + y * (w - 1)
        · obtain ⟨e1, e2⟩ := idx_inj (by omega : px < w - 1) (by omega : x < w - 1) cT
          rw [if_pos cT, if_pos hidxv]
          rw [if_pos (show x + 1 = px + 1 ∧ y = py from ⟨by omega, e2.symm⟩)]
          rw [if_neg (show ¬(x = px + 1 ∧ y = py) by rintro ⟨rfl, -⟩; omega)]
          rw [if_pos (show x = px ∧ y = py from ⟨e1.symm, e2.symm⟩)]
          simp
        · rw [if_neg cT]
          rw [inv.vert_open x y hx1 hy]
          rw [if_neg (show ¬(x + 1 = px + 1 ∧ y = py) by
            rintro ⟨h3, rfl⟩
            refine cT ?_
            have ee : px = x := by omega
            rw [ee])]
          by_cases c2 : x + 1 = px ∧ y = py
          · rw [if_pos c2]
            have hb1 : m.tiles[(x + 1) + y * w]? = some none := by
              rcases c2 with ⟨e1, rfl⟩
              rw [e1]; exact hrno
            rw [hb1]
            rw [if_neg (show ¬(x = px + 1 ∧ y = py) by
              rintro ⟨rfl, -⟩; rcases c2 with ⟨h3, -⟩; omega)]
            rw [if_neg (show ¬(x = px ∧ y = py) by
              rintro ⟨rfl, -⟩; rcases c2 with ⟨h3, -⟩; omega)]
            simp
          · rw [if_neg c2]
            rw [if_neg (show ¬(x = px + 1 ∧ y = py) by
              rintro ⟨rfl, rfl⟩; exact cS rfl)]
            rw [if_neg (show ¬(x = px ∧ y = py) by
              rintro ⟨rfl, rfl⟩; exact cT rfl)]
    -- wall_count
    · show m.horz_walls.count false +
        ((m.vert_walls.set (px + py * (w - 1)) false).set
          ((px + 1) + py * (w - 1)) true).count false + 1 = w * h
      have e1 := count_false_set_false hwallT
      have e2 := count_false_set_true hwallS
      have := inv.wall_count
      omega

theorem step_right_up {w h : Nat} {m : Maze} (inv : Maze.Inv w h m) {px py : Nat}
    (horg : m.origin = (px, py)) (hpx1 : px + 1 < w) (hpy : py < h)
    (ht2 : m.tiles[(px + 1) + py * w]? = some (some Dir.up)) :
    ∃ m', m.stepCore Dir.right (px + 1, py) = some m' ∧ Maze.Inv w h m' := by
  have hw := inv.width_eq
  have hhl := inv.horz_len
  have hvl := inv.vert_len
  have htl := inv.tiles_len
  have hpxw : px < w := by omega
  have hp2 : 1 ≤ py := inv.ptr_up (px + 1) py hpx1 hpy ht2
  have hw1 : 1 ≤ m.width := by rw [hw]; exact inv.wpos
  have ee2 : py - 1 + 1 = py := by omega
  have hto : m.origin.1 + m.origin.2 * (m.width - 1) < m.vert_walls.length := by
    rw [hw, hvl, horg]; exact idx_lt (by omega) hpy
  have hts : (px + 1) + (py - 1) * m.width < m.horz_walls.length := by
    rw [hw, hhl]; exact idx_lt hpx1 (by omega)
  have hbo : m.origin.1 + m.origin.2 * m.width < m.tiles.length := by
    rw [hw, htl, horg]; exact idx_lt hpxw hpy
  have hbp : (px + 1) + py * m.width < m.tiles.length := by
    rw [hw, htl]; exact idx_lt hpx1 hpy
  have htm : m.tiles[(px + 1) + py * m.width]? = some (some Dir.up) := by
    rw [hw]; exact ht2
  have hrno : m.tiles[px + py * w]? = some none := by
    have := inv.root_none
    rw [horg] at this
    exact this
  have hwallT : m.vert_walls[px + py * (w - 1)]? = some true := by
    have hl : px + py * (w - 1) < m.vert_walls.length := by
      rw [hvl]; exact idx_lt (by omega) hpy
    obtain ⟨b, hb⟩ : ∃ b, m.vert_walls[px + py * (w - 1)]? = some b :=
      ⟨m.vert_walls[px + py * (w - 1)], List.getElem?_eq_getElem hl⟩
    cases b with
    | true => exact hb
    | false =>
      exfalso
      rcases (inv.vert_open px py hpx1 hpy).mp hb with hc | hc
      · rw [ht2] at hc; cases hc
      · rw [hrno] at hc; cases hc
  have hwallS : m.horz_walls[(px + 1) + (py - 1) * w]? = some false := by
    refine (inv.horz_open (px + 1) (py - 1) hpx1 (by omega)).mpr (Or.inl ?_)
    rw [ee2]
    exact ht2
  refine ⟨({ m with
      origin := (px + 1, py),
      tiles := (m.tiles.set (px + py * w) (some Dir.right)).set
        ((px + 1) + py * w) none,
      horz_walls := m.horz_walls.set ((px + 1) + (py - 1) * w) true,
      vert_walls := m.vert_walls.set (px + py * (w - 1)) false }), ?_, ?_⟩
  · have hc := stepCore_right_up (m := m) (p := (px + 1, py)) hw1 hto htm hp2 hts hbo hbp
    rw [hw, horg] at hc
    rw [hw]
    dsimp only at hc
    exact hc
  · have hTg : ∀ x y, x < w → y < h →
        ((m.tiles.set (px + py * w) (some Dir.right)).set
          ((px + 1) + py * w) none)[x + y * w]? =
        if x = px + 1 ∧ y = py then some none
        else if x = px ∧ y = py then some (some Dir.right)
        else m.tiles[x + y * w]? := by
      intro x y hx hy
      exact set2_tiles_get (o := (px, py)) (p := (px + 1, py)) htl
        ⟨hpxw, hpy⟩ ⟨hpx1, hpy⟩ Dir.right hx hy
    obtain ⟨tl', rn', uq', pu', pd', pl', pr', rc'⟩ :=
      tiles_fields inv Dir.right (p := (px + 1, py)) ⟨hpx1, hpy⟩
        (by rw [horg]; intro he; have := congrArg Prod.fst he; simp at this)
        (by show m.origin.1 + 1 < w; rw [horg]; exact hpx1)
        (by show (m.origin.1 + 1, m.origin.2) = (px + 1, py); rw [horg])
        (n := { m with
          origin := (px + 1, py),
          tiles := (m.tiles.set (px + py * w) (some Dir.right)).set
            ((px + 1) + py * w) none,
          horz_walls := m.horz_walls.set ((px + 1) + (py - 1) * w) true,
          vert_walls := m.vert_walls.set (px + py * (w - 1)) false })
        hw rfl (by show _ = (m.tiles.set (m.origin.1 + m.origin.2 * w) _).set _ _; rw [horg])
    refine ⟨inv.width_eq, inv.height_eq, inv.wpos, inv.hpos, tl', ?_, ?_,
      ⟨hpx1, hpy⟩, rn', uq', pu', pd', pl', pr', ?_, ?_, rc', ?_⟩
    · show (m.horz_walls.set ((px + 1) + (py - 1) * w) true).length = w * (h - 1)
      rw [List.length_set, hhl]
    · show (m.vert_walls.set (px + py * (w - 1)) false).length = (w - 1) * h
      rw [List.length_set, hvl]
    -- horz_open
    · intro x y hx hy1
      have hy : y < h := by omega
      have hidx' : x + y * w < m.horz_walls.length := by
        rw [hhl]; exact idx_lt hx (by omega)
      show (m.horz_walls.set ((px + 1) + (py - 1) * w) true)[x + y * w]? =
        some false ↔ _
      rw [set1_get, hTg x (y + 1) hx hy1, hTg x y hx hy]
      by_cases cS : (px + 1) + (py - 1) * w = x + y * w
      · obtain ⟨e1, e2⟩ := idx_inj hpx1 hx cS
        rw [if_pos cS, if_pos hidx']
        rw [if_pos (show x = px + 1 ∧ y + 1 = py from ⟨e1.symm, by omega⟩)]
        rw [if_neg (show ¬(x = px + 1 ∧ y = py) by rintro ⟨-, h3⟩; omega)]
        rw [if_neg (show ¬(x = px ∧ y = py) by
          rintro ⟨rfl, -⟩; omega)]
        constructor
        · intro hc; cases hc
        · rintro (hc | hc)
          · cases hc
          · exfalso
            have hu : m.tiles[x + (y + 1) * w]? = some (some Dir.up) := by
              have epy : py = y + 1 := by omega
              rw [← e1, ← epy]; exact ht2
            exact not_up_down inv hx (by omega) hu hc
      · rw [if_neg cS]
        rw [inv.horz_open x y hx hy1]
        rw [if_neg (show ¬(x = px + 1 ∧ y + 1 = py) by
          rintro ⟨rfl, h3⟩
          refine cS ?_
          have ee : py - 1 = y := by omega
          rw [ee])]
        by_cases c2 : x = px ∧ y + 1 = py
        · rw [if_pos c2]
          have hb1 : m.tiles[x + (y + 1) * w]? = some none := by
            rcases c2 with ⟨rfl, h2⟩
            rw [h2]; exact hrno
          rw [hb1]
          rw [if_neg (show ¬(x = px + 1 ∧ y = py) by
            rintro ⟨rfl, -⟩; rcases c2 with ⟨h3, -⟩; omega)]
          rw [if_neg (show ¬(x = px ∧ y = py) by
            rintro ⟨-, h3⟩; rcases c2 with ⟨-, h4⟩; omega)]
          simp
        · rw [if_neg c2]
          by_cases c3 : x = px + 1 ∧ y = py
          · rw [if_pos c3]
            have hb2 : m.tiles[x + y * w]? = some (some Dir.up) := by
              rcases c3 with ⟨rfl, rfl⟩; exact ht2
            rw [hb2]
            simp
          · rw [if_neg c3]
            by_cases c4 : x = px ∧ y = py
            · rw [if_pos c4]
              have hb2 : m.tiles[x + y * w]? = some none := by
                rcases c4 with ⟨rfl, rfl⟩; exact hrno
              rw [hb2]
              simp
            · rw [if_neg c4]
    -- vert_open
    · intro x y hx1 hy
      have hidxv : x + y * (w - 1) < m.vert_walls.length := by
        rw [hvl]; exact idx_lt (by omega) hy
      show (m.vert_walls.set (px + py * (w - 1)) false)[x + y * (w - 1)]? =
        some false ↔ _
      rw [set1_get, hTg (x + 1) y (by omega) hy, hTg x y (by omega) hy]
      by_cases cT : px + py * (w - 1) = x + y * (w - 1)
      · obtain ⟨e1, e2⟩ := idx_inj (by omega : px < w - 1) (by omega : x < w - 1) cT
        rw [if_pos cT, if_pos hidxv]
        rw [if_pos (show x + 1 = px + 1 ∧ y = py from ⟨by omega, e2.symm⟩)]
        rw [if_neg (show ¬(x = px + 1 ∧ y = py) by rintro ⟨rfl, -⟩; omega)]
        rw [if_pos (show x = px ∧ y = py from ⟨e1.symm, e2.symm⟩)]
        simp
      · rw [if_neg cT]
        rw [inv.vert_open x y hx1 hy]
        rw [if_neg (show ¬(x + 1 = px + 1 ∧ y = py) by
          rintro ⟨h3, rfl⟩
          refine cT ?_
          have ee : px = x := by omega
          rw [ee])]
        by_cases c2 : x + 1 = px ∧ y = py
        · rw [if_pos c2]
          have hb1 : m.tiles[(x + 1) + y * w]? = some none := by
            rcases c2 with ⟨e1, rfl⟩
            rw [e1]; exact hrno
          rw [hb1]
          rw [if_neg (show ¬(x = px + 1 ∧ y = py) by
            rintro ⟨rfl, -⟩; rcases c2 with ⟨h3, -⟩; omega)]
          rw [if_neg (show ¬(x = px ∧ y = py) by
            rintro ⟨rfl, -⟩; rcases c2 with ⟨h3, -⟩; omega)]
          simp
        · rw [if_neg c2]
          by_cases c3 : x = px + 1 ∧ y = py
          · rw [if_pos c3]
            have hb2 : m.tiles[x + y * w]? = some (some Dir.up) := by
              rcases c3 with ⟨rfl, rfl⟩; exact ht2
            rw [hb2]
            simp
          · rw [if_neg c3]
            rw [if_neg (show ¬(x = px ∧ y = py) by
              rintro ⟨rfl, rfl⟩; exact cT rfl)]
    -- wall_count
    · show (m.horz_walls.set ((px + 1) + (py - 1) * w) true).count false +
        (m.vert_walls.set (px + py * (w - 1)) false).count false + 1 = w * h
      have e1 := count_false_set_false hwallT
      have e2 := count_false_set_true hwallS
      have := inv.wall_count
      omega

theorem step_right_down {w h : Nat} {m : Maze} (inv : Maze.Inv w h m) {px py : Nat}
    (horg : m.origin = (px, py)) (hpx1 : px + 1 < w) (hpy : py < h)
    (ht2 : m.tiles[(px + 1) + py * w]? = some (some Dir.down)) :
    ∃ m', m.stepCore Dir.right (px + 1, py) = some m' ∧ Maze.Inv w h m' := by
  have hw := inv.width_eq
  have hhl := inv.horz_len
  have hvl := inv.vert_len
  have htl := inv.tiles_len
  have hpxw : px < w := by omega
  have hpd : py + 1 < h := inv.ptr_down (px + 1) py hpx1 hpy ht2
  have hw1 : 1 ≤ m.width := by rw [hw]; exact inv.wpos
  have hto : m.origin.1 + m.origin.2 * (m.width - 1) < m.vert_walls.length := by
    rw [hw, hvl, horg]; exact idx_lt (by omega) hpy
  have hts : (px + 1) + py * m.width < m.horz_walls.length := by
    rw [hw, hhl]; exact idx_lt hpx1 (by omega)
  have hbo : m.origin.1 + m.origin.2 * m.width < m.tiles.length := by
    rw [hw, htl, horg]; exact idx_lt hpxw hpy
  have hbp : (px + 1) + py * m.width < m.tiles.length := by
    rw [hw, htl]; exact idx_lt hpx1 hpy
  have htm : m.tiles[(px + 1) + py * m.width]? = some (some Dir.down) := by
    rw [hw]; exact ht2
  have hrno : m.tiles[px + py * w]? = some none := by
    have := inv.root_none
    rw [horg] at this
    exact this
  have hwallT : m.vert_walls[px + py * (w - 1)]? = some true := by
    have hl : px + py * (w - 1) < m.vert_walls.length := by
      rw [hvl]; exact idx_lt (by omega) hpy
    obtain ⟨b, hb⟩ : ∃ b, m.vert_walls[px + py * (w - 1)]? = some b :=
      ⟨m.vert_walls[px + py * (w - 1)], List.getElem?_eq_getElem hl⟩
    cases b with
    | true => exact hb
    | false =>
      exfalso
      rcases (inv.vert_open px py hpx1 hpy).mp hb with hc | hc
      · rw [ht2] at hc; cases hc
      · rw [hrno] at hc; cases hc
  have hwallS : m.horz_walls[(px + 1) + py * w]? = some false :=
    (inv.horz_open (px + 1) py hpx1 hpd).mpr (Or.inr ht2)
  refine ⟨({ m with
      origin := (px + 1, py),
      tiles := (m.tiles.set (px + py * w) (some Dir.right)).set
        ((px + 1) + py * w) none,
      horz_walls := m.horz_walls.set ((px + 1) + py * w) true,
      vert_walls := m.vert_walls.set (px + py * (w - 1)) false }), ?_, ?_⟩
  · have hc := stepCore_right_down (m := m) (p := (px + 1, py)) hw1 hto htm hts hbo hbp
    rw [hw, horg] at hc
    rw [hw]
    dsimp only at hc
    exact hc
  · have hTg : ∀ x y, x < w → y < h →
        ((m.tiles.set (px + py * w) (some Dir.right)).set
          ((px + 1) + py * w) none)[x + y * w]? =
        if x = px + 1 ∧ y = py then some none
        else if x = px ∧ y = py then some (some Dir.right)
        else m.tiles[x + y * w]? := by
      intro x y hx hy
      exact set2_tiles_get (o := (px, py)) (p := (px + 1, py)) htl
        ⟨hpxw, hpy⟩ ⟨hpx1, hpy⟩ Dir.right hx hy
    obtain ⟨tl', rn', uq', pu', pd', pl', pr', rc'⟩ :=
      tiles_fields inv Dir.right (p := (px + 1, py)) ⟨hpx1, hpy⟩
        (by rw [horg]; intro he; have := congrArg Prod.fst he; simp at this)
        (by show m.origin.1 + 1 < w; rw [horg]; exact hpx1)
        (by show (m.origin.1 + 1, m.origin.2) = (px + 1, py); rw [horg])
        (n := { m with
          origin := (px + 1, py),
          tiles := (m.tiles.set (px + py * w) (some Dir.right)).set
            ((px + 1) + py * w) none,
          horz_walls := m.horz_walls.set ((px + 1) + py * w) true,
          vert_walls := m.vert_walls.set (px + py * (w - 1)) false })
        hw rfl (by show _ = (m.tiles.set (m.origin.1 + m.origin.2 * w) _).set _ _; rw [horg])
    refine ⟨inv.width_eq, inv.height_eq, inv.wpos, inv.hpos, tl', ?_, ?_,
      ⟨hpx1, hpy⟩, rn', uq', pu', pd', pl', pr', ?_, ?_, rc', ?_⟩
    · show (m.horz_walls.set ((px + 1) + py * w) true).length = w * (h - 1)
      rw [List.length_set, hhl]
    · show (m.vert_walls.set (px + py * (w - 1)) false).length = (w - 1) * h
      rw [List.length_set, hvl]
    -- horz_open
    · intro x y hx hy1
      have hy : y < h := by omega
      have hidx' : x + y * w < m.horz_walls.length := by
        rw [hhl]; exact idx_lt hx (by omega)
      show (m.horz_walls.set ((px + 1) + py * w) true)[x + y * w]? =
        some false ↔ _
      rw [set1_get, hTg x (y + 1) hx hy1, hTg x y hx hy]
      by_cases cS : (px + 1) + py * w = x + y * w
      · obtain ⟨e1, e2⟩ := idx_inj hpx1 hx cS
        rw [if_pos cS, if_pos hidx']
        rw [if_neg (show ¬(x = px + 1 ∧ y + 1 = py) by rintro ⟨-, h3⟩; omega)]
        rw [if_neg (show ¬(x = px ∧ y + 1 = py) by rintro ⟨rfl, -⟩; omega)]
        rw [if_pos (show x = px + 1 ∧ y = py from ⟨e1.symm, e2.symm⟩)]
        constructor
        · intro hc; cases hc
        · rintro (hc | hc)
          · exfalso
            have hd : m.tiles[x + y * w]? = some (some Dir.down) := by
              rw [← e1, ← e2]; exact ht2
            exact not_up_down inv hx (by omega) hc hd
          · cases hc
      · rw [if_neg cS]
        rw [inv.horz_open x y hx hy1]
        by_cases c1 : x = px + 1 ∧ y + 1 = py
        · rw [if_pos c1]
          have hb1 : m.tiles[x + (y + 1) * w]? = some (some Dir.down) := by
            rcases c1 with ⟨rfl, h2⟩
            rw [h2]; exact ht2
          rw [hb1]
          rw [if_neg (show ¬(x = px + 1 ∧ y = py) by rintro ⟨-, h3⟩; omega)]
          rw [if_neg (show ¬(x = px ∧ y = py) by
            rintro ⟨rfl, -⟩; rcases c1 with ⟨h4, -⟩; omega)]
          simp
        · rw [if_neg c1]
          by_cases c2 : x = px ∧ y + 1 = py
          · rw [if_pos c2]
            have hb1 : m.tiles[x + (y + 1) * w]? = some none := by
              rcases c2 with ⟨rfl, h2⟩
              rw [h2]; exact hrno
            rw [hb1]
            rw [if_neg (show ¬(x = px + 1 ∧ y = py) by
              rintro ⟨rfl, -⟩; rcases c2 with ⟨h3, -⟩; omega)]
            rw [if_neg (show ¬(x = px ∧ y = py) by
              rintro ⟨-, h3⟩; rcases c2 with ⟨-, h4⟩; omega)]
            simp
          · rw [if_neg c2]
            rw [if_neg (show ¬(x = px + 1 ∧ y = py) by
              rintro ⟨rfl, rfl⟩; exact cS rfl)]
            by_cases c4 : x = px ∧ y = py
            · rw [if_pos c4]
              have hb2 : m.tiles[x + y * w]? = some none := by
                rcases c4 with ⟨rfl, rfl⟩; exact hrno
              rw [hb2]
              simp
            · rw [if_neg c4]
    -- vert_open
    · intro x y hx1 hy
      have hidxv : x + y * (w - 1) < m.vert_walls.length := by
        rw [hvl]; exact idx_lt (by omega) hy
      show (m.vert_walls.set (px + py * (w - 1)) false)[x + y * (w - 1)]? =
        some false ↔ _
      rw [set1_get, hTg (x + 1) y (by omega) hy, hTg x y (by omega) hy]
      by_cases cT : px + py * (w - 1) = x + y * (w - 1)
      · obtain ⟨e1, e2⟩ := idx_inj (by omega : px < w - 1) (by omega : x < w - 1) cT
        rw [if_pos cT, if_pos hidxv]
        rw [if_pos (show x + 1 = px + 1 ∧ y = py from ⟨by omega, e2.symm⟩)]
        rw [if_neg (show ¬(x = px + 1 ∧ y = py) by rintro ⟨rfl, -⟩; omega)]
        rw [if_pos (show x = px ∧ y = py from ⟨e1.symm, e2.symm⟩)]
        simp
      · rw [if_neg cT]
        rw [inv.vert_open x y hx1 hy]
        rw [if_neg (show ¬(x + 1 = px + 1 ∧ y = py) by
          rintro ⟨h3, rfl⟩
          refine cT ?_
          have ee : px = x := by omega
          rw [ee])]
        by_cases c2 : x + 1 = px ∧ y = py
        · rw [if_pos c2]
          have hb1 : m.tiles[(x + 1) + y * w]? = some none := by
            rcases c2 with ⟨e1, rfl⟩
            rw [e1]; exact hrno
          rw [hb1]
          rw [if_neg (show ¬(x = px + 1 ∧ y = py) by
            rintro ⟨rfl, -⟩; rcases c2 with ⟨h3, -⟩; omega)]
          rw [if_neg (show ¬(x = px ∧ y = py) by
            rintro ⟨rfl, -⟩; rcases c2 with ⟨h3, -⟩; omega)]
          simp
        · rw [if_neg c2]
          by_cases c3 : x = px + 1 ∧ y = py
          · rw [if_pos c3]
            have hb2 : m.tiles[x + y * w]? = some (some Dir.down) := by
              rcases c3 with ⟨rfl, rfl⟩; exact ht2
            rw [hb2]
            simp
          · rw [if_neg c3]
            rw [if_neg (show ¬(x = px ∧ y = py) by
              rintro ⟨rfl, rfl⟩; exact cT rfl)]
    -- wall_count
    · show (m.horz_walls.set ((px + 1) + py * w) true).count false +
        (m.vert_walls.set (px + py * (w - 1)) false).count false + 1 = w * h
      have e1 := count_false_set_false hwallT
      have e2 := count_false_set_true hwallS
      have := inv.wall_count
      omega

/-! ### The invariant holds in every reachable state -/

/-- A valid move from an invariant-satisfying state always executes without
panicking, and the invariant is preserved. -/
theorem step_succeeds {w h : Nat} {m : Maze} (inv : Maze.Inv w h m) (d : Dir)
    {p : Nat × Nat} (hmt : m.moveTarget d = some p) :
    ∃ m', m.stepCore d p = some m' ∧ Maze.Inv w h m' := by
  have hob := inv.origin_lt
  cases d with
  | up =>
    simp only [Maze.moveTarget] at hmt
    by_cases h0 : m.origin.2 = 0
    · rw [if_pos h0] at hmt; cases hmt
    · rw [if_neg h0] at hmt
      obtain rfl : (m.origin.1, m.origin.2 - 1) = p := Option.some.inj hmt
      have horg : m.origin = (m.origin.1, (m.origin.2 - 1) + 1) := by
        have e : m.origin.2 - 1 + 1 = m.origin.2 := by omega
        rw [e]
      have hpy : (m.origin.2 - 1) + 1 < h := by omega
      obtain ⟨t, ht⟩ := tiles_get_total inv hob.1 (show m.origin.2 - 1 < h by omega)
      rcases t with _ | o
      · exfalso
        have := inv.unique_root _ _ hob.1 (show m.origin.2 - 1 < h by omega) ht
        have := congrArg Prod.snd this
        simp at this
        omega
      · cases o with
        | up => exact step_up_up inv horg hob.1 hpy ht
        | down => exact step_up_down inv horg hob.1 hpy ht
        | left => exact step_up_left inv horg hob.1 hpy ht
        | right => exact step_up_right inv horg hob.1 hpy ht
  | down =>
    simp only [Maze.moveTarget] at hmt
    by_cases h0 : m.origin.2 + 1 = m.height
    · rw [if_pos h0] at hmt; cases hmt
    · rw [if_neg h0] at hmt
      obtain rfl : (m.origin.1, m.origin.2 + 1) = p := Option.some.inj hmt
      have horg : m.origin = (m.origin.1, m.origin.2) := rfl
      have hpy : m.origin.2 + 1 < h := by
        have := inv.height_eq
        omega
      obtain ⟨t, ht⟩ := tiles_get_total inv hob.1 hpy
      rcases t with _ | o
      · exfalso
        have := inv.unique_root _ _ hob.1 hpy ht
        have := congrArg Prod.snd this
        simp at this
      · cases o with
        | up => exact step_down_up inv horg hob.1 hpy ht
        | down => exact step_down_down inv horg hob.1 hpy ht
        | left => exact step_down_left inv horg hob.1 hpy ht
        | right => exact step_down_right inv horg hob.1 hpy ht
  | left =>
    simp only [Maze.moveTarget] at hmt
    by_cases h0 : m.origin.1 = 0
    · rw [if_pos h0] at hmt; cases hmt
    · rw [if_neg h0] at hmt
      obtain rfl : (m.origin.1 - 1, m.origin.2) = p := Option.some.inj hmt
      have horg : m.origin = ((m.origin.1 - 1) + 1, m.origin.2) := by
        have e : m.origin.1 - 1 + 1 = m.origin.1 := by omega
        rw [e]
      have hpx : (m.origin.1 - 1) + 1 < w := by omega
      obtain ⟨t, ht⟩ := tiles_get_total inv (show m.origin.1 - 1 < w by omega) hob.2
      rcases t with _ | o
      · exfalso
        have := inv.unique_root _ _ (show m.origin.1 - 1 < w by omega) hob.2 ht
        have := congrArg Prod.fst this
        simp at this
        omega
      · cases o with
        | up => exact step_left_up inv horg hpx hob.2 ht
        | down => exact step_left_down inv horg hpx hob.2 ht
        | left => exact step_left_left inv horg hpx hob.2 ht
        | right => exact step_left_right inv horg hpx hob.2 ht
  | right =>
    simp only [Maze.moveTarget] at hmt
    by_cases h0 : m.origin.1 + 1 = m.width
    · rw [if_pos h0] at hmt; cases hmt
    · rw [if_neg h0] at hmt
      obtain rfl : (m.origin.1 + 1, m.origin.2) = p := Option.some.inj hmt
      have horg : m.origin = (m.origin.1, m.origin.2) := rfl
      have hpx : m.origin.1 + 1 < w := by
        have := inv.width_eq
        omega
      obtain ⟨t, ht⟩ := tiles_get_total inv hpx hob.2
      rcases t with _ | o
      · exfalso
        have := inv.unique_root _ _ hpx hob.2 ht
        have := congrArg Prod.fst this
        simp at this
      · cases o with
        | up => exact step_right_up inv horg hpx hob.2 ht
        | down => exact step_right_down inv horg hpx hob.2 ht
        | left => exact step_right_left inv horg hpx hob.2 ht
        | right => exact step_right_right inv horg hpx hob.2 ht

theorem inv_step {w h : Nat} {m m' : Maze} (inv : Maze.Inv w h m) {d : Dir}
    (hstep : m.step d = some m') : Maze.Inv w h m' := by
  unfold Maze.step at hstep
  cases hmt : m.moveTarget d with
  | none => rw [hmt] at hstep; cases hstep
  | some p =>
    rw [hmt] at hstep
    obtain ⟨m'', hsc, hinv⟩ := step_succeeds inv d hmt
    have hstep2 : m.stepCore d p = some m' := hstep
    rw [hsc] at hstep2
    obtain rfl := Option.some.inj hstep2
    exact hinv

/-- Every reachable state satisfies the full structural invariant. -/
theorem inv_reachable {w h : Nat} {m : Maze} (hr : Maze.Reachable w h m) :
    Maze.Inv w h m := by
  induction hr with
  | base hnew =>
    unfold Maze.new at hnew
    by_cases h0 : w = 0 ∨ h = 0
    · rw [if_pos h0] at hnew; cases hnew
    · rw [if_neg h0] at hnew
      obtain rfl := Except.ok.inj hnew
      exact newBody_inv (by omega) (by omega)
  | step d hr hstep ih => exact inv_step ih hstep

/-! ### The open-wall graph is a spanning tree -/

theorem parentFin_some {w h : Nat} (m : Maze) (v : Fin w × Fin h)
    {q : Nat × Nat} (hp : m.parentOf (v.1.1, v.2.1) = some q)
    (hq1 : q.1 < w) (hq2 : q.2 < h) :
    Maze.parentFin w h m v = some (⟨q.1, hq1⟩, ⟨q.2, hq2⟩) := by
  unfold Maze.parentFin
  rw [hp]
  have he : (if hq : q.1 < w ∧ q.2 < h then
      some ((⟨q.1, hq.1⟩ : Fin w), (⟨q.2, hq.2⟩ : Fin h)) else none) =
      some ((⟨q.1, hq1⟩ : Fin w), (⟨q.2, hq2⟩ : Fin h)) := by
    rw [dif_pos ⟨hq1, hq2⟩]
  exact he

theorem parentFin_inv {w h : Nat} {m : Maze} {v b : Fin w × Fin h}
    (hf : Maze.parentFin w h m v = some b) :
    m.parentOf (v.1.1, v.2.1) = some (b.1.1, b.2.1) := by
  unfold Maze.parentFin at hf
  rcases hq : m.parentOf (v.1.1, v.2.1) with _ | q
  · rw [hq] at hf
    have hf2 : (none : Option (Fin w × Fin h)) = some b := hf
    cases hf2
  · rw [hq] at hf
    by_cases hb : q.1 < w ∧ q.2 < h
    · have hf2 : (if hc : q.1 < w ∧ q.2 < h then
          some ((⟨q.1, hc.1⟩ : Fin w), (⟨q.2, hc.2⟩ : Fin h)) else none) =
          some b := hf
      rw [dif_pos hb] at hf2
      obtain rfl := Option.some.inj hf2
      rfl
    · have hf2 : (if hc : q.1 < w ∧ q.2 < h then
          some ((⟨q.1, hc.1⟩ : Fin w), (⟨q.2, hc.2⟩ : Fin h)) else none) =
          some b := hf
      rw [dif_neg hb] at hf2
      cases hf2

/-- An open wall between two in-bounds cells is exactly a tree edge: one of
the two cells is the other's parent. -/
theorem openAdj_iff_parent {w h : Nat} {m : Maze} (inv : Maze.Inv w h m)
    {a b : Nat × Nat} (ha : a.1 < w ∧ a.2 < h) (hb : b.1 < w ∧ b.2 < h) :
    m.openAdj a b ↔ (m.parentOf a = some b ∨ m.parentOf b = some a) := by
  have hw := inv.width_eq
  constructor
  · intro had
    rcases had with hs | hs
    · rcases hs with ⟨h1, h2, hwall⟩ | ⟨h1, h2, hwall⟩
      · rw [hw] at hwall
        have hy1 : a.2 + 1 < h := by omega
        rcases (inv.horz_open a.1 a.2 ha.1 hy1).mp hwall with ht | ht
        · right
          have ht2 : m.tiles[b.1 + b.2 * w]? = some (some Dir.up) := by
            rw [h1, h2]
            exact ht
          rw [parentOf_up hw ht2]
          exact congrArg some (by rw [h1, h2]; simp)
        · left
          rw [parentOf_down hw ht]
          exact congrArg some (by rw [← h2, ← h1])
      · rw [hw] at hwall
        have hx1 : a.1 + 1 < w := by omega
        rcases (inv.vert_open a.1 a.2 hx1 ha.2).mp hwall with ht | ht
        · right
          have ht2 : m.tiles[b.1 + b.2 * w]? = some (some Dir.left) := by
            rw [h1, h2]
            exact ht
          rw [parentOf_left hw ht2]
          exact congrArg some (by rw [h2, h1]; simp)
        · left
          rw [parentOf_right hw ht]
          exact congrArg some (by rw [← h2, ← h1])
    · rcases hs with ⟨h1, h2, hwall⟩ | ⟨h1, h2, hwall⟩
      · rw [hw] at hwall
        have hy1 : b.2 + 1 < h := by omega
        rcases (inv.horz_open b.1 b.2 hb.1 hy1).mp hwall with ht | ht
        · left
          have ht2 : m.tiles[a.1 + a.2 * w]? = some (some Dir.up) := by
            rw [h1, h2]
            exact ht
          rw [parentOf_up hw ht2]
          exact congrArg some (by rw [h1, h2]; simp)
        · right
          rw [parentOf_down hw ht]
          exact congrArg some (by rw [← h2, ← h1])
      · rw [hw] at hwall
        have hx1 : b.1 + 1 < w := by omega
        rcases (inv.vert_open b.1 b.2 hx1 hb.2).mp hwall with ht | ht
        · left
          have ht2 : m.tiles[a.1 + a.2 * w]? = some (some Dir.left) := by
            rw [h1, h2]
            exact ht
          rw [parentOf_left hw ht2]
          exact congrArg some (by rw [h2, h1]; simp)
        · right
          rw [parentOf_right hw ht]
          exact congrArg some (by rw [← h2, ← h1])
  · intro hp
    rcases hp with hp | hp
    · simp only [Maze.parentOf, hw] at hp
      rcases htc : m.tiles[a.1 + a.2 * w]? with _ | t
      · rw [htc] at hp
        cases hp
      · rw [htc] at hp
        rcases t with _ | dir
        · cases hp
        · cases dir with
          | up =>
            obtain rfl : (a.1, a.2 - 1) = b := Option.some.inj hp
            have h1 : 1 ≤ a.2 := inv.ptr_up a.1 a.2 ha.1 ha.2 htc
            right
            left
            refine ⟨rfl, by omega, ?_⟩
            rw [hw]
            refine (inv.horz_open a.1 (a.2 - 1) ha.1 (by omega)).mpr ?_
            left
            have he : a.2 - 1 + 1 = a.2 := by omega
            rw [he]
            exact htc
          | down =>
            obtain rfl : (a.1, a.2 + 1) = b := Option.some.inj hp
            left
            left
            refine ⟨rfl, rfl, ?_⟩
            rw [hw]
            exact (inv.horz_open a.1 a.2 ha.1 hb.2).mpr (Or.inr htc)
          | left =>
            obtain rfl : (a.1 - 1, a.2) = b := Option.some.inj hp
            have h1 : 1 ≤ a.1 := inv.ptr_left a.1 a.2 ha.1 ha.2 htc
            right
            right
            refine ⟨rfl, by omega, ?_⟩
            rw [hw]
            refine (inv.vert_open (a.1 - 1) a.2 (by omega) ha.2).mpr ?_
            left
            have he : a.1 - 1 + 1 = a.1 := by omega
            rw [he]
            exact htc
          | right =>
            obtain rfl : (a.1 + 1, a.2) = b := Option.some.inj hp
            left
            right
            refine ⟨rfl, rfl, ?_⟩
            rw [hw]
            exact (inv.vert_open a.1 a.2 hb.1 ha.2).mpr (Or.inr htc)
    · simp only [Maze.parentOf, hw] at hp
      rcases htc : m.tiles[b.1 + b.2 * w]? with _ | t
      · rw [htc] at hp
        cases hp
      · rw [htc] at hp
        rcases t with _ | dir
        · cases hp
        · cases dir with
          | up =>
            obtain rfl : (b.1, b.2 - 1) = a := Option.some.inj hp
            have h1 : 1 ≤ b.2 := inv.ptr_up b.1 b.2 hb.1 hb.2 htc
            left
            left
            refine ⟨rfl, by omega, ?_⟩
            rw [hw]
            refine (inv.horz_open b.1 (b.2 - 1) hb.1 (by omega)).mpr ?_
            left
            have he : b.2 - 1 + 1 = b.2 := by omega
            rw [he]
            exact htc
          | down =>
            obtain rfl : (b.1, b.2 + 1) = a := Option.some.inj hp
            right
            left
            refine ⟨rfl, rfl, ?_⟩
            rw [hw]
            exact (inv.horz_open b.1 b.2 hb.1 ha.2).mpr (Or.inr htc)
          | left =>
            obtain rfl : (b.1 - 1, b.2) = a := Option.some.inj hp
            have h1 : 1 ≤ b.1 := inv.ptr_left b.1 b.2 hb.1 hb.2 htc
            left
            right
            refine ⟨rfl, by omega, ?_⟩
            rw [hw]
            refine (inv.vert_open (b.1 - 1) b.2 (by omega) hb.2).mpr ?_
            left
            have he : b.1 - 1 + 1 = b.1 := by omega
            rw [he]
            exact htc
          | right =>
            obtain rfl : (b.1 + 1, b.2) = a := Option.some.inj hp
            right
            right
            refine ⟨rfl, rfl, ?_⟩
            rw [hw]
            exact (inv.vert_open b.1 b.2 ha.1 hb.2).mpr (Or.inr htc)

/-- Any cell that follows the parent pointers to the root reaches it by
iterating `Maze.pstep`. -/
theorem follows_pstep_iterate {m : Maze} {p : Nat × Nat}
    (hf : Follows m.parentOf m.origin p) :
    ∃ n, m.pstep^[n] p = m.origin := by
  induction hf with
  | refl => exact ⟨0, rfl⟩
  | @step c c' hpc hfc ih =>
    obtain ⟨n, hn⟩ := ih
    refine ⟨n + 1, ?_⟩
    rw [Function.iterate_succ_apply]
    have hs : m.pstep c = c' := by simp [Maze.pstep, hpc]
    rw [hs, hn]

/-- Every cell that follows the parent pointers to the root is joined to the
root in the open-wall graph. -/
theorem reach_graph {w h : Nat} {m : Maze} (inv : Maze.Inv w h m) :
    ∀ p, Follows m.parentOf m.origin p → ∀ (h1 : p.1 < w) (h2 : p.2 < h),
      (Maze.openGraph w h m).Reachable (⟨p.1, h1⟩, ⟨p.2, h2⟩)
        (⟨m.origin.1, inv.origin_lt.1⟩, ⟨m.origin.2, inv.origin_lt.2⟩) := by
  intro p hf
  induction hf with
  | refl =>
    intro h1 h2
    exact SimpleGraph.Reachable.refl _
  | @step c c' hpc hfc ih =>
    intro h1 h2
    have hb := parentOf_bounds inv ⟨h1, h2⟩ hpc
    have hadj : (Maze.openGraph w h m).Adj (⟨c.1, h1⟩, ⟨c.2, h2⟩)
        (⟨c'.1, hb.1⟩, ⟨c'.2, hb.2⟩) :=
      (openAdj_iff_parent inv ⟨h1, h2⟩ hb).mpr (Or.inl hpc)
    exact (SimpleGraph.Adj.reachable hadj).trans (ih hb.1 hb.2)

/-- A cycle cannot pass through a vertex of maximal depth when every edge of
the graph joins a vertex to its parent and the depth strictly drops from a
vertex to its parent. -/
theorem no_cycle_at_top {V : Type} {G : SimpleGraph V} {f : V → Option V}
    {dp : V → Nat}
    (hedge : ∀ a b, G.Adj a b → f a = some b ∨ f b = some a)
    (hdp : ∀ a b, f a = some b → dp b < dp a)
    {u : V} (c : G.Walk u u) (hc : c.IsCycle)
    (hmax : ∀ x ∈ c.support, dp x ≤ dp u) : False := by
  cases c with
  | nil => exact hc.ne_nil rfl
  | @cons _ b _ hadj q =>
    obtain ⟨a, q', hlast, heq⟩ := SimpleGraph.Walk.exists_cons_eq_concat hadj q
    have hedges2 : (SimpleGraph.Walk.cons hadj q).edges =
        q'.edges ++ [s(a, u)] := by
      rw [heq, SimpleGraph.Walk.edges_concat, List.concat_eq_append]
    have hbmem : b ∈ (SimpleGraph.Walk.cons hadj q).support := by
      rw [SimpleGraph.Walk.support_cons]
      exact List.mem_cons_of_mem _ q.start_mem_support
    have hfu_b : f u = some b := by
      rcases hedge u b hadj with hfb | hbu
      · exact hfb
      · exact absurd (hmax b hbmem) (Nat.not_le.mpr (hdp b u hbu))
    have haedge : s(a, u) ∈ (SimpleGraph.Walk.cons hadj q).edges := by
      rw [hedges2]
      exact List.mem_append_right _ (List.mem_singleton.mpr rfl)
    have hamem : a ∈ (SimpleGraph.Walk.cons hadj q).support :=
      SimpleGraph.Walk.fst_mem_support_of_mem_edges _ haedge
    have hfu_a : f u = some a := by
      rcases hedge a u hlast with hau | hfa
      · exact absurd (hmax a hamem) (Nat.not_le.mpr (hdp a u hau))
      · exact hfa
    have hab : a = b := Option.some.inj (hfu_a.symm.trans hfu_b)
    have h3 : 3 ≤ (SimpleGraph.Walk.cons hadj q).length := hc.three_le_length
    have hlen : (SimpleGraph.Walk.cons hadj q).edges.length =
        (SimpleGraph.Walk.cons hadj q).length := SimpleGraph.Walk.length_edges _
    have hlc : (SimpleGraph.Walk.cons hadj q).edges.length =
        q'.edges.length + 1 := by
      rw [hedges2]
      simp
    have hq2 : 2 ≤ q'.edges.length := by omega
    obtain ⟨e, es, hq'e⟩ : ∃ e es, q'.edges = e :: es := by
      cases hqe : q'.edges with
      | nil => rw [hqe] at hq2; simp at hq2
      | cons e es => exact ⟨e, es, rfl⟩
    have hkey : s(u, b) :: q.edges = e :: (es ++ [s(a, u)]) := by
      rw [← SimpleGraph.Walk.edges_cons hadj q, hedges2, hq'e, List.cons_append]
    injection hkey with hk1 hk2
    rw [hab] at hk2
    have hsw : s(u, b) = s(b, u) := Sym2.eq_swap
    have hmem : s(u, b) ∈ q.edges := by
      rw [hk2, hsw]
      exact List.mem_append_right _ (List.mem_singleton.mpr rfl)
    have hnodup := hc.edges_nodup
    rw [SimpleGraph.Walk.edges_cons] at hnodup
    exact (List.nodup_cons.mp hnodup).1 hmem

/-- A graph each of whose edges joins a vertex to its unique parent, with a
well-founded depth measure, has no cycle. -/
theorem isAcyclic_of_parent {V : Type} [DecidableEq V] {G : SimpleGraph V}
    {f : V → Option V} {dp : V → Nat}
    (hedge : ∀ a b, G.Adj a b → f a = some b ∨ f b = some a)
    (hdp : ∀ a b, f a = some b → dp b < dp a) : G.IsAcyclic := by
  intro v c hc
  obtain ⟨u, hu, hmax⟩ := Finset.exists_max_image c.support.toFinset dp
    ⟨v, List.mem_toFinset.mpr c.start_mem_support⟩
  have hu2 : u ∈ c.support := List.mem_toFinset.mp hu
  refine no_cycle_at_top hedge hdp (c.rotate hu2) (hc.rotate hu2) ?_
  intro x hx
  rw [SimpleGraph.Walk.support_eq_cons] at hx
  rcases List.mem_cons.mp hx with rfl | hx2
  · exact Nat.le_refl _
  · have hrot := SimpleGraph.Walk.support_rotate c hu2
    have hxt : x ∈ c.support.tail := hrot.mem_iff.mp hx2
    exact hmax x (List.mem_toFinset.mpr (List.mem_of_mem_tail hxt))

/-- The full spanning-tree property of an invariant-satisfying state: the
open-wall graph is a tree and its edges are exactly the parent edges. -/
theorem spanning_tree_of_inv {w h : Nat} {m : Maze} (inv : Maze.Inv w h m) :
    (Maze.openGraph w h m).IsTree ∧
    ∀ a b : Fin w × Fin h, (Maze.openGraph w h m).Adj a b ↔
      (m.parentOf (a.1.1, a.2.1) = some (b.1.1, b.2.1) ∨
       m.parentOf (b.1.1, b.2.1) = some (a.1.1, a.2.1)) := by
  have adjIff : ∀ a b : Fin w × Fin h, (Maze.openGraph w h m).Adj a b ↔
      (m.parentOf (a.1.1, a.2.1) = some (b.1.1, b.2.1) ∨
       m.parentOf (b.1.1, b.2.1) = some (a.1.1, a.2.1)) := by
    intro a b
    exact openAdj_iff_parent inv ⟨a.1.2, a.2.2⟩ ⟨b.1.2, b.2.2⟩
  refine ⟨⟨?_, ?_⟩, adjIff⟩
  · refine (SimpleGraph.connected_iff_exists_forall_reachable _).mpr
      ⟨(⟨m.origin.1, inv.origin_lt.1⟩, ⟨m.origin.2, inv.origin_lt.2⟩), ?_⟩
    intro v
    exact (reach_graph inv (v.1.1, v.2.1)
      (inv.reach v.1.1 v.2.1 v.1.2 v.2.2) v.1.2 v.2.2).symm
  · have hex : ∀ v : Fin w × Fin h, ∃ n, m.pstep^[n] (v.1.1, v.2.1) = m.origin :=
      fun v => follows_pstep_iterate (inv.reach v.1.1 v.2.1 v.1.2 v.2.2)
    have hedge : ∀ a b : Fin w × Fin h, (Maze.openGraph w h m).Adj a b →
        Maze.parentFin w h m a = some b ∨ Maze.parentFin w h m b = some a := by
      intro a b hab
      rcases (adjIff a b).mp hab with hp | hp
      · left
        have hb2 := parentOf_bounds inv ⟨a.1.2, a.2.2⟩ hp
        rw [parentFin_some m a hp hb2.1 hb2.2]
      · right
        have hb2 := parentOf_bounds inv ⟨b.1.2, b.2.2⟩ hp
        rw [parentFin_some m b hp hb2.1 hb2.2]
    have hdp : ∀ a b : Fin w × Fin h, Maze.parentFin w h m a = some b →
        Nat.find (hex b) < Nat.find (hex a) := by
      intro a b hfab
      have hpab := parentFin_inv hfab
      have hane : ((a.1.1 : Nat), (a.2.1 : Nat)) ≠ m.origin := by
        intro he
        have hno : m.parentOf m.origin = none :=
          parentOf_none inv.width_eq inv.root_none
        rw [he, hno] at hpab
        cases hpab
      have hspec := Nat.find_spec (hex a)
      have hna0 : Nat.find (hex a) ≠ 0 := by
        intro h0
        rw [h0] at hspec
        exact hane hspec
      obtain ⟨k, hk⟩ : ∃ k, Nat.find (hex a) = k + 1 :=
        ⟨Nat.find (hex a) - 1, by omega⟩
      have hs1 : m.pstep (a.1.1, a.2.1) = (b.1.1, b.2.1) := by
        simp [Maze.pstep, hpab]
      have hkb : m.pstep^[k] (b.1.1, b.2.1) = m.origin := by
        rw [hk, Function.iterate_succ_apply, hs1] at hspec
        exact hspec
      have hle : Nat.find (hex b) ≤ k := Nat.find_le hkb
      omega
    exact @isAcyclic_of_parent _ _ _ (Maze.parentFin w h m)
      (fun v => Nat.find (hex v)) hedge hdp

/-! ### Totality of the renderer on well-formed states -/

/-- `List.mapM` over `Option` succeeds when `f` succeeds on every element,
and the result reads back pointwise. -/
theorem mapM_option_total {α β : Type} (f : α → Option β) :
    ∀ l : List α, (∀ a ∈ l, (f a).isSome) →
      ∃ r, l.mapM f = some r ∧ r.length = l.length ∧
        ∀ j : Nat, r[j]? = (l[j]?).bind f := by
  intro l
  induction l with
  | nil =>
    intro _
    exact ⟨[], rfl, by simp, by intro j; simp⟩
  | cons a as ih =>
    intro hall
    obtain ⟨b, hb⟩ := Option.isSome_iff_exists.mp (hall a (List.mem_cons_self a as))
    obtain ⟨r, hr, hlen, hget⟩ := ih (fun x hx => hall x (List.mem_cons_of_mem a hx))
    refine ⟨b :: r, ?_, by simp [hlen], ?_⟩
    · rw [List.mapM_cons, hb, hr]
      rfl
    · intro j
      cases j with
      | zero => simp [hb]
      | succ j => simp [hget j]

/-- A text cell at an even-even position (0-based) is always `'+'`. -/
theorem cellChar_plus (m : Maze) (dirs : Bool) {x y : Nat}
    (hx : x % 2 = 0) (hy : y % 2 = 0) : m.cellChar dirs x y = some '+' := by
  simp [Maze.cellChar, hx, hy]

/-- On a state with well-sized arrays every text cell of the renderer is
produced (no read panics). -/
theorem cellChar_isSome {m : Maze} (dirs : Bool)
    (hT : m.tiles.length = m.width * m.height)
    (hH : m.horz_walls.length = m.width * (m.height - 1))
    (hV : m.vert_walls.length = (m.width - 1) * m.height)
    {x y : Nat} (hx : x < m.width * 2 + 1) (hy : y < m.height * 2 + 1) :
    (m.cellChar dirs x y).isSome := by
  rcases hxe : (x % 2 == 0) with _ | _ <;> rcases hye : (y % 2 == 0) with _ | _ <;>
    simp only [Maze.cellChar, hxe, hye]
  · have hx0 : x % 2 ≠ 0 := by simpa using hxe
    have hy0 : y % 2 ≠ 0 := by simpa using hye
    rcases dirs with _ | _
    · simp
    · have hxx : x / 2 < m.width := by omega
      have hyy : y / 2 < m.height := by omega
      have hb : x / 2 + y / 2 * m.width < m.tiles.length := by
        rw [hT]
        exact idx_lt hxx hyy
      obtain ⟨t, ht⟩ : ∃ t, m.tiles[x / 2 + y / 2 * m.width]? = some t :=
        ⟨_, List.getElem?_eq_getElem hb⟩
      simp only [ht]
      rcases t with _ | d
      · simp
      · cases d <;> simp
  · have hx0 : x % 2 ≠ 0 := by simpa using hxe
    have hy0 : y % 2 = 0 := by simpa using hye
    by_cases hc : y / 2 = 0 ∨ y / 2 = m.height
    · rw [if_pos hc]
      simp
    · rw [if_neg hc]
      push_neg at hc
      have hxx : x / 2 < m.width := by omega
      have hyy : y / 2 - 1 < m.height - 1 := by omega
      have hb : x / 2 + (y / 2 - 1) * m.width < m.horz_walls.length := by
        rw [hH]
        exact idx_lt hxx hyy
      obtain ⟨t, ht⟩ : ∃ t, m.horz_walls[x / 2 + (y / 2 - 1) * m.width]? = some t :=
        ⟨_, List.getElem?_eq_getElem hb⟩
      simp only [ht]
      rcases t with _ | _ <;> simp
  · have hx0 : x % 2 = 0 := by simpa using hxe
    have hy0 : y % 2 ≠ 0 := by simpa using hye
    by_cases hc : x / 2 = 0 ∨ x / 2 = m.width
    · rw [if_pos hc]
      simp
    · rw [if_neg hc]
      push_neg at hc
      have hxx : x / 2 - 1 < m.width - 1 := by omega
      have hyy : y / 2 < m.height := by omega
      have hb : x / 2 - 1 + y / 2 * (m.width - 1) < m.vert_walls.length := by
        rw [hV]
        exact idx_lt hxx hyy
      obtain ⟨t, ht⟩ : ∃ t, m.vert_walls[x / 2 - 1 + y / 2 * (m.width - 1)]? = some t :=
        ⟨_, List.getElem?_eq_getElem hb⟩
      simp only [ht]
      rcases t with _ | _ <;> simp
  · simp

/-- One renderer row of a well-formed state: it is produced, has
`2*width + 1` characters, and reads back through `cellChar`. -/
theorem rowChars_get {m : Maze} (dirs : Bool)
    (hT : m.tiles.length = m.width * m.height)
    (hH : m.horz_walls.length = m.width * (m.height - 1))
    (hV : m.vert_walls.length = (m.width - 1) * m.height)
    {y : Nat} (hy : y < m.height * 2 + 1) :
    ∃ r, m.rowChars dirs y = some r ∧ r.length = m.width * 2 + 1 ∧
      ∀ j, j < m.width * 2 + 1 → r[j]? = m.cellChar dirs j y := by
  obtain ⟨r, hr, hlen, hget⟩ := mapM_option_total (fun x => m.cellChar dirs x y)
    (List.range (m.width * 2 + 1))
    (fun x hxm => cellChar_isSome dirs hT hH hV (List.mem_range.mp hxm) hy)
  refine ⟨r, hr, by simpa using hlen, ?_⟩
  intro j hj
  rw [hget j, List.getElem?_range hj]
  rfl

/-- The renderer grid of a well-formed state: all rows are produced, there
are `2*height + 1` of them, and they read back through `rowChars`. -/
theorem gridChars_get {m : Maze} (dirs : Bool)
    (hT : m.tiles.length = m.width * m.height)
    (hH : m.horz_walls.length = m.width * (m.height - 1))
    (hV : m.vert_walls.length = (m.width - 1) * m.height) :
    ∃ rows, m.gridChars dirs = some rows ∧ rows.length = m.height * 2 + 1 ∧
      ∀ i, i < m.height * 2 + 1 → rows[i]? = m.rowChars dirs i := by
  obtain ⟨rows, hr, hlen, hget⟩ := mapM_option_total (fun y => m.rowChars dirs y)
    (List.range (m.height * 2 + 1))
    (fun y hym => by
      obtain ⟨r, hrow, _, _⟩ := rowChars_get dirs hT hH hV (List.mem_range.mp hym)
      show (m.rowChars dirs y).isSome
      rw [hrow]
      rfl)
  refine ⟨rows, hr, by simpa using hlen, ?_⟩
  intro i hi
  rw [hget i, List.getElem?_range hi]
  rfl

/-! ### A valid move always exists on a grid with at least two cells -/

theorem valid_move_exists {w h : Nat} {m : Maze} (inv : Maze.Inv w h m)
    (h2 : 2 ≤ w * h) : ∃ d, (m.moveTarget d).isSome := by
  have hw := inv.width_eq
  have hh := inv.height_eq
  have ho := inv.origin_lt
  by_cases hw2 : 2 ≤ w
  · by_cases h0 : m.origin.1 = 0
    · refine ⟨Dir.right, ?_⟩
      simp only [Maze.moveTarget]
      rw [hw, h0, if_neg (by omega)]
      rfl
    · refine ⟨Dir.left, ?_⟩
      simp only [Maze.moveTarget]
      rw [if_neg h0]
      rfl
  · have hw1 : w = 1 := by
      have := inv.wpos
      omega
    have hh2 : 2 ≤ h := by
      rw [hw1] at h2
      omega
    by_cases h0 : m.origin.2 = 0
    · refine ⟨Dir.down, ?_⟩
      simp only [Maze.moveTarget]
      rw [hh, h0, if_neg (by omega)]
      rfl
    · refine ⟨Dir.up, ?_⟩
      simp only [Maze.moveTarget]
      rw [if_neg h0]
      rfl

/-! ### The ten claims -/

/-- C1 (invariants): for every state reachable from `new width height` by
`step` calls, the graph over the `width*height` cells whose edges are the
open walls is connected and acyclic, and two adjacent cells have an open
wall between them iff one is the other's parent: the open walls are exactly
the spanning tree's edges. -/
theorem spanning_tree_reachable {w h : Nat} {m : Maze}
    (hr : Maze.Reachable w h m) :
    (Maze.openGraph w h m).IsTree ∧
    ∀ a b : Fin w × Fin h, (Maze.openGraph w h m).Adj a b ↔
      (m.parentOf (a.1.1, a.2.1) = some (b.1.1, b.2.1) ∨
       m.parentOf (b.1.1, b.2.1) = some (a.1.1, a.2.1)) :=
  spanning_tree_of_inv (inv_reachable hr)

/-- C1 witness: the freshly built 2×2 maze. -/
theorem spanning_tree_reachable_witness :
    (Maze.openGraph 2 2 (Maze.newBody 2 2)).IsTree ∧
    ∀ a b : Fin 2 × Fin 2, (Maze.openGraph 2 2 (Maze.newBody 2 2)).Adj a b ↔
      ((Maze.newBody 2 2).parentOf (a.1.1, a.2.1) = some (b.1.1, b.2.1) ∨
       (Maze.newBody 2 2).parentOf (b.1.1, b.2.1) = some (a.1.1, a.2.1)) :=
  spanning_tree_reachable (Maze.Reachable.base rfl)

/-- C2 (invariants): in every reachable state the number of open horizontal
walls plus the number of open vertical walls is `width*height - 1`. -/
theorem open_wall_count {w h : Nat} {m : Maze} (hr : Maze.Reachable w h m) :
    m.horz_walls.count false + m.vert_walls.count false = w * h - 1 := by
  have inv := inv_reachable hr
  have := inv.wall_count
  omega

/-- C2 witness: the freshly built 2×2 maze has `2*2 - 1` open walls. -/
theorem open_wall_count_witness :
    (Maze.newBody 2 2).horz_walls.count false +
      (Maze.newBody 2 2).vert_walls.count false = 2 * 2 - 1 :=
  open_wall_count (Maze.Reachable.base rfl)

/-- C3 (invariants): in every reachable state the cell at the stored root
coordinate (the `origin` field, the specification's `rootPosition()`) has
parent pointer `Root` (`none`), and it is the only such cell. -/
theorem single_root {w h : Nat} {m : Maze} (hr : Maze.Reachable w h m) :
    m.tiles[m.origin.1 + m.origin.2 * w]? = some none ∧
    ∀ x y, x < w → y < h → m.tiles[x + y * w]? = some none →
      (x, y) = m.origin := by
  have inv := inv_reachable hr
  exact ⟨inv.root_none, inv.unique_root⟩

/-- C3 witness: the freshly built 2×2 maze. -/
theorem single_root_witness :
    (Maze.newBody 2 2).tiles[(Maze.newBody 2 2).origin.1 +
      (Maze.newBody 2 2).origin.2 * 2]? = some none ∧
    ∀ x y, x < 2 → y < 2 → (Maze.newBody 2 2).tiles[x + y * 2]? = some none →
      (x, y) = (Maze.newBody 2 2).origin :=
  single_root (Maze.Reachable.base rfl)

/-- C4 (functional correctness): for `width ≥ 1`, `height ≥ 1` the
constructor returns the comb state: root `(0,0)`, column 0 of other rows
pointing `Up`, every other cell pointing `Left`; horizontal walls closed
except column 0; vertical walls all open. -/
theorem new_comb_state {w h : Nat} (hw : 1 ≤ w) (hh : 1 ≤ h) :
    Maze.new w h = Except.ok (Maze.newBody w h) ∧
    (Maze.newBody w h).origin = (0, 0) ∧
    (∀ x y, x < w → y < h → (Maze.newBody w h).tiles[x + y * w]? =
      some (if x = 0 then (if y = 0 then none else some Dir.up)
            else some Dir.left)) ∧
    (∀ x y, x < w → y + 1 < h → (Maze.newBody w h).horz_walls[x + y * w]? =
      some (if x = 0 then false else true)) ∧
    (∀ j, j < (w - 1) * h → (Maze.newBody w h).vert_walls[j]? = some false) := by
  refine ⟨?_, newBody_origin w h, ?_, ?_, ?_⟩
  · unfold Maze.new
    rw [if_neg (by omega)]
  · intro x y hx hy
    exact newBody_tiles_get w h hw hx hy
  · intro x y hx hy
    exact newBody_horz_get w h hw hx (by omega)
  · intro j hj
    exact newBody_vert_get w h hj

/-- C4 witness: the 2×2 instance. -/
theorem new_comb_state_witness :
    Maze.new 2 2 = Except.ok (Maze.newBody 2 2) ∧
    (Maze.newBody 2 2).origin = (0, 0) ∧
    (∀ x y, x < 2 → y < 2 → (Maze.newBody 2 2).tiles[x + y * 2]? =
      some (if x = 0 then (if y = 0 then none else some Dir.up)
            else some Dir.left)) ∧
    (∀ x y, x < 2 → y + 1 < 2 → (Maze.newBody 2 2).horz_walls[x + y * 2]? =
      some (if x = 0 then false else true)) ∧
    (∀ j, j < (2 - 1) * 2 → (Maze.newBody 2 2).vert_walls[j]? = some false) :=
  new_comb_state (by omega) (by omega)

/-- C5 counterexample: on the initial 3×3 comb the `Down` step from `(0,0)`
to `(0,1)` does not close any wall at all — `(0,1)`'s old parent edge is the
*horizontal* edge to `(0,0)` just traversed (the reuse branch), not a
vertical wall: both wall arrays are left unchanged. -/
theorem down_step_no_close :
    ((Maze.newBody 3 3).step Dir.down).map Maze.vert_walls =
      some (Maze.newBody 3 3).vert_walls ∧
    ((Maze.newBody 3 3).step Dir.down).map Maze.horz_walls =
      some (Maze.newBody 3 3).horz_walls := by
  decide

/-- C5 (corrected): on the initial 3×3 comb, the `Down` step from `(0,0)`
to `(0,1)` hits the same-edge-reused branch (`(0,1)` pointed `Up` at the
traversed edge).  The resulting state is pinned completely: the wall
arrays, dimensions and the other seven parent pointers are exactly those
of `newBody 3 3`; only the stored root (now `(0,1)`) and the two involved
parent pointers (cell `(0,0)`, index `0 + 0*3`, now `Down`; cell `(0,1)`,
index `0 + 1*3`, now `Root`) change. -/
theorem down_step_reuse :
    (Maze.newBody 3 3).step Dir.down = some { Maze.newBody 3 3 with
      origin := (0, 1),
      tiles := (((Maze.newBody 3 3).tiles.set (0 + 0 * 3)
        (some Dir.down)).set (0 + 1 * 3) none) } := by
  decide

/-- C6 (functional correctness): on a 2×2 maze with root `(0,0)` whose tree
edge to `(1,0)` is present (`(1,0)` points `Left`, the wall between them
open), stepping `Right` and then `Left` hits the reuse branch both times:
walls never change, only the two cells' pointers and the root swap, and the
second step restores the original state exactly. -/
theorem reuse_roundtrip {m : Maze}
    (hw : m.width = 2) (hh : m.height = 2) (ho : m.origin = (0, 0))
    (htl : m.tiles.length = 4)
    (ht0 : m.tiles[0]? = some none)
    (ht1 : m.tiles[1]? = some (some Dir.left))
    (hv0 : m.vert_walls[0]? = some false) :
    ∃ m₁ m₂, m.step Dir.right = some m₁ ∧ m₁.step Dir.left = some m₂ ∧
      m₁.horz_walls = m.horz_walls ∧ m₁.vert_walls = m.vert_walls ∧
      m₁.origin = (1, 0) ∧
      m₁.tiles = (m.tiles.set 0 (some Dir.right)).set 1 none ∧
      m₂ = m := by
  have hv0l : 0 < m.vert_walls.length := (List.getElem?_eq_some.mp hv0).1
  have hw1 : 1 ≤ m.width := by omega
  have hsc1 := stepCore_right_left (m := m) (p := ((1 : Nat), (0 : Nat))) hw1
    (by rw [ho]; simpa using hv0l)
    (by simpa using ht1)
    (by rw [ho]; simpa [htl] using (by omega : (0 : Nat) < 4))
    (by simpa [htl] using (by omega : (1 : Nat) < 4))
  rw [ho] at hsc1
  simp only [Nat.zero_mul, Nat.add_zero, Nat.mul_zero, Nat.zero_add] at hsc1
  rw [set_same hv0] at hsc1
  have hmt : m.moveTarget Dir.right = some (1, 0) := by
    simp [Maze.moveTarget, hw, ho]
  have hstep1 : m.step Dir.right = some { m with
      origin := (1, 0),
      tiles := (m.tiles.set 0 (some Dir.right)).set 1 none } := by
    unfold Maze.step
    rw [hmt]
    exact hsc1
  have hm₁t : ((m.tiles.set 0 (some Dir.right)).set 1 none)[(0 : Nat)]? =
      some (some Dir.right) := by
    rw [set2_get]
    rw [if_neg (by omega), if_pos rfl, if_pos (by omega)]
  have hsc2 := stepCore_left_right (m := { m with
      origin := (1, 0),
      tiles := (m.tiles.set 0 (some Dir.right)).set 1 none })
    (p := ((0 : Nat), (0 : Nat))) hw1
    (by simpa using hv0l)
    (by simpa using hm₁t)
    (by simp [htl])
    (by simp [htl])
  simp only [Nat.zero_mul, Nat.add_zero, Nat.mul_zero, Nat.zero_add] at hsc2
  have hmt2 : ({ m with
      origin := (1, 0),
      tiles := (m.tiles.set 0 (some Dir.right)).set 1 none } : Maze).moveTarget
        Dir.left = some (0, 0) := by
    simp [Maze.moveTarget]
  have htback : (((m.tiles.set 0 (some Dir.right)).set 1 none).set 1
      (some Dir.left)).set 0 none = m.tiles := by
    apply List.ext_getElem?
    intro n
    rw [set1_get, set1_get, set1_get, set1_get]
    simp only [List.length_set, htl]
    by_cases h0 : n = 0
    · subst h0
      rw [if_pos rfl, if_pos (by omega)]
      exact ht0.symm
    · by_cases h1 : n = 1
      · subst h1
        rw [if_neg (by omega), if_pos rfl, if_pos (by omega)]
        exact ht1.symm
      · rw [if_neg (by omega), if_neg (by omega), if_neg (by omega),
          if_neg (by omega)]
  refine ⟨_, m, hstep1, ?_, rfl, rfl, rfl, rfl, rfl⟩
  unfold Maze.step
  rw [hmt2]
  exact hsc2.trans (congrArg some (by rw [htback, set_same hv0, ← ho]))

/-- C6 witness: the freshly built 2×2 maze is exactly such a state. -/
theorem reuse_roundtrip_witness :
    ∃ m₁ m₂, (Maze.newBody 2 2).step Dir.right = some m₁ ∧
      m₁.step Dir.left = some m₂ ∧
      m₁.horz_walls = (Maze.newBody 2 2).horz_walls ∧
      m₁.vert_walls = (Maze.newBody 2 2).vert_walls ∧
      m₁.origin = (1, 0) ∧
      m₁.tiles = ((Maze.newBody 2 2).tiles.set 0 (some Dir.right)).set 1 none ∧
      m₂ = Maze.newBody 2 2 :=
  reuse_roundtrip (by decide) (by decide) (by decide) (by decide) (by decide)
    (by decide) (by decide)

/-- C7 (functional correctness): on any maze state with well-sized arrays
and either value of the direction flag, the renderer produces a
`(2*height+1)`-row by `(2*width+1)`-column character grid, joined by a
newline after each row, and every position whose row and column index are
both odd (1-based; equivalently both even 0-based) is the intersection
character `'+'`. -/
theorem render_grid_shape (m : Maze) (dirs : Bool)
    (hT : m.tiles.length = m.width * m.height)
    (hH : m.horz_walls.length = m.width * (m.height - 1))
    (hV : m.vert_walls.length = (m.width - 1) * m.height) :
    ∃ rows, m.gridChars dirs = some rows ∧
      m.to_str dirs =
        some (String.join (rows.map (fun r => String.mk r ++ "\n"))) ∧
      rows.length = 2 * m.height + 1 ∧
      (∀ r ∈ rows, r.length = 2 * m.width + 1) ∧
      ∀ i j, 1 ≤ i → i ≤ 2 * m.height + 1 → 1 ≤ j → j ≤ 2 * m.width + 1 →
        i % 2 = 1 → j % 2 = 1 →
          (rows[i - 1]?.bind (fun r => r[j - 1]?)) = some '+' := by
  obtain ⟨rows, hrows, hlen, hget⟩ := gridChars_get dirs hT hH hV
  refine ⟨rows, hrows, ?_, by omega, ?_, ?_⟩
  · unfold Maze.to_str
    rw [hrows]
    rfl
  · intro r hmem
    obtain ⟨i, hilt, hri⟩ := List.getElem_of_mem hmem
    have hi2 : i < m.height * 2 + 1 := by
      rw [hlen] at hilt
      exact hilt
    have hsome : rows[i]? = some r := by
      rw [List.getElem?_eq_getElem hilt, hri]
    rw [hget i hi2] at hsome
    obtain ⟨r2, hr2, hrlen, _⟩ := rowChars_get dirs hT hH hV hi2
    rw [hr2] at hsome
    obtain rfl := Option.some.inj hsome
    omega
  · intro i j hi1 hi2 hj1 hj2 hiodd hjodd
    have hie : (i - 1) % 2 = 0 := by omega
    have hje : (j - 1) % 2 = 0 := by omega
    have hib : i - 1 < m.height * 2 + 1 := by omega
    have hjb : j - 1 < m.width * 2 + 1 := by omega
    obtain ⟨r, hr, hrlen, hrget⟩ := rowChars_get dirs hT hH hV hib
    rw [hget (i - 1) hib, hr]
    show r[j - 1]? = some (Char.ofNat 43)
    rw [hrget (j - 1) hjb]
    exact cellChar_plus m dirs hje hie

/-- C7 witness: the 2×2 instance with the direction flag off. -/
theorem render_grid_shape_witness :
    ∃ rows, (Maze.newBody 2 2).gridChars false = some rows ∧
      (Maze.newBody 2 2).to_str false =
        some (String.join (rows.map (fun r => String.mk r ++ "\n"))) ∧
      rows.length = 2 * (Maze.newBody 2 2).height + 1 ∧
      (∀ r ∈ rows, r.length = 2 * (Maze.newBody 2 2).width + 1) ∧
      ∀ i j, 1 ≤ i → i ≤ 2 * (Maze.newBody 2 2).height + 1 →
        1 ≤ j → j ≤ 2 * (Maze.newBody 2 2).width + 1 →
        i % 2 = 1 → j % 2 = 1 →
          (rows[i - 1]?.bind (fun r => r[j - 1]?)) = some '+' :=
  render_grid_shape (Maze.newBody 2 2) false (by decide) (by decide) (by decide)

/-- C8 counterexample: for `width = 0` the constructor panics (the source
performs no validation: `chunks_exact_mut(0)` aborts); it does not return
the specification's `InvalidDimension` error, which no code path produces. -/
theorem new_zero_width_panics :
    Maze.new 0 1 = Except.error MazeErr.panic ∧
    Maze.new 0 1 ≠ Except.error MazeErr.invalidDimension := by
  constructor
  · rfl
  · intro hc
    have h1 : Maze.new 0 1 = Except.error MazeErr.panic := rfl
    rw [h1] at hc
    simp at hc

/-- C8 (corrected): `new` succeeds with the fresh comb state exactly when
`width ≥ 1` and `height ≥ 1`; for `width = 0` or `height = 0` it fails by
panicking (no `InvalidDimension` error exists in the code). -/
theorem new_failure_mode (w h : Nat) :
    (w = 0 ∨ h = 0 → Maze.new w h = Except.error MazeErr.panic) ∧
    (1 ≤ w → 1 ≤ h → Maze.new w h = Except.ok (Maze.newBody w h)) := by
  constructor
  · intro h0
    unfold Maze.new
    rw [if_pos h0]
  · intro hw hh
    unfold Maze.new
    rw [if_neg (by omega)]

/-- C8 witness: both failure modes at concrete dimensions. -/
theorem new_failure_mode_witness :
    Maze.new 0 1 = Except.error MazeErr.panic ∧
    Maze.new 2 3 = Except.ok (Maze.newBody 2 3) :=
  ⟨(new_failure_mode 0 1).1 (Or.inl rfl),
   (new_failure_mode 2 3).2 (by omega) (by omega)⟩

/-- C9 counterexample: the sampling loop does *not* terminate for every
randomness source even on a grid with `2*2 ≥ 2` cells — a source that
always draws `Up` from the initial state (root `(0,0)`) is rejected
forever. -/
theorem loop_const_up_diverges :
    2 ≤ 2 * 2 ∧
    ¬ (Maze.newBody 2 2).loopTerminates (fun _ => Dir.up) := by
  refine ⟨by omega, ?_⟩
  rintro ⟨k, hk⟩
  have : (Maze.newBody 2 2).moveTarget Dir.up = none := rfl
  rw [this] at hk
  simp at hk

/-- C9 (corrected): from any reachable state of a grid with at least two
cells the rejection loop terminates for every randomness source that
eventually draws each direction (some draw is accepted); on a 1×1 grid no
draw is ever accepted, whatever the source. -/
theorem loop_termination {w h : Nat} {m : Maze} (hr : Maze.Reachable w h m) :
    (2 ≤ w * h → ∀ draws : Nat → Dir, (∀ d, ∃ k, draws k = d) →
      m.loopTerminates draws) ∧
    (w * h = 1 → ∀ draws : Nat → Dir, ¬ m.loopTerminates draws) := by
  have inv := inv_reachable hr
  constructor
  · intro h2 draws hfair
    obtain ⟨d, hd⟩ := valid_move_exists inv h2
    obtain ⟨k, hk⟩ := hfair d
    refine ⟨k, ?_⟩
    rw [hk]
    exact hd
  · intro h1 draws hterm
    obtain ⟨k, hk⟩ := hterm
    have hw1 : w = 1 := by
      by_contra hne
      have h2w : 2 ≤ w := by
        have := inv.wpos
        omega
      have : 2 ≤ w * h := by simpa using Nat.mul_le_mul h2w inv.hpos
      omega
    have hh1 : h = 1 := by
      by_contra hne
      have h2h : 2 ≤ h := by
        have := inv.hpos
        omega
      have : 2 * 1 ≤ w * h := by
        have := Nat.mul_le_mul inv.wpos h2h
        omega
      omega
    have ho1 : m.origin.1 = 0 := by
      have := inv.origin_lt.1
      omega
    have ho2 : m.origin.2 = 0 := by
      have := inv.origin_lt.2
      omega
    rcases hdk : draws k with _ | _ | _ | _ <;> rw [hdk] at hk
    · simp only [Maze.moveTarget] at hk
      rw [if_pos ho2] at hk
      simp at hk
    · simp only [Maze.moveTarget] at hk
      rw [if_pos (by rw [ho2, inv.height_eq, hh1])] at hk
      simp at hk
    · simp only [Maze.moveTarget] at hk
      rw [if_pos ho1] at hk
      simp at hk
    · simp only [Maze.moveTarget] at hk
      rw [if_pos (by rw [ho1, inv.width_eq, hw1])] at hk
      simp at hk

/-- C9 witness: a round-robin source terminates on the fresh 2×2 maze. -/
theorem loop_termination_witness :
    (Maze.newBody 2 2).loopTerminates (fun k => Dir.sample (k % 4)) :=
  (loop_termination (w := 2) (h := 2) (Maze.Reachable.base rfl)).1 (by omega)
    (fun k => Dir.sample (k % 4))
    (fun d => by
      cases d with
      | up => exact ⟨0, rfl⟩
      | down => exact ⟨1, rfl⟩
      | left => exact ⟨2, rfl⟩
      | right => exact ⟨3, rfl⟩)

/-- C10 (safety): from any reachable state of a grid with at least two
cells, once the sampled direction is accepted (its move target is
in-grid), the mutation body of `step` runs to completion: every array index
is in bounds and the `unwrap` of the new root's old pointer succeeds, so
`step` never panics. -/
theorem step_never_panics {w h : Nat} {m : Maze} (hr : Maze.Reachable w h m)
    (hwh : 2 ≤ w * h) (d : Dir) (hmt : (m.moveTarget d).isSome) :
    (m.step d).isSome := by
  have inv := inv_reachable hr
  obtain ⟨p, hp⟩ := Option.isSome_iff_exists.mp hmt
  obtain ⟨m', hm', _⟩ := step_succeeds inv d hp
  have hst : m.step d = some m' := by
    unfold Maze.step
    rw [hp]
    exact hm'
  rw [hst]
  rfl

/-- C10 witness: the accepted `Right` move on the fresh 2×2 maze. -/
theorem step_never_panics_witness : ((Maze.newBody 2 2).step Dir.right).isSome :=
  step_never_panics (w := 2) (h := 2) (Maze.Reachable.base rfl) (by omega)
    Dir.right (by decide)
